import Mathlib

/-!
Verification of the KnownBits algebra (`llvm/lib/Support/KnownBits.cpp`) and the
GlobalISel known-bits / sign-bits analysis (`llvm/lib/CodeGen/GlobalISel/GISelKnownBits.cpp`).

Fixed-width `w`-bit machine integers are embedded as natural numbers `x < 2 ^ w`;
every wrapping operation takes an explicit `% 2 ^ w`.
-/

/-- All-ones value of `n` bits (`APInt::getAllOnesValue(n)`). -/
def ones (n : Nat) : Nat := 2 ^ n - 1

/-- Bitwise complement within width `w` (`operator~` on a `w`-bit `APInt`). -/
def notW (w x : Nat) : Nat := ones w ^^^ x

/-- Low `n` bits of a value (`APInt::getLoBits(n)`, the width staying implicit). -/
def loBits (n x : Nat) : Nat := x % 2 ^ n

/-- Mask holding bits `k .. w-1` of a `w`-bit value (`APInt::setBitsFrom(k)` sets these). -/
def bitsFrom (w k : Nat) : Nat := ones w ^^^ ones k

/-- Clear bit `i` (`APInt::clearBit`). -/
def clearBit (x i : Nat) : Nat := if x.testBit i then x ^^^ 2 ^ i else x

/-- Set bit `i` to the boolean `b` (`APInt::setBitVal`). -/
def setBitTo (x i : Nat) (b : Bool) : Nat := if b then x ||| 2 ^ i else clearBit x i

/-- Number of trailing one bits within width `w` (`APInt::countTrailingOnes`). -/
def countTrailingOnes (w x : Nat) : Nat :=
  match w with
  | 0 => 0
  | n + 1 => if x % 2 = 1 then countTrailingOnes n (x / 2) + 1 else 0

/-- Number of leading one bits within width `w` (`APInt::countLeadingOnes`). -/
def countLeadingOnes (w x : Nat) : Nat :=
  match w with
  | 0 => 0
  | n + 1 => if x.testBit n then countLeadingOnes n x + 1 else 0

/-- Number of leading zero bits within width `w` (`APInt::countLeadingZeros`). -/
def countLeadingZeros (w x : Nat) : Nat :=
  match w with
  | 0 => 0
  | n + 1 => if x.testBit n then 0 else countLeadingZeros n x + 1

/-- Population count within width `w` (`APInt::countPopulation`). -/
def popCountW (w x : Nat) : Nat :=
  match w with
  | 0 => 0
  | n + 1 => popCountW n (x / 2) + x % 2

/-- Arithmetic shift right of a `w`-bit value by `s` (`APInt::ashr`): the sign
bit at position `w-1` is replicated into the vacated high positions. -/
def ashrNat (w x s : Nat) : Nat :=
  if x.testBit (w - 1) then notW w (notW w x >>> s) else x >>> s

/-- Signed value denoted by a `w`-bit pattern (two's complement read-back). -/
def toIntW (w x : Nat) : Int :=
  if x < 2 ^ (w - 1) then (x : Int) else (x : Int) - 2 ^ w

/-- Signed minimum on `w`-bit patterns. -/
def sminNat (w x y : Nat) : Nat := if toIntW w x ≤ toIntW w y then x else y

/-- Signed maximum on `w`-bit patterns. -/
def smaxNat (w x y : Nat) : Nat := if toIntW w x ≤ toIntW w y then y else x

/-- Auxiliary byte-reversal over `n` bytes. -/
def byteSwapAux : Nat → Nat → Nat
  | 0, _ => 0
  | n + 1, x => x % 256 * 256 ^ n + byteSwapAux n (x / 256)

/-- Byte swap of a `w`-bit value, `w` a multiple of 8 (`APInt::byteSwap`). -/
def byteSwapNat (w x : Nat) : Nat := byteSwapAux (w / 8) x

/-- Auxiliary bit-reversal over `n` bits. -/
def reverseBitsAux : Nat → Nat → Nat
  | 0, _ => 0
  | n + 1, x => x % 2 * 2 ^ n + reverseBitsAux n (x / 2)

/-- Bit reversal of a `w`-bit value (`APInt::reverseBits`). -/
def reverseBitsNat (w x : Nat) : Nat := reverseBitsAux w x

/-- Insert the `subW`-bit value `sub` into `x` at bit position `pos`
(`APInt::insertBits`). -/
def insertBitsNat (w x sub subW pos : Nat) : Nat :=
  (x &&& notW w (ones subW <<< pos)) ||| (sub <<< pos)

/-- Extract `numBits` bits of `x` starting at `bitPos` (`APInt::extractBits`). -/
def extractBitsNat (numBits bitPos x : Nat) : Nat := (x >>> bitPos) % 2 ^ numBits

/-- Number of leading identical bits of a `w`-bit value (`APInt::getNumSignBits`). -/
def apNumSignBits (w x : Nat) : Nat :=
  if x.testBit (w - 1) then countLeadingOnes w x else countLeadingZeros w x

/-- Unsigned value of an integer immediate at width `w` (`ConstantInt` payload). -/
def toUnsigned (w : Nat) (v : Int) : Nat := (v % (2 ^ w : Nat)).toNat

/-- The KnownBits abstract value: two `w`-bit masks, `zero` for positions known
to be 0 and `one` for positions known to be 1 (`llvm::KnownBits`). -/
structure KnownBits where
  w : Nat
  zero : Nat
  one : Nat
deriving DecidableEq, Repr

/-- Fully-unknown value of width `w` (`KnownBits(BitWidth)`). -/
def KnownBits.unknown (w : Nat) : KnownBits := ⟨w, 0, 0⟩

/-- Modelled from the spec: `hasConflict` is true when some position is claimed
both zero and one (`KnownBits.h`, not under `src/`). -/
def KnownBits.hasConflict (a : KnownBits) : Bool := a.zero &&& a.one != 0

/-- Modelled from the spec: `isUnknown` holds when no bit is known (`KnownBits.h`). -/
def KnownBits.isUnknown (a : KnownBits) : Bool := a.zero == 0 && a.one == 0

/-- Modelled from the spec: `isConstant` holds when every bit is known, via
popcounts of the two masks (`KnownBits.h`). -/
def KnownBits.isConstant (a : KnownBits) : Bool :=
  popCountW a.w a.zero + popCountW a.w a.one == a.w

/-- Modelled from the spec: the constant value of a fully-known KnownBits is its
`one` mask (`KnownBits.h`). -/
def KnownBits.getConstant (a : KnownBits) : Nat := a.one

/-- Modelled from the spec: known negative iff the sign bit is known one (`KnownBits.h`). -/
def KnownBits.isNegative (a : KnownBits) : Bool := a.one.testBit (a.w - 1)

/-- Modelled from the spec: known non-negative iff the sign bit is known zero (`KnownBits.h`). -/
def KnownBits.isNonNegative (a : KnownBits) : Bool := a.zero.testBit (a.w - 1)

/-- Modelled from the spec: force the sign bit to known zero (`KnownBits.h`). -/
def KnownBits.makeNonNegative (a : KnownBits) : KnownBits :=
  ⟨a.w, a.zero ||| 2 ^ (a.w - 1), a.one⟩

/-- Modelled from the spec: force the sign bit to known one (`KnownBits.h`). -/
def KnownBits.makeNegative (a : KnownBits) : KnownBits :=
  ⟨a.w, a.zero, a.one ||| 2 ^ (a.w - 1)⟩

/-- Modelled from the spec: maximal unsigned value matching the KnownBits is the
complement of `zero` (`KnownBits.h`). -/
def KnownBits.getMaxValue (a : KnownBits) : Nat := notW a.w a.zero

/-- Modelled from the spec: minimal unsigned value matching the KnownBits is
`one` (`KnownBits.h`). -/
def KnownBits.getMinValue (a : KnownBits) : Nat := a.one

/-- Modelled from the spec: minimum number of trailing zeros (`KnownBits.h`). -/
def KnownBits.countMinTrailingZeros (a : KnownBits) : Nat := countTrailingOnes a.w a.zero

/-- Modelled from the spec: minimum number of leading zeros (`KnownBits.h`). -/
def KnownBits.countMinLeadingZeros (a : KnownBits) : Nat := countLeadingOnes a.w a.zero

/-- Modelled from the spec: zero extension pads the high positions of `zero`
with ones and of `one` with zeros (`KnownBits::zext`). -/
def KnownBits.zext (a : KnownBits) (w' : Nat) : KnownBits :=
  ⟨w', a.zero ||| bitsFrom w' a.w, a.one⟩

/-- Modelled from the spec: any-extension leaves the new high bits unknown
(`KnownBits::anyext`). -/
def KnownBits.anyext (a : KnownBits) (w' : Nat) : KnownBits := ⟨w', a.zero, a.one⟩

/-- Modelled from the spec: truncation drops the high bits (`KnownBits::trunc`). -/
def KnownBits.trunc (a : KnownBits) (w' : Nat) : KnownBits :=
  ⟨w', a.zero % 2 ^ w', a.one % 2 ^ w'⟩

/-- Modelled from the spec: sign extension replicates the known sign bit; if the
sign is unknown both masks extend with zeros (`KnownBits::sext`). -/
def KnownBits.sext (a : KnownBits) (w' : Nat) : KnownBits :=
  ⟨w', if a.zero.testBit (a.w - 1) then a.zero ||| bitsFrom w' a.w else a.zero,
       if a.one.testBit (a.w - 1) then a.one ||| bitsFrom w' a.w else a.one⟩

/-- Modelled from the spec: resize by zero-extending or truncating
(`KnownBits::zextOrTrunc`). -/
def KnownBits.zextOrTrunc (a : KnownBits) (w' : Nat) : KnownBits :=
  if a.w < w' then a.zext w' else if w' < a.w then a.trunc w' else a

/-- Modelled from the spec: insert the bits of `sub` at `pos` into both masks
(`KnownBits::insertBits`). -/
def KnownBits.insertBits (a sub : KnownBits) (pos : Nat) : KnownBits :=
  ⟨a.w, insertBitsNat a.w a.zero sub.zero sub.w pos,
        insertBitsNat a.w a.one sub.one sub.w pos⟩

/-- Modelled from the spec: extract `numBits` from position `pos` of both masks
(`KnownBits::extractBits`). -/
def KnownBits.extractBits (a : KnownBits) (numBits bitPos : Nat) : KnownBits :=
  ⟨numBits, extractBitsNat numBits bitPos a.zero, extractBitsNat numBits bitPos a.one⟩

/-- Modelled from the spec: byte-swap both masks (`KnownBits::byteSwap`). -/
def KnownBits.byteSwap (a : KnownBits) : KnownBits :=
  ⟨a.w, byteSwapNat a.w a.zero, byteSwapNat a.w a.one⟩

/-- Modelled from the spec: bit-reverse both masks (`KnownBits::reverseBits`). -/
def KnownBits.reverseBits (a : KnownBits) : KnownBits :=
  ⟨a.w, reverseBitsNat a.w a.zero, reverseBitsNat a.w a.one⟩

/-- Maximal possible sum `maxUnsigned(lhs) + maxUnsigned(rhs) + !carryZero`
inside the static `computeForAddCarry` (`KnownBits.cpp` line 25). -/
def KnownBits.possibleSumZero (lhs rhs : KnownBits) (carryZero : Bool) : Nat :=
  (lhs.getMaxValue + rhs.getMaxValue + (if carryZero then 0 else 1)) % 2 ^ lhs.w

/-- Minimal possible sum `minUnsigned(lhs) + minUnsigned(rhs) + carryOne`
inside the static `computeForAddCarry` (`KnownBits.cpp` line 26). -/
def KnownBits.possibleSumOne (lhs rhs : KnownBits) (carryOne : Bool) : Nat :=
  (lhs.getMinValue + rhs.getMinValue + (if carryOne then 1 else 0)) % 2 ^ lhs.w

/-- Mask of positions where lhs, rhs and the inferred carry are all known
(`KnownBits.cpp` lines 29-36). -/
def KnownBits.addCarryKnownMask (lhs rhs : KnownBits) (carryZero carryOne : Bool) : Nat :=
  let carryKnownZero := notW lhs.w (possibleSumZero lhs rhs carryZero ^^^ lhs.zero ^^^ rhs.zero)
  let carryKnownOne := possibleSumOne lhs rhs carryOne ^^^ lhs.one ^^^ rhs.one
  (lhs.zero ||| lhs.one) &&& (rhs.zero ||| rhs.one) &&& (carryKnownZero ||| carryKnownOne)

/-- The file-static `computeForAddCarry(LHS, RHS, CarryZero, CarryOne)`
(`KnownBits.cpp` lines 19-46). -/
def KnownBits.computeForAddCarryFlags (lhs rhs : KnownBits) (carryZero carryOne : Bool) :
    KnownBits :=
  let known := addCarryKnownMask lhs rhs carryZero carryOne
  ⟨lhs.w, notW lhs.w (possibleSumZero lhs rhs carryZero) &&& known,
          possibleSumOne lhs rhs carryOne &&& known⟩

/-- Member `KnownBits::computeForAddCarry` with a 1-bit carry prior
(`KnownBits.cpp` lines 48-53). -/
def KnownBits.computeForAddCarry (lhs rhs carry : KnownBits) : KnownBits :=
  computeForAddCarryFlags lhs rhs (carry.zero != 0) (carry.one != 0)

/-- The result KnownBits for `add`/`sub` (`KnownBits::computeForAddSub`,
`KnownBits.cpp` lines 55-84). For `sub`, `rhs` has its masks swapped (one's
complement) and the borrow-free carry prior is 1; the NSW sign fix then reads
the swapped operand. -/
def KnownBits.computeForAddSub (add nsw : Bool) (lhs rhs : KnownBits) : KnownBits :=
  let rhs' := if add then rhs else ⟨rhs.w, rhs.one, rhs.zero⟩
  let knownOut :=
    if add then computeForAddCarryFlags lhs rhs' true false
    else computeForAddCarryFlags lhs rhs' false true
  if !knownOut.isNegative && !knownOut.isNonNegative then
    if nsw then
      if lhs.isNonNegative && rhs'.isNonNegative then knownOut.makeNonNegative
      else if lhs.isNegative && rhs'.isNegative then knownOut.makeNegative
      else knownOut
    else knownOut
  else knownOut

/-- Strengthen toward values ≥ `v` (`KnownBits::makeGE`, `KnownBits.cpp` lines 86-96). -/
def KnownBits.makeGE (a : KnownBits) (v : Nat) : KnownBits :=
  let n := countLeadingOnes a.w (a.zero ||| v)
  let maskedVal := v &&& bitsFrom a.w (a.w - n)
  ⟨a.w, a.zero, a.one ||| maskedVal⟩

/-- Unsigned maximum (`KnownBits::umax`, `KnownBits.cpp` lines 98-114). -/
def KnownBits.umax (lhs rhs : KnownBits) : KnownBits :=
  if rhs.getMaxValue ≤ lhs.getMinValue then lhs
  else if lhs.getMaxValue ≤ rhs.getMinValue then rhs
  else
    let l := lhs.makeGE rhs.getMinValue
    let r := rhs.makeGE lhs.getMinValue
    ⟨lhs.w, l.zero &&& r.zero, l.one &&& r.one⟩

/-- Unsigned minimum via range flip (`KnownBits::umin`, `KnownBits.cpp` lines 116-120). -/
def KnownBits.umin (lhs rhs : KnownBits) : KnownBits :=
  let flip := fun (v : KnownBits) => (⟨v.w, v.one, v.zero⟩ : KnownBits)
  flip (umax (flip lhs) (flip rhs))

/-- Signed maximum via sign-bit flip (`KnownBits::smax`, `KnownBits.cpp` lines 122-133). -/
def KnownBits.smax (lhs rhs : KnownBits) : KnownBits :=
  let flip := fun (v : KnownBits) =>
    let i := v.w - 1
    (⟨v.w, setBitTo v.zero i (v.one.testBit i), setBitTo v.one i (v.zero.testBit i)⟩ : KnownBits)
  flip (umax (flip lhs) (flip rhs))

/-- Signed minimum via combined flips (`KnownBits::smin`, `KnownBits.cpp` lines 135-146). -/
def KnownBits.smin (lhs rhs : KnownBits) : KnownBits :=
  let flip := fun (v : KnownBits) =>
    let i := v.w - 1
    (⟨v.w, setBitTo v.one i (v.zero.testBit i), setBitTo v.zero i (v.one.testBit i)⟩ : KnownBits)
  flip (umax (flip lhs) (flip rhs))

/-- Shift left (`KnownBits::shl`, `KnownBits.cpp` lines 148-170). -/
def KnownBits.shl (lhs rhs : KnownBits) : KnownBits :=
  let w := lhs.w
  if rhs.isConstant && rhs.getConstant < w then
    let s := rhs.getConstant
    ⟨w, (lhs.zero <<< s) % 2 ^ w ||| ones s, (lhs.one <<< s) % 2 ^ w⟩
  else
    let base := if rhs.getMinValue < w then ones rhs.getMinValue else 0
    ⟨w, base ||| ones lhs.countMinTrailingZeros, 0⟩

/-- Logical shift right (`KnownBits::lshr`, `KnownBits.cpp` lines 172-193). -/
def KnownBits.lshr (lhs rhs : KnownBits) : KnownBits :=
  let w := lhs.w
  if rhs.isConstant && rhs.getConstant < w then
    let s := rhs.getConstant
    ⟨w, (lhs.zero >>> s) ||| bitsFrom w (w - s), lhs.one >>> s⟩
  else
    let base := if rhs.getMinValue < w then bitsFrom w (w - rhs.getMinValue) else 0
    ⟨w, base ||| bitsFrom w (w - lhs.countMinLeadingZeros), 0⟩

/-- Arithmetic shift right, constant amounts only (`KnownBits::ashr`,
`KnownBits.cpp` lines 195-210). -/
def KnownBits.ashr (lhs rhs : KnownBits) : KnownBits :=
  let w := lhs.w
  if rhs.isConstant && rhs.getConstant < w then
    let s := rhs.getConstant
    ⟨w, ashrNat w lhs.zero s, ashrNat w lhs.one s⟩
  else KnownBits.unknown w

/-- Leading-zero estimate used by multiplication (`KnownBits.cpp` lines 235-239). -/
def KnownBits.mulLeadZ (lhs rhs : KnownBits) : Nat :=
  min (max (lhs.countMinLeadingZeros + rhs.countMinLeadingZeros) lhs.w - lhs.w) lhs.w

/-- Multiplication (`KnownBits::computeForMul`, `KnownBits.cpp` lines 230-307). -/
def KnownBits.computeForMul (lhs rhs : KnownBits) : KnownBits :=
  let w := lhs.w
  let leadZ := mulLeadZ lhs rhs
  let trailBitsKnown0 := countTrailingOnes w (lhs.zero ||| lhs.one)
  let trailBitsKnown1 := countTrailingOnes w (rhs.zero ||| rhs.one)
  let trailZero0 := lhs.countMinTrailingZeros
  let trailZero1 := rhs.countMinTrailingZeros
  let trailZ := trailZero0 + trailZero1
  let smallestOperand := min (trailBitsKnown0 - trailZero0) (trailBitsKnown1 - trailZero1)
  let resultBitsKnown := min (smallestOperand + trailZ) w
  let bottomKnown := loBits trailBitsKnown0 lhs.one * loBits trailBitsKnown1 rhs.one % 2 ^ w
  ⟨w, bitsFrom w (w - leadZ) ||| loBits resultBitsKnown (notW w bottomKnown),
      loBits resultBitsKnown bottomKnown⟩

/-- Abstract bitwise and (`KnownBits::operator&=`, `KnownBits.cpp` lines 309-315). -/
def KnownBits.and (a b : KnownBits) : KnownBits := ⟨a.w, a.zero ||| b.zero, a.one &&& b.one⟩

/-- Abstract bitwise or (`KnownBits::operator|=`, `KnownBits.cpp` lines 317-323). -/
def KnownBits.or (a b : KnownBits) : KnownBits := ⟨a.w, a.zero &&& b.zero, a.one ||| b.one⟩

/-- Abstract bitwise xor (`KnownBits::operator^=`, `KnownBits.cpp` lines 325-332). -/
def KnownBits.xor (a b : KnownBits) : KnownBits :=
  ⟨a.w, (a.zero &&& b.zero) ||| (a.one &&& b.one), (a.zero &&& b.one) ||| (a.one &&& b.zero)⟩

/-- Generic opcodes handled by the dispatcher (`TargetOpcode`); `OTHER` stands
for any opcode outside the generic set. -/
inductive Opcode where
  | COPY | G_PHI | PHI | G_CONSTANT | G_FRAME_INDEX
  | G_SUB | G_XOR | G_PTR_ADD | G_ADD | G_AND | G_OR | G_MUL
  | G_SELECT | G_SMIN | G_SMAX | G_UMIN | G_UMAX
  | G_FCMP | G_ICMP | G_SEXT | G_ANYEXT | G_LOAD | G_ZEXTLOAD | G_SEXTLOAD
  | G_ASHR | G_LSHR | G_SHL | G_INTTOPTR | G_PTRTOINT | G_ZEXT | G_TRUNC
  | G_MERGE_VALUES | G_UNMERGE_VALUES | G_BSWAP | G_BITREVERSE
  | G_SEXT_INREG | G_INTRINSIC | G_INTRINSIC_W_SIDE_EFFECTS | OTHER
deriving DecidableEq, BEq, Repr

instance : LawfulBEq Opcode where
  eq_of_beq := by
    intro a b h
    cases a <;> cases b <;> first | rfl | exact absurd h (by decide)
  rfl := by intro a; cases a <;> rfl

/-- A machine operand: a register (with subregister index and virtualness), a
basic-block reference, an immediate, or a frame index (`MachineOperand`). -/
inductive MOp where
  | register (r : Nat) (subReg : Nat) (isVirtual : Bool)
  | bb (b : Nat)
  | imm (v : Int)
  | fi (idx : Nat)
deriving DecidableEq, Repr

def MOp.getReg : MOp → Nat
  | .register r _ _ => r
  | _ => 0

def MOp.getSubReg : MOp → Nat
  | .register _ s _ => s
  | _ => 0

def MOp.isVirtualReg : MOp → Bool
  | .register _ _ v => v
  | _ => false

def MOp.getImm : MOp → Int
  | .imm v => v
  | _ => 0

def MOp.getIndex : MOp → Nat
  | .fi i => i
  | _ => 0

/-- Low-level type of a register (`llvm::LLT`): invalid, scalar, pointer into an
address space, or a vector of scalars. -/
inductive LLT where
  | invalid
  | scalar (w : Nat)
  | pointer (addressSpace w : Nat)
  | vector (n elemW : Nat)
deriving DecidableEq, Repr

def LLT.isValid : LLT → Bool
  | .invalid => false
  | _ => true

def LLT.isVector : LLT → Bool
  | .vector _ _ => true
  | _ => false

def LLT.isPointer : LLT → Bool
  | .pointer _ _ => true
  | _ => false

def LLT.getSizeInBits : LLT → Nat
  | .invalid => 0
  | .scalar w => w
  | .pointer _ w => w
  | .vector n w => n * w

def LLT.getScalarSizeInBits : LLT → Nat
  | .invalid => 0
  | .scalar w => w
  | .pointer _ w => w
  | .vector _ w => w

def LLT.getAddressSpace : LLT → Nat
  | .pointer a _ => a
  | _ => 0

def LLT.getNumElements : LLT → Nat
  | .vector n _ => n
  | _ => 0

/-- An instruction: opcode, ordered operand list (operand 0 is the first
definition), memory-operand size in bits for loads, and the KnownBits decoded
from attached range metadata, when any (`MachineInstr`; the range decoder
`computeKnownBitsFromRangeMetadata` is an external collaborator whose output we
model directly). -/
structure MachineInstr where
  opcode : Opcode
  operands : List MOp
  memSizeInBits : Nat
  rangeKnown : Option KnownBits
deriving DecidableEq, Repr

def MachineInstr.getOperand (mi : MachineInstr) (i : Nat) : MOp :=
  mi.operands.getD i (.imm 0)

def MachineInstr.getNumOperands (mi : MachineInstr) : Nat := mi.operands.length

/-- The IR oracle: defining instruction and type of every virtual register
(`MachineRegisterInfo::getVRegDef` / `getType`). -/
structure MachineFunction where
  vregDef : Nat → MachineInstr
  regType : Nat → LLT

/-- Data-layout oracle for pointer address spaces. -/
structure DataLayout where
  indexSizeInBits : Nat → Nat
  isNonIntegralAddressSpace : Nat → Bool

/-- Target-declared boolean contents (`TargetLowering::BooleanContent`). -/
inductive BooleanContent where
  | UndefinedBooleanContent
  | ZeroOrOneBooleanContent
  | ZeroOrNegativeOneBooleanContent
deriving DecidableEq, BEq, Repr

/-- Target-lowering oracle callbacks consumed by the analysis. -/
structure TargetLowering where
  computeKnownBitsForTargetInstr : Nat → Nat → Nat → KnownBits
  computeKnownBitsForFrameIndex : Nat → Nat → KnownBits
  computeNumSignBitsForTargetInstr : Nat → Nat → Nat → Nat
  getBooleanContents : Bool → Bool → BooleanContent

/-- The analyzer: machine function, data layout, target oracle and depth cap
(`GISelKnownBits` constructor state). -/
structure GISelKnownBits where
  mf : MachineFunction
  dl : DataLayout
  tl : TargetLowering
  maxDepth : Nat

/-- The per-query memoization table `ComputeKnownBitsCache`. -/
abbrev Cache := List (Nat × KnownBits)

def Cache.find : Cache → Nat → Option KnownBits
  | [], _ => none
  | (r, k) :: rest, q => if r = q then some k else Cache.find rest q

def Cache.insert (c : Cache) (r : Nat) (k : KnownBits) : Cache := (r, k) :: c

/-- The register operands of a phi, at odd operand indices (the loop step of
`GISelKnownBits.cpp` line 189 skips interleaved basic-block operands). -/
def everyOther : List MOp → List MOp
  | [] => []
  | [x] => [x]
  | x :: _ :: xs => x :: everyOther xs

/-- Operand loop of the COPY/G_PHI/PHI case (`GISelKnownBits.cpp` lines
189-215): recurse into virtual, subregister-free, typed operands, intersect,
stop early on fully-unknown, and force fully-unknown on any other operand. -/
def phiLoop (mf : MachineFunction)
    (recurse : Nat → Nat → Cache → Option (KnownBits × Cache))
    (bitWidth depthStep depth : Nat) :
    List MOp → KnownBits → Cache → Option (KnownBits × Cache)
  | [], known, cache => some (known, cache)
  | src :: rest, known, cache =>
    if src.isVirtualReg && src.getSubReg == 0 && (mf.regType src.getReg).isValid then
      match recurse src.getReg (depth + depthStep) cache with
      | none => none
      | some (known2, cache1) =>
        let known' : KnownBits := ⟨known.w, known.zero &&& known2.zero, known.one &&& known2.one⟩
        if known'.one == 0 && known'.zero == 0 then some (known', cache1)
        else phiLoop mf recurse bitWidth depthStep depth rest known' cache1
    else some (KnownBits.unknown bitWidth, cache)

/-- Intersection of the known bits of two sources, second source first
(`GISelKnownBits::computeKnownBitsMin`, `GISelKnownBits.cpp` lines 98-115). -/
def computeKnownBitsMinHO (recurse : Nat → Cache → Option (KnownBits × Cache))
    (src0 src1 : Nat) (cache : Cache) : Option (KnownBits × Cache) := do
  let (known, cache1) ← recurse src1 cache
  if known.isUnknown then return (known, cache1)
  let (known2, cache2) ← recurse src0 cache1
  return (⟨known.w, known.zero &&& known2.zero, known.one &&& known2.one⟩, cache2)

/-- Operand loop of the G_MERGE_VALUES case (`GISelKnownBits.cpp` lines 435-440). -/
def mergeLoop (recurse : Nat → Cache → Option (KnownBits × Cache)) (opSize : Nat) :
    List MOp → Nat → KnownBits → Cache → Option (KnownBits × Cache)
  | [], _, known, cache => some (known, cache)
  | op :: rest, i, known, cache => do
    let (srcOpKnown, cache1) ← recurse op.getReg cache
    mergeLoop recurse opSize rest (i + 1) (known.insertBits srcOpKnown (i * opSize)) cache1

/-- Result-operand scan of the G_UNMERGE_VALUES case (`GISelKnownBits.cpp`
lines 453-456): index of the queried register among the definitions. -/
def unmergeDstIdx (ops : List MOp) (r : Nat) : Nat :=
  match ops.findIdx? (fun op => op.getReg == r) with
  | some i => i
  | none => ops.length

/-- Tag a dispatch result as one that reaches the post-dispatch cache write. -/
def withWrite (o : Option (KnownBits × Cache)) : Option (KnownBits × Cache × Bool) :=
  o.map (fun p => (p.1, p.2, true))

/-- The recursive known-bits implementation (`GISelKnownBits::computeKnownBitsImpl`,
`GISelKnownBits.cpp` lines 117-480), with explicit fuel for the call stack
(`none` means the fuel ran out, which cannot happen for well-formed queries with
enough fuel). Returns the computed KnownBits together with the updated cache. -/
def computeKnownBitsImpl (A : GISelKnownBits) :
    Nat → Nat → Nat → Nat → Cache → Option (KnownBits × Cache)
  | 0, _, _, _, _ => none
  | fuel + 1, r, demandedElts, depth, cache =>
    let mi := A.mf.vregDef r
    let opcode := mi.opcode
    let dstTy := A.mf.regType r
    if !dstTy.isValid then some (KnownBits.unknown 1, cache)
    else
      let bitWidth := dstTy.getSizeInBits
      match Cache.find cache r with
      | some k => some (k, cache)
      | none =>
        if dstTy.isVector then some (KnownBits.unknown bitWidth, cache)
        else if A.maxDepth ≤ depth then some (KnownBits.unknown bitWidth, cache)
        else if demandedElts == 0 then some (KnownBits.unknown bitWidth, cache)
        else
          let recurse := fun (r' depth' : Nat) (cache' : Cache) =>
            computeKnownBitsImpl A fuel r' demandedElts depth' cache'
          let addBody : Option (KnownBits × Cache × Bool) := withWrite (do
            let (known, cache1) ← recurse (mi.getOperand 1).getReg (depth + 1) cache
            let (known2, cache2) ← recurse (mi.getOperand 2).getReg (depth + 1) cache1
            some (KnownBits.computeForAddSub true false known known2, cache2))
          let dispatched : Option (KnownBits × Cache × Bool) :=
            match opcode with
            | .COPY | .G_PHI | .PHI =>
              let cache1 := Cache.insert cache r (KnownBits.unknown bitWidth)
              let init : KnownBits := ⟨bitWidth, ones bitWidth, ones bitWidth⟩
              withWrite (phiLoop A.mf recurse bitWidth
                (if opcode == .COPY then 0 else 1) depth
                (everyOther (mi.operands.drop 1)) init cache1)
            | .G_CONSTANT =>
              match mi.getOperand 1 with
              | .imm v => withWrite (some
                  (⟨bitWidth, notW bitWidth (toUnsigned bitWidth v), toUnsigned bitWidth v⟩, cache))
              | _ => withWrite (some (KnownBits.unknown bitWidth, cache))
            | .G_FRAME_INDEX =>
              withWrite (some
                (A.tl.computeKnownBitsForFrameIndex (mi.getOperand 1).getIndex bitWidth, cache))
            | .G_SUB => withWrite (do
                let (known, cache1) ← recurse (mi.getOperand 1).getReg (depth + 1) cache
                let (known2, cache2) ← recurse (mi.getOperand 2).getReg (depth + 1) cache1
                some (KnownBits.computeForAddSub false false known known2, cache2))
            | .G_XOR => withWrite (do
                let (known, cache1) ← recurse (mi.getOperand 2).getReg (depth + 1) cache
                let (known2, cache2) ← recurse (mi.getOperand 1).getReg (depth + 1) cache1
                some (KnownBits.xor known known2, cache2))
            | .G_PTR_ADD =>
              if A.dl.isNonIntegralAddressSpace
                  (A.mf.regType (mi.getOperand 1).getReg).getAddressSpace then
                withWrite (some (KnownBits.unknown bitWidth, cache))
              else addBody
            | .G_ADD => addBody
            | .G_AND => withWrite (do
                let (known, cache1) ← recurse (mi.getOperand 2).getReg (depth + 1) cache
                let (known2, cache2) ← recurse (mi.getOperand 1).getReg (depth + 1) cache1
                some (KnownBits.and known known2, cache2))
            | .G_OR => withWrite (do
                let (known, cache1) ← recurse (mi.getOperand 2).getReg (depth + 1) cache
                let (known2, cache2) ← recurse (mi.getOperand 1).getReg (depth + 1) cache1
                some (KnownBits.or known known2, cache2))
            | .G_MUL => withWrite (do
                let (known, cache1) ← recurse (mi.getOperand 2).getReg (depth + 1) cache
                let (known2, cache2) ← recurse (mi.getOperand 1).getReg (depth + 1) cache1
                some (KnownBits.computeForMul known known2, cache2))
            | .G_SELECT =>
              withWrite (computeKnownBitsMinHO (fun r' c => recurse r' (depth + 1) c)
                (mi.getOperand 2).getReg (mi.getOperand 3).getReg cache)
            | .G_SMIN => withWrite (do
                let (known, cache1) ← recurse (mi.getOperand 1).getReg (depth + 1) cache
                let (knownRHS, cache2) ← recurse (mi.getOperand 2).getReg (depth + 1) cache1
                some (KnownBits.smin known knownRHS, cache2))
            | .G_SMAX => withWrite (do
                let (known, cache1) ← recurse (mi.getOperand 1).getReg (depth + 1) cache
                let (knownRHS, cache2) ← recurse (mi.getOperand 2).getReg (depth + 1) cache1
                some (KnownBits.smax known knownRHS, cache2))
            | .G_UMIN => withWrite (do
                let (known, cache1) ← recurse (mi.getOperand 1).getReg (depth + 1) cache
                let (knownRHS, cache2) ← recurse (mi.getOperand 2).getReg (depth + 1) cache1
                some (KnownBits.umin known knownRHS, cache2))
            | .G_UMAX => withWrite (do
                let (known, cache1) ← recurse (mi.getOperand 1).getReg (depth + 1) cache
                let (knownRHS, cache2) ← recurse (mi.getOperand 2).getReg (depth + 1) cache1
                some (KnownBits.umax known knownRHS, cache2))
            | .G_FCMP | .G_ICMP =>
              withWrite (some ((
                if A.tl.getBooleanContents dstTy.isVector (opcode == .G_FCMP) ==
                    BooleanContent.ZeroOrOneBooleanContent && 1 < bitWidth then
                  (⟨bitWidth, bitsFrom bitWidth 1, 0⟩ : KnownBits)
                else KnownBits.unknown bitWidth), cache))
            | .G_SEXT => withWrite (do
                let (known, cache1) ← recurse (mi.getOperand 1).getReg (depth + 1) cache
                some (known.sext bitWidth, cache1))
            | .G_ANYEXT => withWrite (do
                let (known, cache1) ← recurse (mi.getOperand 1).getReg (depth + 1) cache
                some (known.anyext bitWidth, cache1))
            | .G_LOAD =>
              withWrite (some ((
                match mi.rangeKnown with
                | some k => k
                | none => KnownBits.unknown bitWidth), cache))
            | .G_ZEXTLOAD =>
              withWrite (some (⟨bitWidth, bitsFrom bitWidth mi.memSizeInBits, 0⟩, cache))
            | .G_ASHR | .G_LSHR | .G_SHL => withWrite (do
                let (rhsKnown, cache1) ← recurse (mi.getOperand 2).getReg (depth + 1) cache
                if !rhsKnown.isConstant then some (KnownBits.unknown bitWidth, cache1)
                else
                  let shift := rhsKnown.getConstant
                  if (A.mf.regType (mi.getOperand 1).getReg).getScalarSizeInBits ≤ shift then
                    some (KnownBits.unknown bitWidth, cache1)
                  else do
                    let (known, cache2) ← recurse (mi.getOperand 1).getReg (depth + 1) cache1
                    let res : KnownBits :=
                      match opcode with
                      | .G_ASHR =>
                        ⟨known.w, ashrNat known.w known.zero shift, ashrNat known.w known.one shift⟩
                      | .G_LSHR =>
                        ⟨known.w, (known.zero >>> shift) ||| bitsFrom known.w (known.w - shift),
                          known.one >>> shift⟩
                      | _ =>
                        ⟨known.w, (known.zero <<< shift) % 2 ^ known.w ||| ones shift,
                          (known.one <<< shift) % 2 ^ known.w⟩
                    some (res, cache2))
            | .G_INTTOPTR | .G_PTRTOINT | .G_ZEXT | .G_TRUNC => withWrite (do
                let srcReg := (mi.getOperand 1).getReg
                let srcTy := A.mf.regType srcReg
                let srcBitWidth :=
                  if srcTy.isPointer then A.dl.indexSizeInBits srcTy.getAddressSpace
                  else srcTy.getSizeInBits
                let (known, cache1) ← recurse srcReg (depth + 1) cache
                let known2 := known.zextOrTrunc bitWidth
                let known3 :=
                  if srcBitWidth < bitWidth then
                    (⟨known2.w, known2.zero ||| bitsFrom bitWidth srcBitWidth, known2.one⟩ :
                      KnownBits)
                  else known2
                some (known3, cache1))
            | .G_MERGE_VALUES =>
              let opSize := (A.mf.regType (mi.getOperand 1).getReg).getSizeInBits
              withWrite (mergeLoop (fun r' c => recurse r' (depth + 1) c) opSize
                (mi.operands.drop 1) 0 (KnownBits.unknown bitWidth) cache)
            | .G_UNMERGE_VALUES =>
              let numOps := mi.getNumOperands
              let srcReg := (mi.getOperand (numOps - 1)).getReg
              if (A.mf.regType srcReg).isVector then
                some (KnownBits.unknown bitWidth, cache, false)
              else (do
                let (srcOpKnown, cache1) ← recurse srcReg (depth + 1) cache
                let dstIdx := unmergeDstIdx (mi.operands.take (numOps - 1)) r
                some (srcOpKnown.extractBits bitWidth (bitWidth * dstIdx), cache1, true))
            | .G_BSWAP => withWrite (do
                let (known, cache1) ← recurse (mi.getOperand 1).getReg (depth + 1) cache
                some (known.byteSwap, cache1))
            | .G_BITREVERSE => withWrite (do
                let (known, cache1) ← recurse (mi.getOperand 1).getReg (depth + 1) cache
                some (known.reverseBits, cache1))
            | _ =>
              withWrite (some (A.tl.computeKnownBitsForTargetInstr r demandedElts depth, cache))
          match dispatched with
          | none => none
          | some (known, cache', writeCache) =>
            some (known, if writeCache then Cache.insert cache' r known else cache')

/-- Entry point `getKnownBits(R, DemandedElts, Depth)` (`GISelKnownBits.cpp`
lines 63-72): run the impl on an empty cache and discard the cache. -/
def GISelKnownBits.getKnownBits (A : GISelKnownBits) (fuel r demandedElts depth : Nat) :
    Option KnownBits :=
  (computeKnownBitsImpl A fuel r demandedElts depth []).map (fun p => p.1)

/-- Entry point `getKnownBits(R)` (`GISelKnownBits.cpp` lines 56-61). -/
def GISelKnownBits.getKnownBitsTop (A : GISelKnownBits) (fuel r : Nat) : Option KnownBits :=
  let ty := A.mf.regType r
  A.getKnownBits fuel r (if ty.isVector then ones ty.getNumElements else 1) 0

/-- The sign-bit query (`GISelKnownBits::computeNumSignBits`,
`GISelKnownBits.cpp` lines 493-606), with explicit fuel. Branches that early
return carry `Sum.inl`; branches that fall through to the known-bits combine
carry `Sum.inr` with the current `FirstAnswer`. Width subtractions are C++
`unsigned` subtractions; on well-formed MIR they do not underflow and agree
with truncated subtraction on Nat. -/
def GISelKnownBits.computeNumSignBits (A : GISelKnownBits) :
    Nat → Nat → Nat → Nat → Option Nat
  | 0, _, _, _ => none
  | fuel + 1, r, demandedElts, depth =>
    let mi := A.mf.vregDef r
    let opcode := mi.opcode
    if opcode == .G_CONSTANT then
      some (apNumSignBits (A.mf.regType r).getScalarSizeInBits
        (toUnsigned (A.mf.regType r).getScalarSizeInBits (mi.getOperand 1).getImm))
    else if depth == A.maxDepth then some 1
    else if demandedElts == 0 then some 1
    else
      let dstTy := A.mf.regType r
      let tyBits := dstTy.getScalarSizeInBits
      if !dstTy.isValid then some 1
      else
        let branch : Option (Sum Nat Nat) :=
          match opcode with
          | .COPY =>
            let src := mi.getOperand 1
            if src.isVirtualReg && src.getSubReg == 0 && (A.mf.regType src.getReg).isValid then
              (A.computeNumSignBits fuel src.getReg demandedElts depth).map Sum.inl
            else some (Sum.inl 1)
          | .G_SEXT =>
            let src := (mi.getOperand 1).getReg
            let tmp := dstTy.getScalarSizeInBits - (A.mf.regType src).getScalarSizeInBits
            (A.computeNumSignBits fuel src demandedElts (depth + 1)).map
              (fun n => Sum.inl (n + tmp))
          | .G_SEXT_INREG =>
            let src := (mi.getOperand 1).getReg
            let srcBits := ((mi.getOperand 2).getImm).toNat
            let inRegBits := tyBits - srcBits + 1
            (A.computeNumSignBits fuel src demandedElts (depth + 1)).map
              (fun n => Sum.inl (max n inRegBits))
          | .G_SEXTLOAD =>
            if dstTy.isVector then some (Sum.inl 1)
            else some (Sum.inl (tyBits - mi.memSizeInBits + 1))
          | .G_ZEXTLOAD =>
            if dstTy.isVector then some (Sum.inl 1)
            else some (Sum.inl (tyBits - mi.memSizeInBits))
          | .G_TRUNC =>
            let src := (mi.getOperand 1).getReg
            let numSrcBits := (A.mf.regType src).getScalarSizeInBits
            match A.computeNumSignBits fuel src demandedElts (depth + 1) with
            | none => none
            | some numSrcSignBits =>
              if numSrcBits - tyBits < numSrcSignBits then
                some (Sum.inl (numSrcSignBits - (numSrcBits - tyBits)))
              else some (Sum.inr 1)
          | .G_SELECT =>
            match A.computeNumSignBits fuel (mi.getOperand 3).getReg demandedElts (depth + 1) with
            | none => none
            | some s1 =>
              if s1 == 1 then some (Sum.inl 1)
              else
                (A.computeNumSignBits fuel (mi.getOperand 2).getReg demandedElts (depth + 1)).map
                  (fun s0 => Sum.inl (min s0 s1))
          | _ =>
            let numBits := A.tl.computeNumSignBitsForTargetInstr r demandedElts depth
            some (Sum.inr (if 1 < numBits then max 1 numBits else 1))
        match branch with
        | none => none
        | some (Sum.inl n) => some n
        | some (Sum.inr firstAnswer) =>
          match A.getKnownBits fuel r demandedElts depth with
          | none => none
          | some known =>
            if known.isNonNegative then
              some (max firstAnswer
                (countLeadingOnes known.w ((known.zero <<< (known.w - tyBits)) % 2 ^ known.w)))
            else if known.isNegative then
              some (max firstAnswer
                (countLeadingOnes known.w ((known.one <<< (known.w - tyBits)) % 2 ^ known.w)))
            else some firstAnswer

/-- A concrete `w`-bit integer `x` matches the abstract value `a`:
`x & a.zero == 0` and `~x & a.one == 0` (spec section 8, Consistency). -/
def Matches (a : KnownBits) (x : Nat) : Prop :=
  x < 2 ^ a.w ∧ x &&& a.zero = 0 ∧ a.one &&& x = a.one

/-- The structural invariant `zero & one == 0`. -/
def NoConflict (a : KnownBits) : Prop := a.zero &&& a.one = 0

/-- Both masks fit in the width. -/
def WfKB (a : KnownBits) : Prop := a.zero < 2 ^ a.w ∧ a.one < 2 ^ a.w

instance (a : KnownBits) (x : Nat) : Decidable (Matches a x) := by
  unfold Matches; infer_instance

instance (a : KnownBits) : Decidable (NoConflict a) := by
  unfold NoConflict; infer_instance

instance (a : KnownBits) : Decidable (WfKB a) := by
  unfold WfKB; infer_instance

/-- Carry into bit position `i` when adding `x + y + c`. -/
def carryBit (x y c i : Nat) : Bool := decide (2 ^ i ≤ x % 2 ^ i + y % 2 ^ i + c)

/-- Trivial data layout: 64-bit integral pointers everywhere. -/
def dlTriv : DataLayout := ⟨fun _ => 64, fun _ => false⟩

/-- Trivial target oracle: knows nothing, width-8 fully-unknown answers. -/
def tlTriv : TargetLowering :=
  ⟨fun _ _ _ => KnownBits.unknown 8, fun _ w => KnownBits.unknown w, fun _ _ _ => 1,
   fun _ _ => BooleanContent.ZeroOrOneBooleanContent⟩

/-- Scenario S6: two registers each defined by a phi taking the other and the
known constant 42 as inputs. -/
def mfS6 : MachineFunction :=
  ⟨fun r =>
    if r = 1 then
      ⟨Opcode.G_PHI, [MOp.register 1 0 true, MOp.register 2 0 true, MOp.bb 0,
                      MOp.register 3 0 true, MOp.bb 1], 0, none⟩
    else if r = 2 then
      ⟨Opcode.G_PHI, [MOp.register 2 0 true, MOp.register 1 0 true, MOp.bb 0,
                      MOp.register 3 0 true, MOp.bb 1], 0, none⟩
    else if r = 3 then
      ⟨Opcode.G_CONSTANT, [MOp.register 3 0 true, MOp.imm 42], 0, none⟩
    else ⟨Opcode.OTHER, [], 0, none⟩,
   fun r => if r = 1 ∨ r = 2 ∨ r = 3 then LLT.scalar 8 else LLT.invalid⟩

/-- Analyzer for scenario S6, with the default depth cap 6. -/
def AS6 : GISelKnownBits := ⟨mfS6, dlTriv, tlTriv, 6⟩

/-- Machine function for the C6 counterexample: a single width-8 constant 5. -/
def mfC6 : MachineFunction :=
  ⟨fun r =>
    if r = 5 then ⟨Opcode.G_CONSTANT, [MOp.register 5 0 true, MOp.imm 5], 0, none⟩
    else ⟨Opcode.OTHER, [], 0, none⟩,
   fun r => if r = 5 then LLT.scalar 8 else LLT.invalid⟩

/-- Analyzer for the C6 counterexample, with depth cap 2. -/
def AC6 : GISelKnownBits := ⟨mfC6, dlTriv, tlTriv, 2⟩

/-- Machine function for the C5 counterexample: register 1 is a sign-extending
load of 4 bits into width 8 from the pointer in register 2. -/
def mfC5 : MachineFunction :=
  ⟨fun r =>
    if r = 1 then ⟨Opcode.G_SEXTLOAD, [MOp.register 1 0 true, MOp.register 2 0 true], 4, none⟩
    else ⟨Opcode.OTHER, [], 0, none⟩,
   fun r => if r = 1 then LLT.scalar 8 else if r = 2 then LLT.pointer 0 64 else LLT.invalid⟩

/-- Target oracle for the C5 counterexample: the known-bits callback knows the
top six bits of register 1 are ones. -/
def tlC5 : TargetLowering :=
  ⟨fun r _ _ => if r = 1 then ⟨8, 0, 252⟩ else KnownBits.unknown 8,
   fun _ w => KnownBits.unknown w, fun _ _ _ => 1,
   fun _ _ => BooleanContent.ZeroOrOneBooleanContent⟩

/-- Analyzer for the C5 counterexample. -/
def AC5 : GISelKnownBits := ⟨mfC5, dlTriv, tlC5, 6⟩

/-- Machine function for the C10 witness: register 1 is a phi whose second
operand is a physical (non-virtual) register. -/
def mfC10 : MachineFunction :=
  ⟨fun r =>
    if r = 1 then
      ⟨Opcode.G_PHI, [MOp.register 1 0 true, MOp.register 3 0 true, MOp.bb 0,
                      MOp.register 2 0 false, MOp.bb 1], 0, none⟩
    else if r = 3 then
      ⟨Opcode.G_CONSTANT, [MOp.register 3 0 true, MOp.imm 42], 0, none⟩
    else ⟨Opcode.OTHER, [], 0, none⟩,
   fun r => if r = 1 ∨ r = 3 then LLT.scalar 8 else LLT.invalid⟩

/-- Analyzer for the C10 witness. -/
def AC10 : GISelKnownBits := ⟨mfC10, dlTriv, tlTriv, 6⟩

/-- Machine function for the C5 amended-claim witness: register 4 is defined by
an opaque target instruction of scalar width 8. -/
def mfC5b : MachineFunction :=
  ⟨fun r =>
    if r = 4 then ⟨Opcode.OTHER, [MOp.register 4 0 true], 0, none⟩
    else ⟨Opcode.OTHER, [], 0, none⟩,
   fun r => if r = 4 then LLT.scalar 8 else LLT.invalid⟩

/-- Target oracle for the C5 amended-claim witness: the known-bits callback
knows the top six bits of register 4 are ones; the sign-bit callback claims
nothing. -/
def tlC5b : TargetLowering :=
  ⟨fun r _ _ => if r = 4 then ⟨8, 0, 252⟩ else KnownBits.unknown 8,
   fun _ w => KnownBits.unknown w, fun _ _ _ => 1,
   fun _ _ => BooleanContent.ZeroOrOneBooleanContent⟩

/-- Analyzer for the C5 amended-claim witness. -/
def AC5b : GISelKnownBits := ⟨mfC5b, dlTriv, tlC5b, 6⟩

/-- Machine function for the C5 trunc fall-through witness: register 6 truncates
the 16-bit register 7 (an opaque target instruction) to 4 bits. -/
def mfC5c : MachineFunction :=
  ⟨fun r =>
    if r = 6 then ⟨Opcode.G_TRUNC, [MOp.register 6 0 true, MOp.register 7 0 true], 0, none⟩
    else ⟨Opcode.OTHER, [], 0, none⟩,
   fun r => if r = 6 then LLT.scalar 4 else if r = 7 then LLT.scalar 16 else LLT.invalid⟩

/-- Target oracle for the C5 trunc fall-through witness: register 7 is known to
be 1111 0000 0000 1000 (four leading sign bits, low nibble 1000). -/
def tlC5c : TargetLowering :=
  ⟨fun r _ _ => if r = 7 then ⟨16, 0, 61448⟩ else KnownBits.unknown 8,
   fun _ w => KnownBits.unknown w, fun _ _ _ => 1,
   fun _ _ => BooleanContent.ZeroOrOneBooleanContent⟩

/-- Analyzer for the C5 trunc fall-through witness. -/
def AC5c : GISelKnownBits := ⟨mfC5c, dlTriv, tlC5c, 6⟩

/-- A result KnownBits is good for register `r`: conflict-free, masks within the
width, and the width equal to the register type's size. -/
def GoodKB (A : GISelKnownBits) (r : Nat) (k : KnownBits) : Prop :=
  NoConflict k ∧ WfKB k ∧ k.w = (A.mf.regType r).getSizeInBits

/-- Every cache entry is good for its register. -/
def CacheGood (A : GISelKnownBits) (cache : Cache) : Prop :=
  ∀ p ∈ cache, GoodKB A p.1 p.2

/-- Well-formedness of the machine function and target oracles, as the
MachineVerifier and the TargetLowering contract guarantee: oracle answers are
conflict-free and correctly sized, phis have at least one source, and generic
instructions are well-typed (operand registers valid, with the sizes the
opcode demands). -/
structure WfMIR (A : GISelKnownBits) : Prop where
  oracle_instr : ∀ r d depth, GoodKB A r (A.tl.computeKnownBitsForTargetInstr r d depth)
  oracle_frame : ∀ idx w, NoConflict (A.tl.computeKnownBitsForFrameIndex idx w) ∧
    WfKB (A.tl.computeKnownBitsForFrameIndex idx w) ∧
    (A.tl.computeKnownBitsForFrameIndex idx w).w = w
  range_known : ∀ r k, (A.mf.vregDef r).rangeKnown = some k → GoodKB A r k
  phi_nonempty : ∀ r, ((A.mf.vregDef r).opcode = Opcode.COPY ∨
    (A.mf.vregDef r).opcode = Opcode.G_PHI ∨ (A.mf.vregDef r).opcode = Opcode.PHI) →
    everyOther ((A.mf.vregDef r).operands.drop 1) ≠ []
  binop_types : ∀ r, (A.mf.vregDef r).opcode ∈ [Opcode.G_SUB, Opcode.G_XOR,
      Opcode.G_PTR_ADD, Opcode.G_ADD, Opcode.G_AND, Opcode.G_OR, Opcode.G_MUL,
      Opcode.G_SMIN, Opcode.G_SMAX, Opcode.G_UMIN, Opcode.G_UMAX] →
    ((A.mf.regType ((A.mf.vregDef r).getOperand 1).getReg).isValid = true ∧
     (A.mf.regType ((A.mf.vregDef r).getOperand 1).getReg).getSizeInBits =
       (A.mf.regType r).getSizeInBits) ∧
    ((A.mf.regType ((A.mf.vregDef r).getOperand 2).getReg).isValid = true ∧
     (A.mf.regType ((A.mf.vregDef r).getOperand 2).getReg).getSizeInBits =
       (A.mf.regType r).getSizeInBits)
  select_types : ∀ r, (A.mf.vregDef r).opcode = Opcode.G_SELECT →
    (A.mf.regType ((A.mf.vregDef r).getOperand 3).getReg).isValid = true ∧
    (A.mf.regType ((A.mf.vregDef r).getOperand 3).getReg).getSizeInBits =
      (A.mf.regType r).getSizeInBits
  shift_types : ∀ r, (A.mf.vregDef r).opcode ∈ [Opcode.G_ASHR, Opcode.G_LSHR,
      Opcode.G_SHL] →
    (A.mf.regType ((A.mf.vregDef r).getOperand 1).getReg).isValid = true ∧
    (A.mf.regType ((A.mf.vregDef r).getOperand 1).getReg).getSizeInBits =
      (A.mf.regType r).getSizeInBits ∧
    (A.mf.regType ((A.mf.vregDef r).getOperand 1).getReg).getScalarSizeInBits ≤
      (A.mf.regType ((A.mf.vregDef r).getOperand 1).getReg).getSizeInBits
  ext_types : ∀ r, (A.mf.vregDef r).opcode ∈ [Opcode.G_SEXT, Opcode.G_ANYEXT] →
    (A.mf.regType ((A.mf.vregDef r).getOperand 1).getReg).isValid = true ∧
    (A.mf.regType ((A.mf.vregDef r).getOperand 1).getReg).getSizeInBits ≤
      (A.mf.regType r).getSizeInBits
  zext_types : ∀ r, (A.mf.vregDef r).opcode ∈ [Opcode.G_INTTOPTR, Opcode.G_PTRTOINT,
      Opcode.G_ZEXT, Opcode.G_TRUNC] →
    (A.mf.regType ((A.mf.vregDef r).getOperand 1).getReg).isValid = true ∧
    (A.mf.regType ((A.mf.vregDef r).getOperand 1).getReg).getSizeInBits ≤
      (if (A.mf.regType ((A.mf.vregDef r).getOperand 1).getReg).isPointer then
        A.dl.indexSizeInBits
          (A.mf.regType ((A.mf.vregDef r).getOperand 1).getReg).getAddressSpace
      else (A.mf.regType ((A.mf.vregDef r).getOperand 1).getReg).getSizeInBits)
  bswap_types : ∀ r, (A.mf.vregDef r).opcode ∈ [Opcode.G_BSWAP, Opcode.G_BITREVERSE] →
    (A.mf.regType ((A.mf.vregDef r).getOperand 1).getReg).isValid = true ∧
    (A.mf.regType ((A.mf.vregDef r).getOperand 1).getReg).getSizeInBits =
      (A.mf.regType r).getSizeInBits
  zextload_size : ∀ r, (A.mf.vregDef r).opcode = Opcode.G_ZEXTLOAD →
    (A.mf.vregDef r).memSizeInBits ≤ (A.mf.regType r).getSizeInBits
  merge_types : ∀ r, (A.mf.vregDef r).opcode = Opcode.G_MERGE_VALUES →
    (∀ op ∈ (A.mf.vregDef r).operands.drop 1,
      (A.mf.regType op.getReg).isValid = true ∧
      (A.mf.regType op.getReg).getSizeInBits =
        (A.mf.regType ((A.mf.vregDef r).getOperand 1).getReg).getSizeInBits) ∧
    ((A.mf.vregDef r).operands.drop 1).length *
        (A.mf.regType ((A.mf.vregDef r).getOperand 1).getReg).getSizeInBits ≤
      (A.mf.regType r).getSizeInBits

theorem testBit_ones (n i : Nat) : (ones n).testBit i = decide (i < n) :=
  Nat.testBit_two_pow_sub_one n i

theorem testBit_notW (w x i : Nat) :
    (notW w x).testBit i = (decide (i < w) ^^ x.testBit i) := by
  simp [notW, Nat.testBit_xor, testBit_ones]

theorem testBit_bitsFrom (w k i : Nat) :
    (bitsFrom w k).testBit i = (decide (i < w) ^^ decide (i < k)) := by
  simp [bitsFrom, Nat.testBit_xor, testBit_ones]

theorem testBit_ge_false {x w : Nat} (h : x < 2 ^ w) {i : Nat} (hi : w ≤ i) :
    x.testBit i = false :=
  Nat.testBit_lt_two_pow (lt_of_lt_of_le h (Nat.pow_le_pow_right (by norm_num) hi))

theorem lt_two_pow_of_high_bits {x n : Nat} (h : ∀ i, n ≤ i → x.testBit i = false) :
    x < 2 ^ n := by
  have hx : x = x % 2 ^ n := by
    apply Nat.eq_of_testBit_eq
    intro i
    rw [Nat.testBit_mod_two_pow]
    by_cases hi : i < n
    · simp [hi]
    · simp [hi, h i (Nat.le_of_not_lt hi)]
  rw [hx]
  exact Nat.mod_lt _ (Nat.two_pow_pos n)

theorem ones_lt (n : Nat) : ones n < 2 ^ n := by
  have := Nat.two_pow_pos n
  unfold ones
  omega

theorem notW_lt {w x : Nat} (hx : x < 2 ^ w) : notW w x < 2 ^ w :=
  Nat.xor_lt_two_pow (ones_lt w) hx

theorem bitsFrom_lt {w k : Nat} (hk : k ≤ w) : bitsFrom w k < 2 ^ w := by
  apply lt_two_pow_of_high_bits
  intro i hi
  rw [testBit_bitsFrom]
  have h1 : ¬ i < w := Nat.not_lt.mpr hi
  have h2 : ¬ i < k := by omega
  simp [h1, h2]

theorem le_of_testBit_subset {x y : Nat} (h : ∀ i, x.testBit i = true → y.testBit i = true) :
    x ≤ y := by
  have hxy : x &&& y = x := by
    apply Nat.eq_of_testBit_eq
    intro i
    rw [Nat.testBit_land]
    cases hx : x.testBit i
    · simp
    · simp [h i hx]
  calc x = x &&& y := hxy.symm
    _ ≤ y := Nat.and_le_right

theorem eq_zero_of_testBit_false {x : Nat} (h : ∀ i, x.testBit i = false) : x = 0 :=
  Nat.eq_of_testBit_eq (fun i => by simp [h i])

theorem matches_iff {a : KnownBits} {x : Nat} :
    Matches a x ↔ x < 2 ^ a.w ∧
      (∀ i, a.zero.testBit i = true → x.testBit i = false) ∧
      (∀ i, a.one.testBit i = true → x.testBit i = true) := by
  constructor
  · rintro ⟨hlt, hz, ho⟩
    refine ⟨hlt, ?_, ?_⟩
    · intro i hi
      have := congrArg (fun t => t.testBit i) hz
      simp only [Nat.testBit_land, Nat.zero_testBit] at this
      cases hx : x.testBit i
      · rfl
      · rw [hx, hi] at this; simp at this
    · intro i hi
      have := congrArg (fun t => t.testBit i) ho
      simp only [Nat.testBit_land] at this
      rw [hi] at this
      simpa using this.symm
  · rintro ⟨hlt, hz, ho⟩
    refine ⟨hlt, ?_, ?_⟩
    · apply eq_zero_of_testBit_false
      intro i
      rw [Nat.testBit_land]
      cases hzi : a.zero.testBit i
      · simp
      · simp [hz i hzi]
    · apply Nat.eq_of_testBit_eq
      intro i
      rw [Nat.testBit_land]
      cases hoi : a.one.testBit i
      · simp
      · simp [ho i hoi]

theorem noConflict_testBit {a : KnownBits} (h : NoConflict a) (i : Nat) :
    a.zero.testBit i = false ∨ a.one.testBit i = false := by
  have h0 := congrArg (fun t => t.testBit i) h
  simp only [Nat.testBit_land, Nat.zero_testBit] at h0
  cases hz : a.zero.testBit i
  · exact Or.inl rfl
  · cases ho : a.one.testBit i
    · exact Or.inr rfl
    · rw [hz, ho] at h0; simp at h0

/-- A conflict-free wellformed KnownBits is matched by its own `one` mask. -/
theorem matches_one {a : KnownBits} (h : NoConflict a) (hw : WfKB a) : Matches a a.one := by
  rw [matches_iff]
  refine ⟨hw.2, ?_, fun _ h => h⟩
  intro i hi
  rcases noConflict_testBit h i with h' | h'
  · rw [hi] at h'; cases h'
  · exact h'

/-- A value matched by a KnownBits proves it conflict-free. -/
theorem noConflict_of_matches {a : KnownBits} {x : Nat} (h : Matches a x) : NoConflict a := by
  rw [matches_iff] at h
  apply eq_zero_of_testBit_false
  intro i
  rw [Nat.testBit_land]
  cases hz : a.zero.testBit i
  · simp
  · cases ho : a.one.testBit i
    · simp
    · have h1 := h.2.1 i hz
      have h2 := h.2.2 i ho
      rw [h1] at h2; cases h2

/-- Disjoint bit patterns add without carries: or equals sum. -/
theorem lor_eq_add : ∀ a b : Nat, a &&& b = 0 → a ||| b = a + b := by
  intro a
  induction a using Nat.binaryRec with
  | z => intro b _; simp
  | f ba a' ih =>
    intro b hab
    rw [← Nat.bit_decomp b] at hab ⊢
    rw [Nat.land_bit] at hab
    rw [Nat.bit_eq_zero_iff] at hab
    rw [Nat.lor_bit, ih b.div2 hab.1]
    have hb : (ba && b.bodd) = false := hab.2
    simp only [Nat.bit, Bool.cond_eq_ite]
    cases ba <;> cases hbb : b.bodd <;> simp_all <;> omega

theorem notW_eq_sub {w y : Nat} (hy : y < 2 ^ w) : notW w y = 2 ^ w - 1 - y := by
  have hdisj : y &&& notW w y = 0 := by
    apply eq_zero_of_testBit_false
    intro i
    rw [Nat.testBit_land, testBit_notW]
    cases hyi : y.testBit i
    · simp
    · have : i < w := by
        by_contra hc
        rw [testBit_ge_false hy (Nat.le_of_not_lt hc)] at hyi
        cases hyi
      simp [this, hyi]
  have hor : y ||| notW w y = ones w := by
    apply Nat.eq_of_testBit_eq
    intro i
    rw [Nat.testBit_lor, testBit_notW, testBit_ones]
    cases hyi : y.testBit i
    · simp
    · have : i < w := by
        by_contra hc
        rw [testBit_ge_false hy (Nat.le_of_not_lt hc)] at hyi
        cases hyi
      simp [this]
  have := lor_eq_add y (notW w y) hdisj
  rw [hor] at this
  simp [ones] at this
  omega

theorem testBit_add_carry (x y c : Nat) (hc : c ≤ 1) (i : Nat) :
    (x + y + c).testBit i = ((x.testBit i ^^ y.testBit i) ^^ carryBit x y c i) := by
  have hp : 0 < 2 ^ i := Nat.two_pow_pos i
  have hdecomp : x + y + c = 2 ^ i * (x / 2 ^ i + y / 2 ^ i) + (x % 2 ^ i + y % 2 ^ i + c) := by
    have hx := Nat.div_add_mod x (2 ^ i)
    have hy := Nat.div_add_mod y (2 ^ i)
    have : 2 ^ i * (x / 2 ^ i + y / 2 ^ i) =
        2 ^ i * (x / 2 ^ i) + 2 ^ i * (y / 2 ^ i) := by ring
    omega
  have hdiv : (x + y + c) / 2 ^ i =
      x / 2 ^ i + y / 2 ^ i + (x % 2 ^ i + y % 2 ^ i + c) / 2 ^ i := by
    rw [hdecomp, Nat.mul_add_div hp]
  set s := x % 2 ^ i + y % 2 ^ i + c with hs
  have hslt : s < 2 ^ i + 2 ^ i := by
    have h1 := Nat.mod_lt x hp
    have h2 := Nat.mod_lt y hp
    omega
  have hq : s / 2 ^ i ≤ 1 := by
    apply Nat.lt_succ_iff.mp
    apply Nat.div_lt_of_lt_mul
    omega
  have hq1 : (1 ≤ s / 2 ^ i) ↔ (2 ^ i ≤ s) := by
    rw [Nat.le_div_iff_mul_le hp]; omega
  have hcb : carryBit x y c i = decide (2 ^ i ≤ s) := rfl
  rw [Nat.testBit_to_div_mod, Nat.testBit_to_div_mod, Nat.testBit_to_div_mod, hdiv, hcb]
  have key : ∀ q : Nat, q ≤ 1 → (1 ≤ q ↔ 2 ^ i ≤ s) →
      (decide ((x / 2 ^ i + y / 2 ^ i + q) % 2 = 1) =
        ((decide (x / 2 ^ i % 2 = 1) ^^ decide (y / 2 ^ i % 2 = 1)) ^^ decide (2 ^ i ≤ s))) := by
    intro q hq' hq1'
    by_cases h3 : 2 ^ i ≤ s
    · have hqv : q = 1 := by have := hq1'.mpr h3; omega
      subst hqv
      rcases Nat.mod_two_eq_zero_or_one (x / 2 ^ i) with h1 | h1 <;>
        rcases Nat.mod_two_eq_zero_or_one (y / 2 ^ i) with h2 | h2 <;>
        simp [h1, h2, h3] <;> omega
    · have hqv : q = 0 := by
        have h5 : ¬ 1 ≤ q := fun hh => h3 (hq1'.mp hh)
        omega
      subst hqv
      rcases Nat.mod_two_eq_zero_or_one (x / 2 ^ i) with h1 | h1 <;>
        rcases Nat.mod_two_eq_zero_or_one (y / 2 ^ i) with h2 | h2 <;>
        simp [h1, h2, h3] <;> omega
  exact key (s / 2 ^ i) hq hq1

theorem carryBit_mono {x x' y y' c c' : Nat} (i : Nat)
    (hx : x % 2 ^ i ≤ x' % 2 ^ i) (hy : y % 2 ^ i ≤ y' % 2 ^ i) (hc : c ≤ c') :
    carryBit x y c i = true → carryBit x' y' c' i = true := by
  simp only [carryBit, decide_eq_true_eq]
  omega

theorem mod_le_of_subset {x y : Nat}
    (h : ∀ i, x.testBit i = true → y.testBit i = true) (k : Nat) :
    x % 2 ^ k ≤ y % 2 ^ k := by
  apply le_of_testBit_subset
  intro i hi
  rw [Nat.testBit_mod_two_pow] at hi ⊢
  rcases Bool.and_eq_true_iff.mp hi with ⟨h1, h2⟩
  rw [h1, h i h2]
  rfl

theorem matches_mod_le_min {a : KnownBits} {x : Nat} (h : Matches a x) (k : Nat) :
    a.one % 2 ^ k ≤ x % 2 ^ k := by
  apply mod_le_of_subset
  exact (matches_iff.mp h).2.2

theorem matches_subset_max {a : KnownBits} {x : Nat} (h : Matches a x) :
    ∀ i, x.testBit i = true → (notW a.w a.zero).testBit i = true := by
  intro i hxi
  rw [testBit_notW]
  have hiw : i < a.w := by
    by_contra hc
    rw [testBit_ge_false h.1 (Nat.le_of_not_lt hc)] at hxi
    cases hxi
  have hz : a.zero.testBit i = false := by
    cases hz : a.zero.testBit i
    · rfl
    · rw [(matches_iff.mp h).2.1 i hz] at hxi; cases hxi
  simp [hiw, hz]

theorem matches_mod_le_max {a : KnownBits} {x : Nat} (h : Matches a x) (k : Nat) :
    x % 2 ^ k ≤ notW a.w a.zero % 2 ^ k :=
  mod_le_of_subset (matches_subset_max h) k

/-- Central property of the carry trick in `computeForAddCarry`: at any
position where the `Known` mask is set, the concrete sum bit equals the
`PossibleSumOne` bit, and `PossibleSumZero` and `PossibleSumOne` agree. -/
theorem addCarry_core {a b : KnownBits} (hw : b.w = a.w)
    (hca : NoConflict a) (hcb : NoConflict b)
    (hwa : WfKB a) (hwb : WfKB b) (cz co : Bool) {x y c : Nat}
    (hx : Matches a x) (hy : Matches b y)
    (hc : c ≤ 1) (hcz : cz = true → c = 0) (hco : co = true → c = 1)
    {i : Nat} (hi : i < a.w)
    (hk : (KnownBits.addCarryKnownMask a b cz co).testBit i = true) :
    (x + y + c).testBit i = (KnownBits.possibleSumOne a b co).testBit i ∧
    (KnownBits.possibleSumZero a b cz).testBit i =
      (KnownBits.possibleSumOne a b co).testBit i := by
  set w := a.w with hwdef
  set cmax : Nat := if cz then 0 else 1 with hcmax
  set cmin : Nat := if co then 1 else 0 with hcmin
  have hcmax1 : cmax ≤ 1 := by rw [hcmax]; split <;> omega
  have hcmin1 : cmin ≤ 1 := by rw [hcmin]; split <;> omega
  have hccmax : c ≤ cmax := by
    rw [hcmax]; rcases hczv : cz with _ | _
    · simpa using hc
    · simp [hcz hczv]
  have hcminc : cmin ≤ c := by
    rw [hcmin]; rcases hcov : co with _ | _
    · simp
    · simp [hco hcov]
  -- bits of the four mask values
  have hpsz : (KnownBits.possibleSumZero a b cz).testBit i =
      (((notW w a.zero).testBit i ^^ (notW w b.zero).testBit i) ^^
        carryBit (notW w a.zero) (notW w b.zero) cmax i) := by
    rw [KnownBits.possibleSumZero, Nat.testBit_mod_two_pow]
    simp only [KnownBits.getMaxValue, hw, ← hwdef, hi, decide_True, Bool.true_and]
    exact testBit_add_carry _ _ _ hcmax1 i
  have hpso : (KnownBits.possibleSumOne a b co).testBit i =
      ((a.one.testBit i ^^ b.one.testBit i) ^^ carryBit a.one b.one cmin i) := by
    rw [KnownBits.possibleSumOne, Nat.testBit_mod_two_pow]
    simp only [KnownBits.getMinValue, hi, decide_True, Bool.true_and]
    exact testBit_add_carry _ _ _ hcmin1 i
  have hres : (x + y + c).testBit i =
      ((x.testBit i ^^ y.testBit i) ^^ carryBit x y c i) :=
    testBit_add_carry _ _ _ hc i
  -- the known mask at i
  rw [KnownBits.addCarryKnownMask] at hk
  simp only [Nat.testBit_land, Nat.testBit_lor, Bool.and_eq_true, Bool.or_eq_true] at hk
  obtain ⟨⟨hka, hkb⟩, hkc⟩ := hk
  -- carry monotonicity
  have hmono1 : carryBit a.one b.one cmin i = true → carryBit x y c i = true :=
    carryBit_mono i (matches_mod_le_min hx i) (matches_mod_le_min hy i) hcminc
  have hmono2 : carryBit x y c i = true →
      carryBit (notW w a.zero) (notW w b.zero) cmax i = true := by
    apply carryBit_mono i (matches_mod_le_max hx i) ?_ hccmax
    have := matches_mod_le_max hy i
    rwa [hw] at this
  -- the carry known-bits reduce to the extreme carries
  have hckz : (notW w (KnownBits.possibleSumZero a b cz ^^^ a.zero ^^^ b.zero)).testBit i =
      !(carryBit (notW w a.zero) (notW w b.zero) cmax i) := by
    rw [testBit_notW]
    simp only [Nat.testBit_xor, hpsz, testBit_notW, hi, decide_True]
    cases a.zero.testBit i <;> cases b.zero.testBit i <;>
      cases carryBit (notW w a.zero) (notW w b.zero) cmax i <;> rfl
  have hcko : (KnownBits.possibleSumOne a b co ^^^ a.one ^^^ b.one).testBit i =
      carryBit a.one b.one cmin i := by
    simp only [Nat.testBit_xor, hpso]
    cases a.one.testBit i <;> cases b.one.testBit i <;>
      cases carryBit a.one b.one cmin i <;> rfl
  rw [hckz, hcko] at hkc
  -- all three carries agree
  have hcarry : carryBit x y c i = carryBit a.one b.one cmin i ∧
      carryBit (notW w a.zero) (notW w b.zero) cmax i = carryBit a.one b.one cmin i := by
    rcases hkc with hkc | hkc
    · have h1 : carryBit (notW w a.zero) (notW w b.zero) cmax i = false := by
        cases hv : carryBit (notW w a.zero) (notW w b.zero) cmax i
        · rfl
        · rw [hv] at hkc; cases hkc
      have h2 : carryBit x y c i = false := by
        cases hv : carryBit x y c i
        · rfl
        · rw [hmono2 hv] at h1; cases h1
      have h3 : carryBit a.one b.one cmin i = false := by
        cases hv : carryBit a.one b.one cmin i
        · rfl
        · rw [hmono1 hv] at h2; cases h2
      rw [h1, h2, h3]; exact ⟨rfl, rfl⟩
    · have h2 := hmono1 hkc
      have h3 := hmono2 h2
      rw [h2, h3, hkc]; exact ⟨rfl, rfl⟩
  -- known operand bits determine the concrete bits
  have hxa : x.testBit i = a.one.testBit i ∧ (notW w a.zero).testBit i = a.one.testBit i := by
    rw [testBit_notW]
    rcases hka with hka | hka
    · have hao : a.one.testBit i = false := by
        rcases noConflict_testBit hca i with h' | h'
        · rw [hka] at h'; cases h'
        · exact h'
      rw [hao, (matches_iff.mp hx).2.1 i hka, hka]
      simp [hi]
    · have haz : a.zero.testBit i = false := by
        rcases noConflict_testBit hca i with h' | h'
        · exact h'
        · rw [hka] at h'; cases h'
      rw [hka, (matches_iff.mp hx).2.2 i hka, haz]
      simp [hi]
  have hyb : y.testBit i = b.one.testBit i ∧ (notW w b.zero).testBit i = b.one.testBit i := by
    rw [testBit_notW]
    rcases hkb with hkb | hkb
    · have hbo : b.one.testBit i = false := by
        rcases noConflict_testBit hcb i with h' | h'
        · rw [hkb] at h'; cases h'
        · exact h'
      rw [hbo, (matches_iff.mp hy).2.1 i hkb, hkb]
      simp [hi]
    · have hbz : b.zero.testBit i = false := by
        rcases noConflict_testBit hcb i with h' | h'
        · exact h'
        · rw [hkb] at h'; cases h'
      rw [hkb, (matches_iff.mp hy).2.2 i hkb, hbz]
      simp [hi]
  constructor
  · rw [hres, hpso, hxa.1, hyb.1, hcarry.1]
  · rw [hpsz, hpso, hxa.2, hyb.2, hcarry.2]

theorem matches_lt {a : KnownBits} {x : Nat} (h : Matches a x) : x < 2 ^ a.w := h.1

/-- Soundness of the static `computeForAddCarry` against any concrete sum
`x + y + c` whose carry `c` is allowed by the prior. -/
theorem computeForAddCarryFlags_matches {a b : KnownBits} (hw : b.w = a.w)
    (hca : NoConflict a) (hcb : NoConflict b) (hwa : WfKB a) (hwb : WfKB b)
    (cz co : Bool) {x y c : Nat} (hx : Matches a x) (hy : Matches b y)
    (hc : c ≤ 1) (hcz : cz = true → c = 0) (hco : co = true → c = 1) :
    Matches (KnownBits.computeForAddCarryFlags a b cz co) ((x + y + c) % 2 ^ a.w) := by
  have hszlt : KnownBits.possibleSumZero a b cz < 2 ^ a.w :=
    Nat.mod_lt _ (Nat.two_pow_pos a.w)
  have hsolt : KnownBits.possibleSumOne a b co < 2 ^ a.w :=
    Nat.mod_lt _ (Nat.two_pow_pos a.w)
  rw [matches_iff]
  refine ⟨Nat.mod_lt _ (Nat.two_pow_pos _), ?_, ?_⟩
  · intro i hzi
    rw [KnownBits.computeForAddCarryFlags] at hzi
    simp only [Nat.testBit_land, testBit_notW, Bool.and_eq_true] at hzi
    obtain ⟨h1, hk⟩ := hzi
    have hi : i < a.w := by
      by_contra hcon
      have hge := Nat.le_of_not_lt hcon
      rw [testBit_ge_false hszlt hge] at h1
      simp [Nat.not_lt.mpr hge] at h1
    have hpszi : (KnownBits.possibleSumZero a b cz).testBit i = false := by
      simp [hi] at h1
      exact h1
    have hcore := addCarry_core hw hca hcb hwa hwb cz co hx hy hc hcz hco hi hk
    rw [Nat.testBit_mod_two_pow]
    simp only [hi, decide_True, Bool.true_and]
    rw [hcore.1, ← hcore.2, hpszi]
  · intro i hoi
    rw [KnownBits.computeForAddCarryFlags] at hoi
    simp only [Nat.testBit_land, Bool.and_eq_true] at hoi
    obtain ⟨h1, hk⟩ := hoi
    have hi : i < a.w := by
      by_contra hcon
      rw [testBit_ge_false hsolt (Nat.le_of_not_lt hcon)] at h1
      cases h1
    have hcore := addCarry_core hw hca hcb hwa hwb cz co hx hy hc hcz hco hi hk
    rw [Nat.testBit_mod_two_pow]
    simp only [hi, decide_True, Bool.true_and]
    rw [hcore.1, h1]

/-- The mask-swapped KnownBits is matched by the bitwise complement. -/
theorem flip_matches {b : KnownBits} {y : Nat} (hwb : WfKB b) (hy : Matches b y) :
    Matches (⟨b.w, b.one, b.zero⟩ : KnownBits) (notW b.w y) := by
  rw [matches_iff] at hy ⊢
  refine ⟨notW_lt hy.1, ?_, ?_⟩
  · intro i hi
    have hiw : i < b.w := by
      by_contra hc
      rw [testBit_ge_false hwb.2 (Nat.le_of_not_lt hc)] at hi
      cases hi
    rw [testBit_notW]
    simp [hiw, hy.2.2 i hi]
  · intro i hi
    have hiw : i < b.w := by
      by_contra hc
      rw [testBit_ge_false hwb.1 (Nat.le_of_not_lt hc)] at hi
      cases hi
    rw [testBit_notW]
    simp [hiw, hy.2.1 i hi]

theorem flip_noConflict {b : KnownBits} (h : NoConflict b) :
    NoConflict (⟨b.w, b.one, b.zero⟩ : KnownBits) := by
  unfold NoConflict at h ⊢
  rw [Nat.land_comm]
  exact h

theorem flip_wf {b : KnownBits} (h : WfKB b) : WfKB (⟨b.w, b.one, b.zero⟩ : KnownBits) :=
  ⟨h.2, h.1⟩

/-- With `NSW = false` the sign-bit fix is the identity. -/
theorem computeForAddSub_false_eq (add : Bool) (a b : KnownBits) :
    KnownBits.computeForAddSub add false a b =
      (if add then KnownBits.computeForAddCarryFlags a b true false
       else KnownBits.computeForAddCarryFlags a ⟨b.w, b.one, b.zero⟩ false true) := by
  unfold KnownBits.computeForAddSub
  cases add <;> simp

/-- Soundness of `computeForAddSub` for the wrapping add. -/
theorem computeForAddSub_add_matches {a b : KnownBits} (hw : b.w = a.w)
    (hca : NoConflict a) (hcb : NoConflict b) (hwa : WfKB a) (hwb : WfKB b)
    {x y : Nat} (hx : Matches a x) (hy : Matches b y) :
    Matches (KnownBits.computeForAddSub true false a b) ((x + y) % 2 ^ a.w) := by
  rw [computeForAddSub_false_eq]
  simp only [if_pos]
  have h := computeForAddCarryFlags_matches hw hca hcb hwa hwb true false hx hy
    (c := 0) (by omega) (fun _ => rfl) (fun hco => by cases hco)
  simpa using h

/-- Soundness of `computeForAddSub` for the wrapping sub. -/
theorem computeForAddSub_sub_matches {a b : KnownBits} (hw : b.w = a.w)
    (hca : NoConflict a) (hcb : NoConflict b) (hwa : WfKB a) (hwb : WfKB b)
    {x y : Nat} (hx : Matches a x) (hy : Matches b y) :
    Matches (KnownBits.computeForAddSub false false a b) ((2 ^ a.w + x - y) % 2 ^ a.w) := by
  rw [computeForAddSub_false_eq]
  simp only [Bool.false_eq_true, if_false]
  have hwflip : (⟨b.w, b.one, b.zero⟩ : KnownBits).w = a.w := hw
  have h := computeForAddCarryFlags_matches hwflip hca (flip_noConflict hcb)
    hwa (flip_wf hwb) false true hx (flip_matches hwb hy)
    (c := 1) (by omega) (fun hcz => by cases hcz) (fun _ => rfl)
  have hyy : y < 2 ^ a.w := by rw [← hw]; exact hy.1
  have hval : x + notW b.w y + 1 = 2 ^ a.w + x - y := by
    rw [notW_eq_sub hy.1, hw]
    omega
  rwa [hval] at h

/-- Soundness of the abstract bitwise and. -/
theorem and_matches {a b : KnownBits} (hw : b.w = a.w)
    {x y : Nat} (hx : Matches a x) (hy : Matches b y) :
    Matches (KnownBits.and a b) (x &&& y) := by
  rw [matches_iff] at hx hy ⊢
  refine ⟨Nat.and_lt_two_pow x (hw ▸ hy.1), ?_, ?_⟩
  · intro i hi
    rw [KnownBits.and] at hi
    simp only [Nat.testBit_lor, Bool.or_eq_true] at hi
    rw [Nat.testBit_land]
    rcases hi with hi | hi
    · rw [hx.2.1 i hi]; rfl
    · rw [hy.2.1 i hi]; simp
  · intro i hi
    rw [KnownBits.and] at hi
    simp only [Nat.testBit_land, Bool.and_eq_true] at hi ⊢
    exact ⟨hx.2.2 i hi.1, hy.2.2 i hi.2⟩

/-- Soundness of the abstract bitwise or. -/
theorem or_matches {a b : KnownBits} (hw : b.w = a.w)
    {x y : Nat} (hx : Matches a x) (hy : Matches b y) :
    Matches (KnownBits.or a b) (x ||| y) := by
  rw [matches_iff] at hx hy ⊢
  refine ⟨Nat.or_lt_two_pow hx.1 (hw ▸ hy.1), ?_, ?_⟩
  · intro i hi
    rw [KnownBits.or] at hi
    simp only [Nat.testBit_land, Bool.and_eq_true] at hi
    rw [Nat.testBit_lor, hx.2.1 i hi.1, hy.2.1 i hi.2]
    rfl
  · intro i hi
    rw [KnownBits.or] at hi
    simp only [Nat.testBit_lor, Bool.or_eq_true] at hi ⊢
    rcases hi with hi | hi
    · exact Or.inl (hx.2.2 i hi)
    · exact Or.inr (hy.2.2 i hi)

/-- Soundness of the abstract bitwise xor. -/
theorem xor_matches {a b : KnownBits} (hw : b.w = a.w)
    {x y : Nat} (hx : Matches a x) (hy : Matches b y) :
    Matches (KnownBits.xor a b) (x ^^^ y) := by
  rw [matches_iff] at hx hy ⊢
  refine ⟨Nat.xor_lt_two_pow hx.1 (hw ▸ hy.1), ?_, ?_⟩
  · intro i hi
    rw [KnownBits.xor] at hi
    simp only [Nat.testBit_lor, Nat.testBit_land, Bool.or_eq_true, Bool.and_eq_true] at hi
    rw [Nat.testBit_xor]
    rcases hi with ⟨h1, h2⟩ | ⟨h1, h2⟩
    · rw [hx.2.1 i h1, hy.2.1 i h2]; rfl
    · rw [hx.2.2 i h1, hy.2.2 i h2]; rfl
  · intro i hi
    rw [KnownBits.xor] at hi
    simp only [Nat.testBit_lor, Nat.testBit_land, Bool.or_eq_true, Bool.and_eq_true] at hi
    rw [Nat.testBit_xor]
    rcases hi with ⟨h1, h2⟩ | ⟨h1, h2⟩
    · rw [hx.2.1 i h1, hy.2.2 i h2]; rfl
    · rw [hx.2.2 i h1, hy.2.1 i h2]; rfl

theorem countTrailingOnes_le (w : Nat) : ∀ x, countTrailingOnes w x ≤ w := by
  induction w with
  | zero => intro x; simp [countTrailingOnes]
  | succ n ih =>
    intro x
    rw [countTrailingOnes]
    split
    · have := ih (x / 2); omega
    · omega

theorem testBit_lt_countTrailingOnes {w : Nat} :
    ∀ {x i : Nat}, i < countTrailingOnes w x → x.testBit i = true := by
  induction w with
  | zero => intro x i h; simp [countTrailingOnes] at h
  | succ n ih =>
    intro x i h
    rw [countTrailingOnes] at h
    split at h
    · rename_i hx
      cases i with
      | zero => rw [Nat.testBit_zero]; simp [hx]
      | succ j =>
        rw [Nat.testBit_add_one]
        exact ih (by omega)
    · omega

theorem countTrailingOnes_mono {w : Nat} :
    ∀ {x y : Nat}, (∀ i, x.testBit i = true → y.testBit i = true) →
      countTrailingOnes w x ≤ countTrailingOnes w y := by
  induction w with
  | zero => intro x y _; simp [countTrailingOnes]
  | succ n ih =>
    intro x y h
    rw [countTrailingOnes, countTrailingOnes]
    split
    · rename_i hx
      have hx0 : x.testBit 0 = true := by rw [Nat.testBit_zero]; simp [hx]
      have hy0 := h 0 hx0
      rw [Nat.testBit_zero] at hy0
      simp only [decide_eq_true_eq] at hy0
      rw [if_pos hy0]
      have hsub : ∀ i, (x / 2).testBit i = true → (y / 2).testBit i = true := by
        intro i hi
        rw [← Nat.testBit_add_one] at hi ⊢
        exact h (i + 1) hi
      have := ih hsub
      omega
    · omega

theorem countLeadingOnes_le (w : Nat) : ∀ x, countLeadingOnes w x ≤ w := by
  induction w with
  | zero => intro x; simp [countLeadingOnes]
  | succ n ih =>
    intro x
    rw [countLeadingOnes]
    split
    · have := ih x; omega
    · omega

theorem testBit_ge_sub_countLeadingOnes {w : Nat} :
    ∀ {x j : Nat}, w - countLeadingOnes w x ≤ j → j < w → x.testBit j = true := by
  induction w with
  | zero => intro x j _ h; omega
  | succ n ih =>
    intro x j h1 h2
    rw [countLeadingOnes] at h1
    split at h1
    · rename_i hx
      rcases Nat.lt_or_ge j n with hj | hj
      · exact ih (by have := countLeadingOnes_le n x; omega) hj
      · have : j = n := by omega
        rw [this]; exact hx
    · omega

theorem countLeadingZeros_le (w : Nat) : ∀ x, countLeadingZeros w x ≤ w := by
  induction w with
  | zero => intro x; simp [countLeadingZeros]
  | succ n ih =>
    intro x
    rw [countLeadingZeros]
    split
    · omega
    · have := ih x; omega

theorem testBit_ge_sub_countLeadingZeros {w : Nat} :
    ∀ {x j : Nat}, w - countLeadingZeros w x ≤ j → j < w → x.testBit j = false := by
  induction w with
  | zero => intro x j _ h; omega
  | succ n ih =>
    intro x j h1 h2
    rw [countLeadingZeros] at h1
    split at h1
    · omega
    · rename_i hx
      rcases Nat.lt_or_ge j n with hj | hj
      · exact ih (by have := countLeadingZeros_le n x; omega) hj
      · have : j = n := by omega
        rw [this]
        simpa using hx

theorem matches_known_bit {a : KnownBits} {x : Nat} (hca : NoConflict a) (h : Matches a x)
    {i : Nat} (hk : (a.zero ||| a.one).testBit i = true) : x.testBit i = a.one.testBit i := by
  rw [Nat.testBit_lor] at hk
  rcases Bool.or_eq_true_iff.mp hk with hz | ho
  · have hao : a.one.testBit i = false := by
      rcases noConflict_testBit hca i with h' | h'
      · rw [hz] at h'; cases h'
      · exact h'
    rw [hao, (matches_iff.mp h).2.1 i hz]
  · rw [ho, (matches_iff.mp h).2.2 i ho]

theorem matches_mod_eq_one {a : KnownBits} {x : Nat} (hca : NoConflict a) (h : Matches a x)
    {t : Nat} (ht : t ≤ countTrailingOnes a.w (a.zero ||| a.one)) :
    x % 2 ^ t = a.one % 2 ^ t := by
  apply Nat.eq_of_testBit_eq
  intro i
  rw [Nat.testBit_mod_two_pow, Nat.testBit_mod_two_pow]
  by_cases hit : i < t
  · simp only [hit, decide_True, Bool.true_and]
    exact matches_known_bit hca h (testBit_lt_countTrailingOnes (w := a.w) (by omega))
  · simp [hit]

theorem matches_trailZeros_mod {a : KnownBits} {x : Nat} (h : Matches a x) :
    x % 2 ^ countTrailingOnes a.w a.zero = 0 := by
  apply eq_zero_of_testBit_false
  intro i
  rw [Nat.testBit_mod_two_pow]
  by_cases hit : i < countTrailingOnes a.w a.zero
  · simp only [hit, decide_True, Bool.true_and]
    exact (matches_iff.mp h).2.1 i (testBit_lt_countTrailingOnes hit)
  · simp [hit]

theorem matches_lt_leadZeros {a : KnownBits} {x : Nat} (h : Matches a x) :
    x < 2 ^ (a.w - countLeadingOnes a.w a.zero) := by
  apply lt_two_pow_of_high_bits
  intro i hi
  by_cases hiw : i < a.w
  · exact (matches_iff.mp h).2.1 i (testBit_ge_sub_countLeadingOnes hi hiw)
  · exact testBit_ge_false h.1 (Nat.le_of_not_lt hiw)

/-- Soundness of `computeForMul` against the wrapping product. -/
theorem computeForMul_matches {a b : KnownBits} (hw : b.w = a.w)
    (hca : NoConflict a) (hcb : NoConflict b) (hwa : WfKB a) (hwb : WfKB b)
    {x y : Nat} (hx : Matches a x) (hy : Matches b y) :
    Matches (KnownBits.computeForMul a b) (x * y % 2 ^ a.w) := by
  unfold KnownBits.computeForMul KnownBits.mulLeadZ KnownBits.countMinTrailingZeros
    KnownBits.countMinLeadingZeros
  rw [hw]
  set w := a.w with hwd
  set az := a.zero with hazd
  set ao := a.one with haod
  set bz := b.zero with hbzd
  set bo := b.one with hbod
  set t0 := countTrailingOnes w (az ||| ao) with ht0
  set t1 := countTrailingOnes w (bz ||| bo) with ht1
  set tz0 := countTrailingOnes w az with htz0
  set tz1 := countTrailingOnes w bz with htz1
  set lz0 := countLeadingOnes w az with hlz0
  set lz1 := countLeadingOnes w bz with hlz1
  set R := min (min (t0 - tz0) (t1 - tz1) + (tz0 + tz1)) w with hR
  set L := min (max (lz0 + lz1) w - w) w with hL
  set bk := loBits t0 ao * loBits t1 bo % 2 ^ w with hbk
  have htz0le : tz0 ≤ t0 := by
    rw [htz0, ht0]
    exact countTrailingOnes_mono (fun i hi => by rw [Nat.testBit_lor, hi]; rfl)
  have htz1le : tz1 ≤ t1 := by
    rw [htz1, ht1]
    exact countTrailingOnes_mono (fun i hi => by rw [Nat.testBit_lor, hi]; rfl)
  have hR1 : R ≤ t0 + tz1 := by rw [hR]; omega
  have hR2 : R ≤ t1 + tz0 := by rw [hR]; omega
  have hRw : R ≤ w := by rw [hR]; omega
  have hx0 : x % 2 ^ t0 = ao % 2 ^ t0 := matches_mod_eq_one hca hx (le_of_eq ht0)
  have hy0 : y % 2 ^ t1 = bo % 2 ^ t1 :=
    matches_mod_eq_one hcb hy (by rw [hw] <;> exact le_of_eq ht1)
  have hdvx : 2 ^ tz0 ∣ x % 2 ^ t0 := by
    apply Nat.dvd_of_mod_eq_zero
    rw [Nat.mod_mod_of_dvd _ (Nat.pow_dvd_pow 2 htz0le)]
    exact matches_trailZeros_mod hx
  have hdvy : 2 ^ tz1 ∣ y % 2 ^ t1 := by
    apply Nat.dvd_of_mod_eq_zero
    rw [Nat.mod_mod_of_dvd _ (Nat.pow_dvd_pow 2 htz1le)]
    have h0 := matches_trailZeros_mod hy
    rw [hw] at h0
    exact h0
  obtain ⟨x0q, hx0q⟩ := hdvx
  obtain ⟨y0q, hy0q⟩ := hdvy
  have hexp : x * y = (x % 2 ^ t0) * (y % 2 ^ t1) +
      (2 ^ t0 * (x / 2 ^ t0) * (y % 2 ^ t1) + 2 ^ t1 * (y / 2 ^ t1) * (x % 2 ^ t0) +
        2 ^ t0 * 2 ^ t1 * ((x / 2 ^ t0) * (y / 2 ^ t1))) := by
    have hxd := Nat.div_add_mod x (2 ^ t0)
    have hyd := Nat.div_add_mod y (2 ^ t1)
    calc x * y = (2 ^ t0 * (x / 2 ^ t0) + x % 2 ^ t0) *
        (2 ^ t1 * (y / 2 ^ t1) + y % 2 ^ t1) := by rw [hxd, hyd]
      _ = _ := by ring
  have hdvd : 2 ^ R ∣ (2 ^ t0 * (x / 2 ^ t0) * (y % 2 ^ t1) +
      2 ^ t1 * (y / 2 ^ t1) * (x % 2 ^ t0) +
      2 ^ t0 * 2 ^ t1 * ((x / 2 ^ t0) * (y / 2 ^ t1))) := by
    apply dvd_add
    apply dvd_add
    · have heq : 2 ^ t0 * (x / 2 ^ t0) * (y % 2 ^ t1) =
          2 ^ (t0 + tz1) * (x / 2 ^ t0 * y0q) := by
        rw [hy0q, pow_add]; ring
      rw [heq]
      exact Dvd.dvd.mul_right (Nat.pow_dvd_pow 2 hR1) _
    · have heq : 2 ^ t1 * (y / 2 ^ t1) * (x % 2 ^ t0) =
          2 ^ (t1 + tz0) * (y / 2 ^ t1 * x0q) := by
        rw [hx0q, pow_add]; ring
      rw [heq]
      exact Dvd.dvd.mul_right (Nat.pow_dvd_pow 2 hR2) _
    · have heq : 2 ^ t0 * 2 ^ t1 * (x / 2 ^ t0 * (y / 2 ^ t1)) =
          2 ^ (t0 + t1) * (x / 2 ^ t0 * (y / 2 ^ t1)) := by
        rw [pow_add]
      rw [heq]
      exact Dvd.dvd.mul_right (Nat.pow_dvd_pow 2 (by omega)) _
  have hcong : x * y % 2 ^ R = (x % 2 ^ t0) * (y % 2 ^ t1) % 2 ^ R := by
    obtain ⟨k, hk⟩ := hdvd
    rw [hexp, hk, Nat.add_mul_mod_self_left]
  have hbkR : bk % 2 ^ R = x * y % 2 ^ R := by
    rw [hbk, loBits, loBits, Nat.mod_mod_of_dvd _ (Nat.pow_dvd_pow 2 hRw), ← hx0, ← hy0, hcong]
  have hbit : ∀ i, i < R → (x * y % 2 ^ w).testBit i = bk.testBit i := by
    intro i hiR
    have hdw : decide (i < w) = true := decide_eq_true (by omega)
    have hdR : decide (i < R) = true := decide_eq_true hiR
    have h1 : (x * y % 2 ^ w).testBit i = (x * y).testBit i := by
      rw [Nat.testBit_mod_two_pow (x * y) w i, hdw, Bool.true_and]
    have h2 : (x * y).testBit i = (x * y % 2 ^ R).testBit i := by
      rw [Nat.testBit_mod_two_pow (x * y) R i, hdR, Bool.true_and]
    have h3 : bk.testBit i = (bk % 2 ^ R).testBit i := by
      rw [Nat.testBit_mod_two_pow bk R i, hdR, Bool.true_and]
    rw [h1, h2, h3, hbkR]
  have hlz0w : lz0 ≤ w := by rw [hlz0]; exact countLeadingOnes_le w az
  have hlz1w : lz1 ≤ w := by rw [hlz1]; exact countLeadingOnes_le w bz
  have hhigh : x * y % 2 ^ w < 2 ^ (w - L) := by
    rcases le_or_lt (lz0 + lz1) w with hcase | hcase
    · have hL0 : L = 0 := by rw [hL]; omega
      rw [hL0]
      simpa using Nat.mod_lt _ (Nat.two_pow_pos w)
    · have hxlt : x < 2 ^ (w - lz0) := matches_lt_leadZeros hx
      have hylt : y < 2 ^ (w - lz1) := by
        have h0 := matches_lt_leadZeros hy
        rwa [hw] at h0
      have hprod : x * y < 2 ^ (w - lz0) * 2 ^ (w - lz1) :=
        Nat.mul_lt_mul'' hxlt hylt
      rw [← pow_add] at hprod
      have hLe : w - lz0 + (w - lz1) = w - L := by rw [hL]; omega
      rw [hLe] at hprod
      have hmod : x * y % 2 ^ w = x * y := by
        apply Nat.mod_eq_of_lt
        apply lt_of_lt_of_le hprod
        exact Nat.pow_le_pow_right (by norm_num) (by omega)
      rw [hmod]
      exact hprod
  rw [matches_iff]
  refine ⟨Nat.mod_lt _ (Nat.two_pow_pos _), ?_, ?_⟩
  · intro i hi
    simp only [Nat.testBit_lor, Bool.or_eq_true] at hi
    rcases hi with hi | hi
    · rw [testBit_bitsFrom] at hi
      have hrange : w - L ≤ i := by
        by_cases h1 : i < w <;> by_cases h2 : i < w - L <;>
          simp [h1, h2] at hi <;> omega
      exact testBit_ge_false hhigh hrange
    · rw [loBits, Nat.testBit_mod_two_pow] at hi
      rcases Bool.and_eq_true_iff.mp hi with ⟨h1, h2⟩
      simp only [decide_eq_true_eq] at h1
      have hbkF : bk.testBit i = false := by
        have hiw : i < w := by omega
        rw [testBit_notW] at h2
        cases hb : bk.testBit i
        · rfl
        · rw [hb] at h2; simp [hiw] at h2
      rw [hbit i h1, hbkF]
  · intro i hi
    have hi' : (bk % 2 ^ R).testBit i = true := hi
    rw [Nat.testBit_mod_two_pow bk R i] at hi'
    rcases Bool.and_eq_true_iff.mp hi' with ⟨h1, h2⟩
    simp only [decide_eq_true_eq] at h1
    rw [hbit i h1, h2]


/-- If `v ≤ x` but bit `i` of `x` is 0 while bit `i` of `v` is 1, there is a
highest position above `i` where `x` has a 1 and `v` a 0, all higher bits
agreeing. -/
theorem highest_diff {x v : Nat} (hv : v ≤ x) {i : Nat}
    (hxi : x.testBit i = false) (hvi : v.testBit i = true) :
    ∃ j, i < j ∧ x.testBit j = true ∧ v.testBit j = false ∧
      ∀ k, j < k → x.testBit k = v.testBit k := by
  have hxW : x < 2 ^ (x + v) :=
    lt_of_lt_of_le (Nat.lt_two_pow x) (Nat.pow_le_pow_right (by norm_num) (by omega))
  have hvW : v < 2 ^ (x + v) :=
    lt_of_lt_of_le (Nat.lt_two_pow v) (Nat.pow_le_pow_right (by norm_num) (by omega))
  set W := x + v with hW
  have hex : ∃ m, m ≤ W ∧ (i < m ∧ x.testBit m ≠ v.testBit m) := by
    by_contra hno
    push_neg at hno
    have hagree : ∀ j, i < j → x.testBit j = v.testBit j := by
      intro j hj
      by_cases hjW : j ≤ W
      · by_contra hne
        exact hne (hno j hjW hj)
      · rw [testBit_ge_false hxW (by omega), testBit_ge_false hvW (by omega)]
    exact absurd (Nat.lt_of_testBit i hxi hvi hagree) (Nat.not_lt.mpr hv)
  obtain ⟨m, hmW, hm⟩ := hex
  have hspec : i < Nat.findGreatest (fun k => i < k ∧ x.testBit k ≠ v.testBit k) W ∧
      x.testBit (Nat.findGreatest (fun k => i < k ∧ x.testBit k ≠ v.testBit k) W) ≠
        v.testBit (Nat.findGreatest (fun k => i < k ∧ x.testBit k ≠ v.testBit k) W) :=
    Nat.findGreatest_spec (P := fun k => i < k ∧ x.testBit k ≠ v.testBit k) hmW hm
  set j := Nat.findGreatest (fun k => i < k ∧ x.testBit k ≠ v.testBit k) W with hj
  have hgt : ∀ k, j < k → x.testBit k = v.testBit k := by
    intro k hk
    by_cases hkW : k ≤ W
    · have hnk := Nat.findGreatest_is_greatest hk hkW
      by_contra hne
      exact hnk ⟨by omega, hne⟩
    · rw [testBit_ge_false hxW (by omega), testBit_ge_false hvW (by omega)]
  cases hxj : x.testBit j
  · cases hvj : v.testBit j
    · rw [hxj, hvj] at hspec; exact absurd rfl hspec.2
    · have : x < v := Nat.lt_of_testBit j hxj hvj hgt
      omega
  · cases hvj : v.testBit j
    · exact ⟨j, hspec.1, hxj, hvj, hgt⟩
    · rw [hxj, hvj] at hspec; exact absurd rfl hspec.2

/-- Soundness of `makeGE`: a matching value that is at least `v` still matches
after strengthening toward `v`. -/
theorem makeGE_matches {a : KnownBits} {x v : Nat} (h : Matches a x) (hv : v ≤ x)
    (hvw : v < 2 ^ a.w) : Matches (a.makeGE v) x := by
  have h' := matches_iff.mp h
  rw [matches_iff]
  refine ⟨h'.1, fun i hi => h'.2.1 i hi, ?_⟩
  intro i hi
  have hi' : (a.one ||| (v &&& bitsFrom a.w
      (a.w - countLeadingOnes a.w (a.zero ||| v)))).testBit i = true := hi
  rw [Nat.testBit_lor] at hi'
  rcases Bool.or_eq_true_iff.mp hi' with h1 | h1
  · exact h'.2.2 i h1
  · rw [Nat.testBit_land, testBit_bitsFrom] at h1
    rcases Bool.and_eq_true_iff.mp h1 with ⟨hvi, hrange⟩
    set n := countLeadingOnes a.w (a.zero ||| v) with hn
    have hiw : i < a.w ∧ a.w - n ≤ i := by
      by_cases c1 : i < a.w <;> by_cases c2 : i < a.w - n <;>
        simp [c1, c2] at hrange <;> omega
    by_contra hxi
    have hxi' : x.testBit i = false := by
      cases hb : x.testBit i
      · rfl
      · exact absurd hb hxi
    obtain ⟨j, hij, hxj, hvj, _⟩ := highest_diff hv hxi' hvi
    have hjw : j < a.w := by
      by_contra hc
      rw [testBit_ge_false h'.1 (Nat.le_of_not_lt hc)] at hxj
      cases hxj
    have hzv : (a.zero ||| v).testBit j = true :=
      testBit_ge_sub_countLeadingOnes (x := a.zero ||| v) (by omega) hjw
    rw [Nat.testBit_lor] at hzv
    rcases Bool.or_eq_true_iff.mp hzv with h2 | h2
    · rw [h'.2.1 j h2] at hxj; cases hxj
    · rw [h2] at hvj; cases hvj

theorem meet_matches_left {w z1 o1 z2 o2 x : Nat}
    (h : Matches ⟨w, z1, o1⟩ x) : Matches ⟨w, z1 &&& z2, o1 &&& o2⟩ x := by
  rw [matches_iff] at h ⊢
  refine ⟨h.1, ?_, ?_⟩
  · intro i hi
    rw [Nat.testBit_land] at hi
    exact h.2.1 i (Bool.and_eq_true_iff.mp hi).1
  · intro i hi
    rw [Nat.testBit_land] at hi
    exact h.2.2 i (Bool.and_eq_true_iff.mp hi).1

theorem meet_matches_right {w w2 z1 o1 z2 o2 x : Nat} (hww : w2 = w)
    (h : Matches ⟨w2, z2, o2⟩ x) : Matches ⟨w, z1 &&& z2, o1 &&& o2⟩ x := by
  rw [matches_iff] at h ⊢
  subst hww
  refine ⟨h.1, ?_, ?_⟩
  · intro i hi
    rw [Nat.testBit_land] at hi
    exact h.2.1 i (Bool.and_eq_true_iff.mp hi).2
  · intro i hi
    rw [Nat.testBit_land] at hi
    exact h.2.2 i (Bool.and_eq_true_iff.mp hi).2

theorem matches_min_le {a : KnownBits} {x : Nat} (h : Matches a x) : a.one ≤ x :=
  le_of_testBit_subset (matches_iff.mp h).2.2

theorem matches_le_max {a : KnownBits} {x : Nat} (h : Matches a x) :
    x ≤ notW a.w a.zero :=
  le_of_testBit_subset (matches_subset_max h)

theorem wf_makeGE {a : KnownBits} (hwa : WfKB a) {v : Nat} (hv : v < 2 ^ a.w) :
    WfKB (a.makeGE v) := by
  refine ⟨hwa.1, ?_⟩
  apply Nat.or_lt_two_pow hwa.2
  exact Nat.and_lt_two_pow v (bitsFrom_lt (by omega))

theorem wf_umax {a b : KnownBits} (hw : b.w = a.w) (hwa : WfKB a) (hwb : WfKB b) :
    WfKB (KnownBits.umax a b) := by
  unfold KnownBits.umax
  split
  · exact hwa
  · split
    · exact hwb
    · have hr := wf_makeGE hwb (v := a.getMinValue) (by rw [hw]; exact hwa.2)
      constructor
      · have h1 : (b.makeGE a.getMinValue).zero < 2 ^ a.w := by
          rw [← hw]; exact hr.1
        exact Nat.and_lt_two_pow _ h1
      · have h2 : (b.makeGE a.getMinValue).one < 2 ^ a.w := by
          rw [← hw]; exact hr.2
        exact Nat.and_lt_two_pow _ h2

theorem umax_w {a b : KnownBits} (hw : b.w = a.w) : (KnownBits.umax a b).w = a.w := by
  unfold KnownBits.umax
  split
  · rfl
  · split
    · exact hw
    · rfl

/-- Soundness of `umax` against the unsigned maximum. -/
theorem umax_matches {a b : KnownBits} (hw : b.w = a.w)
    (hwa : WfKB a) (hwb : WfKB b) {x y : Nat} (hx : Matches a x) (hy : Matches b y) :
    Matches (KnownBits.umax a b) (max x y) := by
  unfold KnownBits.umax
  split
  · rename_i hcase
    have hyx : y ≤ x := le_trans (matches_le_max hy) (le_trans hcase (matches_min_le hx))
    rw [max_eq_left hyx]
    exact hx
  · split
    · rename_i hcase
      have hxy : x ≤ y := le_trans (matches_le_max hx) (le_trans hcase (matches_min_le hy))
      rw [max_eq_right hxy]
      exact hy
    · rcases Nat.le_total y x with hyx | hxy
      · rw [max_eq_left hyx]
        have hL : Matches (a.makeGE b.getMinValue) x :=
          makeGE_matches hx (le_trans (matches_min_le hy) hyx) (hw ▸ hwb.2)
        exact meet_matches_left hL
      · rw [max_eq_right hxy]
        have hR : Matches (b.makeGE a.getMinValue) y :=
          makeGE_matches hy (le_trans (matches_min_le hx) hxy) (hw ▸ hwa.2)
        exact meet_matches_right hw hR

/-- Unsigned min soundness, by the flip reduction of `umin`. -/
theorem umin_matches {a b : KnownBits} (hw : b.w = a.w)
    (hwa : WfKB a) (hwb : WfKB b) {x y : Nat} (hx : Matches a x) (hy : Matches b y) :
    Matches (KnownBits.umin a b) (min x y) := by
  have hw2 : (⟨b.w, b.one, b.zero⟩ : KnownBits).w = (⟨a.w, a.one, a.zero⟩ : KnownBits).w := hw
  have h1 : Matches (⟨a.w, a.one, a.zero⟩ : KnownBits) (notW a.w x) := flip_matches hwa hx
  have h2 : Matches (⟨b.w, b.one, b.zero⟩ : KnownBits) (notW b.w y) := flip_matches hwb hy
  have h3 := umax_matches hw2 (flip_wf hwa) (flip_wf hwb) h1 h2
  have h4 := flip_matches (wf_umax hw2 (flip_wf hwa) (flip_wf hwb)) h3
  have hxw := hx.1
  have hyw : y < 2 ^ a.w := by rw [← hw]; exact hy.1
  have hby : notW b.w y = notW a.w y := by rw [hw]
  have hval : notW (KnownBits.umax (⟨a.w, a.one, a.zero⟩ : KnownBits)
      (⟨b.w, b.one, b.zero⟩ : KnownBits)).w (max (notW a.w x) (notW b.w y)) = min x y := by
    rw [umax_w hw2, hby]
    show notW a.w (max (notW a.w x) (notW a.w y)) = min x y
    have h5 := notW_lt hxw
    have h6 := notW_lt hyw
    rw [notW_eq_sub hxw, notW_eq_sub hyw, notW_eq_sub (by omega : max (2 ^ a.w - 1 - x) (2 ^ a.w - 1 - y) < 2 ^ a.w)]
    omega
  rw [hval] at h4
  exact h4

theorem testBit_clearBit (x i j : Nat) :
    (clearBit x i).testBit j = (x.testBit j && !(decide (i = j))) := by
  unfold clearBit
  split
  · rename_i hxi
    rw [Nat.testBit_xor, Nat.testBit_two_pow]
    by_cases hij : i = j
    · subst hij; simp [hxi]
    · simp [hij]
  · rename_i hxi
    by_cases hij : i = j
    · subst hij
      simp only [Bool.not_eq_true] at hxi
      simp [hxi]
    · simp [hij]

theorem testBit_setBitTo (x i j : Nat) (b : Bool) :
    (setBitTo x i b).testBit j = (if i = j then b else x.testBit j) := by
  unfold setBitTo
  cases b
  · simp only [Bool.false_eq_true, if_false]
    rw [testBit_clearBit]
    by_cases hij : i = j <;> simp [hij]
  · simp only [if_true]
    rw [Nat.testBit_lor, Nat.testBit_two_pow]
    by_cases hij : i = j <;> simp [hij]

theorem setBitTo_lt {x : Nat} {w : Nat} (hx : x < 2 ^ w) {i : Nat} (hi : i < w) (b : Bool) :
    setBitTo x i b < 2 ^ w := by
  apply lt_two_pow_of_high_bits
  intro j hj
  rw [testBit_setBitTo]
  have hij : i ≠ j := by omega
  simp [hij, testBit_ge_false hx hj]

/-- XOR with the sign mask as plus/minus `2^(w-1)`. -/
theorem xor_sign_eq {w x : Nat} (hw : 0 < w) (hx : x < 2 ^ w) :
    x ^^^ 2 ^ (w - 1) = (if x < 2 ^ (w - 1) then x + 2 ^ (w - 1) else x - 2 ^ (w - 1)) := by
  have hpow : 2 ^ (w - 1) * 2 = 2 ^ w := by
    rw [← pow_succ]
    congr 1
    omega
  have key : ∀ z : Nat, z < 2 ^ (w - 1) → z ^^^ 2 ^ (w - 1) = z + 2 ^ (w - 1) := by
    intro z hz
    have hdisj : z &&& 2 ^ (w - 1) = 0 := by
      apply eq_zero_of_testBit_false
      intro j
      rw [Nat.testBit_land, Nat.testBit_two_pow]
      by_cases hj : w - 1 = j
      · subst hj
        rw [testBit_ge_false hz (le_refl _)]
        rfl
      · simp [hj]
    have hxor : z ^^^ 2 ^ (w - 1) = z ||| 2 ^ (w - 1) := by
      apply Nat.eq_of_testBit_eq
      intro j
      rw [Nat.testBit_xor, Nat.testBit_lor]
      have := congrArg (fun t => t.testBit j) hdisj
      simp only [Nat.testBit_land, Nat.zero_testBit] at this
      cases h1 : z.testBit j <;> cases h2 : (2 ^ (w - 1)).testBit j <;> simp_all
    rw [hxor, lor_eq_add z _ hdisj]
  split
  · rename_i h
    exact key x h
  · rename_i h
    have hsub : x - 2 ^ (w - 1) < 2 ^ (w - 1) := by omega
    have h2 := key (x - 2 ^ (w - 1)) hsub
    have hx2 : x = (x - 2 ^ (w - 1)) ^^^ 2 ^ (w - 1) := by
      rw [h2]; omega
    calc x ^^^ 2 ^ (w - 1) = ((x - 2 ^ (w - 1)) ^^^ 2 ^ (w - 1)) ^^^ 2 ^ (w - 1) := by
          rw [← hx2]
      _ = x - 2 ^ (w - 1) := Nat.xor_cancel_right _ _

theorem xor_sign_le_iff {w x y : Nat} (hw : 0 < w) (hx : x < 2 ^ w) (hy : y < 2 ^ w) :
    (x ^^^ 2 ^ (w - 1)) ≤ (y ^^^ 2 ^ (w - 1)) ↔ toIntW w x ≤ toIntW w y := by
  have hpow : 2 ^ (w - 1) * 2 = 2 ^ w := by
    rw [← pow_succ]; congr 1; omega
  have hcast : ((2 ^ (w - 1) : Nat) : Int) * 2 = (2 : Int) ^ w := by
    push_cast
    rw [← pow_succ]
    congr 1
    omega
  rw [xor_sign_eq hw hx, xor_sign_eq hw hy]
  unfold toIntW
  split_ifs <;> omega

theorem xor_sign_lt {w x : Nat} (hw : 0 < w) (hx : x < 2 ^ w) :
    x ^^^ 2 ^ (w - 1) < 2 ^ w := by
  have hpow : 2 ^ (w - 1) * 2 = 2 ^ w := by
    rw [← pow_succ]; congr 1; omega
  rw [xor_sign_eq hw hx]
  split <;> omega

/-- The sign-bit flip of `smax` is matched by XOR with the sign mask. -/
theorem smaxFlip_matches {a : KnownBits} (hw : 0 < a.w) (hwa : WfKB a) {x : Nat}
    (hx : Matches a x) :
    Matches (⟨a.w, setBitTo a.zero (a.w - 1) (a.one.testBit (a.w - 1)),
              setBitTo a.one (a.w - 1) (a.zero.testBit (a.w - 1))⟩ : KnownBits)
      (x ^^^ 2 ^ (a.w - 1)) := by
  have hx' := matches_iff.mp hx
  rw [matches_iff]
  refine ⟨xor_sign_lt hw hx.1, ?_, ?_⟩
  · intro i hi
    rw [testBit_setBitTo] at hi
    rw [Nat.testBit_xor, Nat.testBit_two_pow]
    by_cases hij : a.w - 1 = i
    · rw [if_pos hij] at hi
      subst hij
      rw [hx'.2.2 _ hi]
      simp
    · rw [if_neg hij] at hi
      rw [hx'.2.1 i hi]
      simp [hij]
  · intro i hi
    rw [testBit_setBitTo] at hi
    rw [Nat.testBit_xor, Nat.testBit_two_pow]
    by_cases hij : a.w - 1 = i
    · rw [if_pos hij] at hi
      subst hij
      rw [hx'.2.1 _ hi]
      simp
    · rw [if_neg hij] at hi
      rw [hx'.2.2 i hi]
      simp [hij]

theorem smaxFlip_wf {a : KnownBits} (hw : 0 < a.w) (hwa : WfKB a) :
    WfKB (⟨a.w, setBitTo a.zero (a.w - 1) (a.one.testBit (a.w - 1)),
           setBitTo a.one (a.w - 1) (a.zero.testBit (a.w - 1))⟩ : KnownBits) :=
  ⟨setBitTo_lt hwa.1 (by omega) _, setBitTo_lt hwa.2 (by omega) _⟩

/-- Signed max soundness, by the sign-flip reduction of `smax`. -/
theorem smax_matches {a b : KnownBits} (hw : b.w = a.w) (hw0 : 0 < a.w)
    (hwa : WfKB a) (hwb : WfKB b) {x y : Nat} (hx : Matches a x) (hy : Matches b y) :
    Matches (KnownBits.smax a b) (smaxNat a.w x y) := by
  have h1 := smaxFlip_matches hw0 hwa hx
  have h2 := smaxFlip_matches (a := b) (by omega) hwb hy
  have hw2 : (⟨b.w, setBitTo b.zero (b.w - 1) (b.one.testBit (b.w - 1)),
      setBitTo b.one (b.w - 1) (b.zero.testBit (b.w - 1))⟩ : KnownBits).w =
      (⟨a.w, setBitTo a.zero (a.w - 1) (a.one.testBit (a.w - 1)),
        setBitTo a.one (a.w - 1) (a.zero.testBit (a.w - 1))⟩ : KnownBits).w := hw
  have h2' : Matches (⟨b.w, setBitTo b.zero (b.w - 1) (b.one.testBit (b.w - 1)),
      setBitTo b.one (b.w - 1) (b.zero.testBit (b.w - 1))⟩ : KnownBits)
      (y ^^^ 2 ^ (a.w - 1)) := by
    rw [← hw]; exact h2
  have h3 := umax_matches hw2 (smaxFlip_wf hw0 hwa) (smaxFlip_wf (a := b) (by omega) hwb) h1 h2'
  have h4 := smaxFlip_matches (a := KnownBits.umax _ _)
    (by rw [umax_w hw2]; exact hw0)
    (wf_umax hw2 (smaxFlip_wf hw0 hwa) (smaxFlip_wf (a := b) (by omega) hwb)) h3
  have hxw := hx.1
  have hyw : y < 2 ^ a.w := by rw [← hw]; exact hy.1
  have hval : max (x ^^^ 2 ^ (a.w - 1)) (y ^^^ 2 ^ (a.w - 1)) ^^^
      2 ^ ((KnownBits.umax (⟨a.w, setBitTo a.zero (a.w - 1) (a.one.testBit (a.w - 1)),
        setBitTo a.one (a.w - 1) (a.zero.testBit (a.w - 1))⟩ : KnownBits)
        (⟨b.w, setBitTo b.zero (b.w - 1) (b.one.testBit (b.w - 1)),
          setBitTo b.one (b.w - 1) (b.zero.testBit (b.w - 1))⟩ : KnownBits)).w - 1) =
      smaxNat a.w x y := by
    rw [umax_w hw2]
    show max (x ^^^ 2 ^ (a.w - 1)) (y ^^^ 2 ^ (a.w - 1)) ^^^ 2 ^ (a.w - 1) = smaxNat a.w x y
    unfold smaxNat
    rcases le_or_lt (toIntW a.w x) (toIntW a.w y) with hc | hc
    · rw [if_pos hc, max_eq_right ((xor_sign_le_iff hw0 hxw hyw).mpr hc), Nat.xor_cancel_right]
    · have hc' := le_of_lt hc
      rw [if_neg (by omega), max_eq_left ((xor_sign_le_iff hw0 hyw hxw).mpr hc'),
        Nat.xor_cancel_right]
  rw [hval] at h4
  exact h4

/-- The combined flip of `smin` is matched by complement-xor-sign. -/
theorem sminFlip_matches {a : KnownBits} (hw : 0 < a.w) (hwa : WfKB a) {x : Nat}
    (hx : Matches a x) :
    Matches (⟨a.w, setBitTo a.one (a.w - 1) (a.zero.testBit (a.w - 1)),
              setBitTo a.zero (a.w - 1) (a.one.testBit (a.w - 1))⟩ : KnownBits)
      (notW a.w x ^^^ 2 ^ (a.w - 1)) := by
  have hx' := matches_iff.mp hx
  rw [matches_iff]
  refine ⟨xor_sign_lt hw (notW_lt hx.1), ?_, ?_⟩
  · intro i hi
    rw [testBit_setBitTo] at hi
    rw [Nat.testBit_xor, testBit_notW, Nat.testBit_two_pow]
    by_cases hij : a.w - 1 = i
    · rw [if_pos hij] at hi
      subst hij
      rw [hx'.2.1 _ hi]
      simp [hw]
    · rw [if_neg hij] at hi
      have hiw : i < a.w := by
        by_contra hc
        rw [testBit_ge_false hwa.2 (Nat.le_of_not_lt hc)] at hi
        cases hi
      rw [hx'.2.2 i hi]
      simp [hij, hiw]
  · intro i hi
    rw [testBit_setBitTo] at hi
    rw [Nat.testBit_xor, testBit_notW, Nat.testBit_two_pow]
    by_cases hij : a.w - 1 = i
    · rw [if_pos hij] at hi
      subst hij
      rw [hx'.2.2 _ hi]
      simp [hw]
    · rw [if_neg hij] at hi
      have hiw : i < a.w := by
        by_contra hc
        rw [testBit_ge_false hwa.1 (Nat.le_of_not_lt hc)] at hi
        cases hi
      rw [hx'.2.1 i hi]
      simp [hij, hiw]

theorem sminFlip_wf {a : KnownBits} (hw : 0 < a.w) (hwa : WfKB a) :
    WfKB (⟨a.w, setBitTo a.one (a.w - 1) (a.zero.testBit (a.w - 1)),
           setBitTo a.zero (a.w - 1) (a.one.testBit (a.w - 1))⟩ : KnownBits) :=
  ⟨setBitTo_lt hwa.2 (by omega) _, setBitTo_lt hwa.1 (by omega) _⟩

theorem sminT_le_iff {w x y : Nat} (hw : 0 < w) (hx : x < 2 ^ w) (hy : y < 2 ^ w) :
    (notW w x ^^^ 2 ^ (w - 1)) ≤ (notW w y ^^^ 2 ^ (w - 1)) ↔ toIntW w y ≤ toIntW w x := by
  rw [xor_sign_le_iff hw (notW_lt hx) (notW_lt hy)]
  rw [notW_eq_sub hx, notW_eq_sub hy]
  have hpow : 2 ^ (w - 1) * 2 = 2 ^ w := by
    rw [← pow_succ]; congr 1; omega
  have hcast : ((2 ^ (w - 1) : Nat) : Int) * 2 = (2 : Int) ^ w := by
    push_cast
    rw [← pow_succ]
    congr 1
    omega
  unfold toIntW
  split_ifs <;> omega

theorem sminT_invol (w x m : Nat) : notW w (notW w x ^^^ m) ^^^ m = x := by
  unfold notW
  rw [Nat.xor_assoc (ones w) x m, Nat.xor_cancel_left, Nat.xor_cancel_right]

/-- Signed min soundness, by the combined-flip reduction of `smin`. -/
theorem smin_matches {a b : KnownBits} (hw : b.w = a.w) (hw0 : 0 < a.w)
    (hwa : WfKB a) (hwb : WfKB b) {x y : Nat} (hx : Matches a x) (hy : Matches b y) :
    Matches (KnownBits.smin a b) (sminNat a.w x y) := by
  have h1 := sminFlip_matches hw0 hwa hx
  have h2 := sminFlip_matches (a := b) (by omega) hwb hy
  have hw2 : (⟨b.w, setBitTo b.one (b.w - 1) (b.zero.testBit (b.w - 1)),
      setBitTo b.zero (b.w - 1) (b.one.testBit (b.w - 1))⟩ : KnownBits).w =
      (⟨a.w, setBitTo a.one (a.w - 1) (a.zero.testBit (a.w - 1)),
        setBitTo a.zero (a.w - 1) (a.one.testBit (a.w - 1))⟩ : KnownBits).w := hw
  have h2' : Matches (⟨b.w, setBitTo b.one (b.w - 1) (b.zero.testBit (b.w - 1)),
      setBitTo b.zero (b.w - 1) (b.one.testBit (b.w - 1))⟩ : KnownBits)
      (notW a.w y ^^^ 2 ^ (a.w - 1)) := by
    rw [← hw]; exact h2
  have h3 := umax_matches hw2 (sminFlip_wf hw0 hwa) (sminFlip_wf (a := b) (by omega) hwb) h1 h2'
  have h4 := sminFlip_matches (a := KnownBits.umax _ _)
    (by rw [umax_w hw2]; exact hw0)
    (wf_umax hw2 (sminFlip_wf hw0 hwa) (sminFlip_wf (a := b) (by omega) hwb)) h3
  have hxw := hx.1
  have hyw : y < 2 ^ a.w := by rw [← hw]; exact hy.1
  have hval : notW (KnownBits.umax (⟨a.w, setBitTo a.one (a.w - 1) (a.zero.testBit (a.w - 1)),
        setBitTo a.zero (a.w - 1) (a.one.testBit (a.w - 1))⟩ : KnownBits)
        (⟨b.w, setBitTo b.one (b.w - 1) (b.zero.testBit (b.w - 1)),
          setBitTo b.zero (b.w - 1) (b.one.testBit (b.w - 1))⟩ : KnownBits)).w
      (max (notW a.w x ^^^ 2 ^ (a.w - 1)) (notW a.w y ^^^ 2 ^ (a.w - 1))) ^^^
      2 ^ ((KnownBits.umax (⟨a.w, setBitTo a.one (a.w - 1) (a.zero.testBit (a.w - 1)),
        setBitTo a.zero (a.w - 1) (a.one.testBit (a.w - 1))⟩ : KnownBits)
        (⟨b.w, setBitTo b.one (b.w - 1) (b.zero.testBit (b.w - 1)),
          setBitTo b.zero (b.w - 1) (b.one.testBit (b.w - 1))⟩ : KnownBits)).w - 1) =
      sminNat a.w x y := by
    rw [umax_w hw2]
    show notW a.w (max (notW a.w x ^^^ 2 ^ (a.w - 1)) (notW a.w y ^^^ 2 ^ (a.w - 1))) ^^^
      2 ^ (a.w - 1) = sminNat a.w x y
    unfold sminNat
    rcases le_or_lt (toIntW a.w x) (toIntW a.w y) with hc | hc
    · rw [if_pos hc, max_eq_left ((sminT_le_iff hw0 hyw hxw).mpr hc), sminT_invol]
    · have hc' := le_of_lt hc
      rw [if_neg (by omega), max_eq_right ((sminT_le_iff hw0 hxw hyw).mpr hc'), sminT_invol]
  rw [hval] at h4
  exact h4

theorem popCountW_le (w : Nat) : ∀ x, popCountW w x ≤ w := by
  induction w with
  | zero => intro x; simp [popCountW]
  | succ n ih =>
    intro x
    rw [popCountW]
    have := ih (x / 2)
    have := Nat.mod_lt x (show 0 < 2 by norm_num)
    omega

theorem popCountW_full {w : Nat} : ∀ {x}, popCountW w x = w → ∀ i, i < w → x.testBit i = true := by
  induction w with
  | zero => intro x _ i hi; omega
  | succ n ih =>
    intro x hx i hi
    rw [popCountW] at hx
    have h1 := popCountW_le n (x / 2)
    have h2 := Nat.mod_lt x (show 0 < 2 by norm_num)
    have hx2 : popCountW n (x / 2) = n ∧ x % 2 = 1 := by omega
    cases i with
    | zero =>
      rw [Nat.testBit_zero]
      simp [hx2.2]
    | succ j =>
      rw [Nat.testBit_add_one]
      exact ih hx2.1 j (by omega)

theorem lor_div_two (a b : Nat) : (a ||| b) / 2 = a / 2 ||| b / 2 := by
  apply Nat.eq_of_testBit_eq
  intro i
  rw [← Nat.testBit_add_one, Nat.testBit_lor, Nat.testBit_lor,
    ← Nat.testBit_add_one, ← Nat.testBit_add_one]

theorem land_div_two (a b : Nat) : (a &&& b) / 2 = a / 2 &&& b / 2 := by
  apply Nat.eq_of_testBit_eq
  intro i
  rw [← Nat.testBit_add_one, Nat.testBit_land, Nat.testBit_land,
    ← Nat.testBit_add_one, ← Nat.testBit_add_one]

theorem popCountW_lor (w : Nat) :
    ∀ a b, a &&& b = 0 → popCountW w (a ||| b) = popCountW w a + popCountW w b := by
  induction w with
  | zero => intro a b _; simp [popCountW]
  | succ n ih =>
    intro a b h
    have hhalf : a / 2 &&& b / 2 = 0 := by
      rw [← land_div_two, h]
    have h0 : ¬(a % 2 = 1 ∧ b % 2 = 1) := by
      rintro ⟨ha, hb⟩
      have h1 : (a &&& b).testBit 0 = false := by rw [h]; simp
      rw [Nat.testBit_land, Nat.testBit_zero, Nat.testBit_zero, ha, hb] at h1
      simp at h1
    have hb0 : decide ((a ||| b) % 2 = 1) = (decide (a % 2 = 1) || decide (b % 2 = 1)) := by
      rw [← Nat.testBit_zero, ← Nat.testBit_zero, ← Nat.testBit_zero, Nat.testBit_lor]
    have hb0' : ((a ||| b) % 2 = 1) ↔ (a % 2 = 1 ∨ b % 2 = 1) := by
      constructor
      · intro hh
        have h2 : (decide (a % 2 = 1) || decide (b % 2 = 1)) = true := by
          rw [← hb0, decide_eq_true_eq]
          exact hh
        rcases Bool.or_eq_true_iff.mp h2 with h3 | h3
        · exact Or.inl (by rwa [decide_eq_true_eq] at h3)
        · exact Or.inr (by rwa [decide_eq_true_eq] at h3)
      · intro hh
        have h2 : (decide (a % 2 = 1) || decide (b % 2 = 1)) = true := by
          rcases hh with h3 | h3 <;> simp [h3]
        rw [← hb0, decide_eq_true_eq] at h2
        exact h2
    have hmods : (a ||| b) % 2 = a % 2 + b % 2 := by omega
    rw [popCountW, popCountW, popCountW, lor_div_two, ih _ _ hhalf, hmods]
    omega

/-- A fully-known conflict-free KnownBits is matched only by its constant. -/
theorem isConstant_value {b : KnownBits} (hb : b.isConstant = true) (hcb : NoConflict b)
    (hwb : WfKB b) {y : Nat} (hy : Matches b y) : y = b.one := by
  unfold KnownBits.isConstant at hb
  rw [Nat.beq_eq_true_eq] at hb
  have hfull : popCountW b.w (b.zero ||| b.one) = b.w := by
    rw [popCountW_lor _ _ _ hcb]
    exact hb
  apply Nat.eq_of_testBit_eq
  intro i
  by_cases hi : i < b.w
  · exact (matches_known_bit hcb hy (popCountW_full hfull i hi)).trans rfl
  · rw [testBit_ge_false hy.1 (Nat.le_of_not_lt hi),
      testBit_ge_false hwb.2 (Nat.le_of_not_lt hi)]

theorem unknown_matches {w v : Nat} (hv : v < 2 ^ w) : Matches (KnownBits.unknown w) v := by
  rw [matches_iff]
  refine ⟨hv, ?_, ?_⟩ <;>
    · intro i hi
      have hi' : (0 : Nat).testBit i = true := hi
      simp at hi'

/-- Soundness of `shl` against the wrapping left shift by any matching amount. -/
theorem shl_matches {a b : KnownBits} (hw : b.w = a.w)
    (hca : NoConflict a) (hcb : NoConflict b) (hwa : WfKB a) (hwb : WfKB b)
    {x y : Nat} (hx : Matches a x) (hy : Matches b y) :
    Matches (KnownBits.shl a b) ((x <<< y) % 2 ^ a.w) := by
  have hx' := matches_iff.mp hx
  unfold KnownBits.shl
  dsimp only
  split
  · rename_i hconst
    rcases Bool.and_eq_true_iff.mp hconst with ⟨hc, hlt⟩
    have hyv : y = b.one := isConstant_value hc hcb hwb hy
    rw [KnownBits.getConstant] at hlt
    rw [decide_eq_true_eq] at hlt
    subst hyv
    rw [matches_iff]
    refine ⟨Nat.mod_lt _ (Nat.two_pow_pos _), ?_, ?_⟩
    · intro i hi
      have hi' : ((a.zero <<< b.one) % 2 ^ a.w ||| ones b.one).testBit i = true := hi
      rw [Nat.testBit_lor] at hi'
      rw [Nat.testBit_mod_two_pow, Nat.testBit_shiftLeft]
      rcases Bool.or_eq_true_iff.mp hi' with h1 | h1
      · rw [Nat.testBit_mod_two_pow, Nat.testBit_shiftLeft] at h1
        rcases Bool.and_eq_true_iff.mp h1 with ⟨h2, h3⟩
        rcases Bool.and_eq_true_iff.mp h3 with ⟨h4, h5⟩
        rw [h2, h4, hx'.2.1 _ h5]
        rfl
      · rw [testBit_ones] at h1
        rw [decide_eq_true_eq] at h1
        have : ¬ i ≥ b.one := by omega
        simp [this]
    · intro i hi
      have hi' : ((a.one <<< b.one) % 2 ^ a.w).testBit i = true := hi
      rw [Nat.testBit_mod_two_pow, Nat.testBit_shiftLeft] at hi' ⊢
      rcases Bool.and_eq_true_iff.mp hi' with ⟨h2, h3⟩
      rcases Bool.and_eq_true_iff.mp h3 with ⟨h4, h5⟩
      rw [h2, h4, hx'.2.2 _ h5]
      rfl
  · rw [matches_iff]
    refine ⟨Nat.mod_lt _ (Nat.two_pow_pos _), ?_, ?_⟩
    · intro i hi
      have hi' : ((if b.getMinValue < a.w then ones b.getMinValue else 0) |||
          ones a.countMinTrailingZeros).testBit i = true := hi
      rw [Nat.testBit_lor] at hi'
      rw [Nat.testBit_mod_two_pow, Nat.testBit_shiftLeft]
      rcases Bool.or_eq_true_iff.mp hi' with h1 | h1
      · have hiy : i < y := by
          split at h1
          · rw [testBit_ones] at h1
            rw [decide_eq_true_eq] at h1
            have := matches_min_le hy
            rw [KnownBits.getMinValue] at h1
            omega
          · simp at h1
        have : ¬ i ≥ y := by omega
        simp [this]
      · rw [testBit_ones] at h1
        rw [decide_eq_true_eq] at h1
        by_cases hiy : i ≥ y
        · have hz : a.zero.testBit (i - y) = true := by
            apply testBit_lt_countTrailingOnes (w := a.w)
            rw [KnownBits.countMinTrailingZeros] at h1
            omega
          rw [hx'.2.1 _ hz]
          simp
        · simp [hiy]
    · intro i hi
      have hi' : (0 : Nat).testBit i = true := hi
      simp at hi'

/-- Soundness of `lshr` against the logical right shift by any matching amount. -/
theorem lshr_matches {a b : KnownBits} (hw : b.w = a.w)
    (hca : NoConflict a) (hcb : NoConflict b) (hwa : WfKB a) (hwb : WfKB b)
    {x y : Nat} (hx : Matches a x) (hy : Matches b y) :
    Matches (KnownBits.lshr a b) (x >>> y) := by
  have hx' := matches_iff.mp hx
  have hres : x >>> y < 2 ^ a.w := by
    rw [Nat.shiftRight_eq_div_pow]
    exact lt_of_le_of_lt (Nat.div_le_self _ _) hx.1
  unfold KnownBits.lshr
  dsimp only
  split
  · rename_i hconst
    rcases Bool.and_eq_true_iff.mp hconst with ⟨hc, hlt⟩
    have hyv : y = b.one := isConstant_value hc hcb hwb hy
    rw [KnownBits.getConstant] at hlt
    rw [decide_eq_true_eq] at hlt
    subst hyv
    rw [matches_iff]
    refine ⟨hres, ?_, ?_⟩
    · intro i hi
      have hi' : ((a.zero >>> b.one) ||| bitsFrom a.w (a.w - b.one)).testBit i = true := hi
      rw [Nat.testBit_lor] at hi'
      rw [Nat.testBit_shiftRight]
      rcases Bool.or_eq_true_iff.mp hi' with h1 | h1
      · rw [Nat.testBit_shiftRight] at h1
        exact hx'.2.1 _ h1
      · rw [testBit_bitsFrom] at h1
        have hge : a.w ≤ b.one + i := by
          by_cases c1 : i < a.w <;> by_cases c2 : i < a.w - b.one <;>
            simp [c1, c2] at h1 <;> omega
        exact testBit_ge_false hx.1 hge
    · intro i hi
      have hi' : (a.one >>> b.one).testBit i = true := hi
      rw [Nat.testBit_shiftRight] at hi'
      rw [Nat.testBit_shiftRight]
      exact hx'.2.2 _ hi'
  · rw [matches_iff]
    refine ⟨hres, ?_, ?_⟩
    · intro i hi
      have hi' : ((if b.getMinValue < a.w then bitsFrom a.w (a.w - b.getMinValue) else 0) |||
          bitsFrom a.w (a.w - a.countMinLeadingZeros)).testBit i = true := hi
      rw [Nat.testBit_lor] at hi'
      rw [Nat.testBit_shiftRight]
      rcases Bool.or_eq_true_iff.mp hi' with h1 | h1
      · have hge : a.w ≤ y + i := by
          split at h1
          · rw [testBit_bitsFrom] at h1
            have h2 : a.w - b.getMinValue ≤ i ∧ i < a.w := by
              by_cases c1 : i < a.w <;> by_cases c2 : i < a.w - b.getMinValue <;>
                simp [c1, c2] at h1 <;> omega
            have := matches_min_le hy
            rw [KnownBits.getMinValue] at h2
            omega
          · simp at h1
        exact testBit_ge_false hx.1 hge
      · rw [testBit_bitsFrom] at h1
        have h2 : a.w - a.countMinLeadingZeros ≤ i ∧ i < a.w := by
          by_cases c1 : i < a.w <;> by_cases c2 : i < a.w - a.countMinLeadingZeros <;>
            simp [c1, c2] at h1 <;> omega
        by_cases hyi : y + i < a.w
        · apply hx'.2.1
          apply testBit_ge_sub_countLeadingOnes (w := a.w) ?_ hyi
          rw [KnownBits.countMinLeadingZeros] at h2
          omega
        · exact testBit_ge_false hx.1 (by omega)
    · intro i hi
      have hi' : (0 : Nat).testBit i = true := hi
      simp at hi'

/-- Arithmetic right shift keeps bit `min (i+s) (w-1)`. -/
theorem testBit_ashrNat {w x : Nat} (hx : x < 2 ^ w) (s i : Nat) :
    (ashrNat w x s).testBit i = (decide (i < w) && x.testBit (min (i + s) (w - 1))) := by
  unfold ashrNat
  split
  · rename_i hsign
    rw [testBit_notW, Nat.testBit_shiftRight, testBit_notW]
    by_cases hiw : i < w
    · by_cases hsw : s + i < w
      · have hmin : min (i + s) (w - 1) = i + s := by omega
        rw [hmin]
        have : s + i = i + s := by omega
        rw [this]
        have h3 : i + s < w := by omega
        simp [hiw, h3]
      · have hmin : min (i + s) (w - 1) = w - 1 := by omega
        rw [hmin, hsign]
        have h2 : x.testBit (s + i) = false := testBit_ge_false hx (show w ≤ s + i by omega)
        rw [h2]
        simp [hiw, hsw]
    · have h2 : x.testBit (s + i) = false := testBit_ge_false hx (show w ≤ s + i by omega)
      rw [h2]
      have h3 : ¬ s + i < w := by omega
      simp [hiw, h3]
  · rename_i hsign
    rw [Nat.testBit_shiftRight]
    by_cases hiw : i < w
    · by_cases hsw : s + i < w
      · have hmin : min (i + s) (w - 1) = i + s := by omega
        rw [hmin]
        have : s + i = i + s := by omega
        rw [this]
        simp [hiw]
      · have hmin : min (i + s) (w - 1) = w - 1 := by omega
        rw [hmin]
        have h2 : x.testBit (s + i) = false := testBit_ge_false hx (show w ≤ s + i by omega)
        rw [h2]
        simp only [Bool.not_eq_true] at hsign
        rw [hsign]
        simp
    · have h2 : x.testBit (s + i) = false := testBit_ge_false hx (show w ≤ s + i by omega)
      rw [h2]
      simp [hiw]

theorem ashrNat_lt {w x : Nat} (hx : x < 2 ^ w) (s : Nat) : ashrNat w x s < 2 ^ w := by
  apply lt_two_pow_of_high_bits
  intro i hi
  rw [testBit_ashrNat hx]
  simp [Nat.not_lt.mpr hi]

/-- Soundness of `ashr` against the arithmetic right shift by any matching amount. -/
theorem ashr_matches {a b : KnownBits} (hw : b.w = a.w)
    (hca : NoConflict a) (hcb : NoConflict b) (hwa : WfKB a) (hwb : WfKB b)
    {x y : Nat} (hx : Matches a x) (hy : Matches b y) :
    Matches (KnownBits.ashr a b) (ashrNat a.w x y) := by
  have hx' := matches_iff.mp hx
  unfold KnownBits.ashr
  dsimp only
  split
  · rename_i hconst
    rcases Bool.and_eq_true_iff.mp hconst with ⟨hc, hlt⟩
    have hyv : y = b.one := isConstant_value hc hcb hwb hy
    rw [KnownBits.getConstant] at hlt
    rw [decide_eq_true_eq] at hlt
    subst hyv
    rw [matches_iff]
    refine ⟨ashrNat_lt hx.1 _, ?_, ?_⟩
    · intro i hi
      have hi' : (ashrNat a.w a.zero b.one).testBit i = true := hi
      rw [testBit_ashrNat hwa.1] at hi'
      rcases Bool.and_eq_true_iff.mp hi' with ⟨h1, h2⟩
      rw [testBit_ashrNat hx.1, h1, hx'.2.1 _ h2]
      rfl
    · intro i hi
      have hi' : (ashrNat a.w a.one b.one).testBit i = true := hi
      rw [testBit_ashrNat hwa.2] at hi'
      rcases Bool.and_eq_true_iff.mp hi' with ⟨h1, h2⟩
      rw [testBit_ashrNat hx.1, h1, hx'.2.2 _ h2]
      rfl
  · exact unknown_matches (ashrNat_lt hx.1 _)

/-- C1: Soundness of the KnownBits algebra: for every pair of conflict-free,
equal-width KnownBits and all concrete integers matching them, the concrete
result of each fixed-width integer operation (and, or, xor, add/sub via
computeForAddSub, mul via computeForMul, umin/umax/smin/smax, shl/lshr/ashr)
matches the operator's KnownBits result. -/
theorem C1_knownBits_algebra_soundness (a b : KnownBits) (hw : b.w = a.w) (hw0 : 0 < a.w)
    (hca : NoConflict a) (hcb : NoConflict b) (hwa : WfKB a) (hwb : WfKB b)
    (x y : Nat) (hx : Matches a x) (hy : Matches b y) :
    Matches (KnownBits.and a b) (x &&& y) ∧
    Matches (KnownBits.or a b) (x ||| y) ∧
    Matches (KnownBits.xor a b) (x ^^^ y) ∧
    Matches (KnownBits.computeForAddSub true false a b) ((x + y) % 2 ^ a.w) ∧
    Matches (KnownBits.computeForAddSub false false a b) ((2 ^ a.w + x - y) % 2 ^ a.w) ∧
    Matches (KnownBits.computeForMul a b) (x * y % 2 ^ a.w) ∧
    Matches (KnownBits.umin a b) (min x y) ∧
    Matches (KnownBits.umax a b) (max x y) ∧
    Matches (KnownBits.smin a b) (sminNat a.w x y) ∧
    Matches (KnownBits.smax a b) (smaxNat a.w x y) ∧
    Matches (KnownBits.shl a b) ((x <<< y) % 2 ^ a.w) ∧
    Matches (KnownBits.lshr a b) (x >>> y) ∧
    Matches (KnownBits.ashr a b) (ashrNat a.w x y) :=
  ⟨and_matches hw hx hy, or_matches hw hx hy, xor_matches hw hx hy,
   computeForAddSub_add_matches hw hca hcb hwa hwb hx hy,
   computeForAddSub_sub_matches hw hca hcb hwa hwb hx hy,
   computeForMul_matches hw hca hcb hwa hwb hx hy,
   umin_matches hw hwa hwb hx hy, umax_matches hw hwa hwb hx hy,
   smin_matches hw hw0 hwa hwb hx hy, smax_matches hw hw0 hwa hwb hx hy,
   shl_matches hw hca hcb hwa hwb hx hy, lshr_matches hw hca hcb hwa hwb hx hy,
   ashr_matches hw hca hcb hwa hwb hx hy⟩

/-- Witness for C1 at width 8, `a` the constant 12, `b` with known low bits 1110,
`x = 12`, `y = 14`. -/
theorem C1_knownBits_algebra_soundness_witness :
    Matches (KnownBits.computeForAddSub false false ⟨8, 243, 12⟩ ⟨8, 1, 14⟩)
      ((2 ^ 8 + 12 - 14) % 2 ^ 8) ∧
    Matches (KnownBits.computeForMul ⟨8, 243, 12⟩ ⟨8, 1, 14⟩) (12 * 14 % 2 ^ 8) ∧
    Matches (KnownBits.smax ⟨8, 243, 12⟩ ⟨8, 1, 14⟩) (smaxNat 8 12 14) := by
  have h := C1_knownBits_algebra_soundness ⟨8, 243, 12⟩ ⟨8, 1, 14⟩ rfl (by decide)
    (by decide) (by decide) (by decide) (by decide) 12 14 (by decide) (by decide)
  obtain ⟨h1, h2, h3, h4, h5, h6, h7, h8, h9, h10, h11, h12, h13⟩ := h
  exact ⟨h5, h6, h10⟩

/-- C4 counterexample: the abstract AND of the fully-known 8-bit constant 12
with the fully-unknown KnownBits is not the fully-known constant 12; the
one-bits of 12 become unknown. -/
theorem C4_and_unknown_counterexample :
    KnownBits.and ⟨8, 243, 12⟩ ⟨8, 0, 0⟩ = ⟨8, 243, 0⟩ ∧
    KnownBits.and ⟨8, 243, 12⟩ ⟨8, 0, 0⟩ ≠ ⟨8, 243, 12⟩ := by
  constructor <;> decide

/-- C4 amended: the KnownBits AND of the fully-known 8-bit constant 12 with the
fully-unknown KnownBits has known zeros exactly at the zero bits of 12
(`zero = 243 = ~12`) and no known ones. -/
theorem C4_and_unknown_amended :
    KnownBits.and ⟨8, 243, 12⟩ ⟨8, 0, 0⟩ = ⟨8, 243, 0⟩ := by
  decide

/-- C8: multiplying width-8 KnownBits with known low nibbles 1100 and 1110
yields trailing 3 known-zero bits, then known bits 01 (bit 3 one, bit 4 zero),
unknown upper 3 bits; the leading-zero estimate contributes nothing. -/
theorem C8_mul_scenario :
    KnownBits.computeForMul ⟨8, 3, 12⟩ ⟨8, 1, 14⟩ = ⟨8, 23, 8⟩ ∧
    KnownBits.mulLeadZ ⟨8, 3, 12⟩ ⟨8, 1, 14⟩ = 0 := by
  constructor <;> decide

/-- C7 counterexample: subtraction with NSW of two known non-negative 2-bit
operands: the carry result has an unknown sign bit, both operands as passed are
known non-negative, yet the result's sign bit is not forced to known zero. -/
theorem C7_nsw_counterexample :
    KnownBits.computeForAddSub false false ⟨2, 2, 0⟩ ⟨2, 2, 0⟩ = ⟨2, 0, 0⟩ ∧
    (⟨2, 2, 0⟩ : KnownBits).isNonNegative = true ∧
    KnownBits.computeForAddSub false true ⟨2, 2, 0⟩ ⟨2, 2, 0⟩ = ⟨2, 0, 0⟩ ∧
    (KnownBits.computeForAddSub false true ⟨2, 2, 0⟩ ⟨2, 2, 0⟩).isNonNegative = false := by
  refine ⟨?_, ?_, ?_, ?_⟩ <;> decide

theorem makeNonNegative_isNonNegative (k : KnownBits) :
    k.makeNonNegative.isNonNegative = true := by
  show (k.zero ||| 2 ^ (k.w - 1)).testBit (k.w - 1) = true
  rw [Nat.testBit_lor, Nat.testBit_two_pow_self]
  simp

theorem makeNegative_isNegative (k : KnownBits) :
    k.makeNegative.isNegative = true := by
  show (k.one ||| 2 ^ (k.w - 1)).testBit (k.w - 1) = true
  rw [Nat.testBit_lor, Nat.testBit_two_pow_self]
  simp

theorem notBothSigns {a : KnownBits} (hca : NoConflict a) :
    ¬(a.isNonNegative = true ∧ a.isNegative = true) := by
  rintro ⟨h1, h2⟩
  unfold KnownBits.isNonNegative at h1
  unfold KnownBits.isNegative at h2
  rcases noConflict_testBit hca (a.w - 1) with h | h
  · rw [h1] at h; cases h
  · rw [h2] at h; cases h

/-- C7 amended: with NSW set and the carry result's sign unknown, the sign is
resolved from `lhs` and, for subtraction, the mask-swapped `rhs`: for add, both
operands known non-negative force a known-zero sign and both known negative a
known-one sign; for sub the conditions on `rhs` are sign-swapped (`lhs` ≥ 0 and
`rhs` < 0 force non-negative, `lhs` < 0 and `rhs` ≥ 0 force negative); any
other combination leaves the result exactly the carry result. -/
theorem C7_nsw_sign_resolution_amended (a b : KnownBits) (add : Bool)
    (hca : NoConflict a) (hcb : NoConflict b)
    (h1 : (KnownBits.computeForAddSub add false a b).isNegative = false)
    (h2 : (KnownBits.computeForAddSub add false a b).isNonNegative = false) :
    ((a.isNonNegative = true ∧ (if add then b.isNonNegative else b.isNegative) = true) →
      (KnownBits.computeForAddSub add true a b).isNonNegative = true) ∧
    ((a.isNegative = true ∧ (if add then b.isNegative else b.isNonNegative) = true) →
      (KnownBits.computeForAddSub add true a b).isNegative = true) ∧
    (¬(a.isNonNegative = true ∧ (if add then b.isNonNegative else b.isNegative) = true) →
     ¬(a.isNegative = true ∧ (if add then b.isNegative else b.isNonNegative) = true) →
      KnownBits.computeForAddSub add true a b = KnownBits.computeForAddSub add false a b) := by
  have hac := notBothSigns hca
  have hbc := notBothSigns hcb
  rw [computeForAddSub_false_eq] at h1 h2
  cases add
  · simp only [Bool.false_eq_true, if_false] at h1 h2 ⊢
    unfold KnownBits.computeForAddSub
    have hflip : (⟨b.w, b.one, b.zero⟩ : KnownBits).isNonNegative = b.isNegative := rfl
    have hflip2 : (⟨b.w, b.one, b.zero⟩ : KnownBits).isNegative = b.isNonNegative := rfl
    simp only [Bool.false_eq_true, if_false, h1, h2, Bool.not_false, Bool.and_self, if_true,
      hflip, hflip2]
    rcases hA : a.isNonNegative <;> rcases hB : b.isNegative <;>
      rcases hC : a.isNegative <;> rcases hD : b.isNonNegative <;>
      simp [hA, hB, hC, hD, makeNonNegative_isNonNegative, makeNegative_isNegative] <;>
      first
        | exact absurd ⟨hA, hC⟩ hac
        | exact absurd ⟨hB, hD⟩ hbc
        | rfl
  · simp only [if_true] at h1 h2 ⊢
    unfold KnownBits.computeForAddSub
    simp only [if_true, h1, h2, Bool.not_false, Bool.and_self]
    rcases hA : a.isNonNegative <;> rcases hB : b.isNonNegative <;>
      rcases hC : a.isNegative <;> rcases hD : b.isNegative <;>
      simp [hA, hB, hC, hD, makeNonNegative_isNonNegative, makeNegative_isNegative] <;>
      first
        | exact absurd ⟨hA, hC⟩ hac
        | exact absurd ⟨hD, hB⟩ hbc
        | rfl

/-- C2: scenario S6, a 2-node phi cycle with the constant 42: the top-level
query on either register terminates (any call-stack budget of 3 or more
suffices; the provisional cache entry cuts the cycle) and returns the
fully-unknown KnownBits. -/
theorem C2_phi_cycle_terminates_unknown (n : Nat) :
    AS6.getKnownBits (n + 3) 1 1 0 = some (KnownBits.unknown 8) ∧
    AS6.getKnownBits (n + 3) 2 1 0 = some (KnownBits.unknown 8) :=
  ⟨rfl, rfl⟩

/-- C6 counterexample: `computeKnownBitsImpl` checks the cache before the depth
cutoff. Register 5 has a valid scalar type and is queried at depth 2 with
`maxDepth = 2`, yet with a cache entry present the entry (not fully-unknown) is
returned. -/
theorem C6_cache_before_depth_counterexample :
    computeKnownBitsImpl AC6 1 5 1 2 [(5, ⟨8, 250, 5⟩)] =
      some (⟨8, 250, 5⟩, [(5, ⟨8, 250, 5⟩)]) ∧
    (⟨8, 250, 5⟩ : KnownBits) ≠ KnownBits.unknown 8 ∧
    AC6.maxDepth ≤ 2 ∧ (AC6.mf.regType 5).isValid = true ∧
    (AC6.mf.regType 5).isVector = false := by
  refine ⟨rfl, by decide, by decide, by decide, by decide⟩

/-- C6 amended: the base cases run in the order invalid-type, cache, vector,
depth, demanded-elements; a cached entry is returned even at `depth ≥ maxDepth`,
and fully-unknown is returned at `depth ≥ maxDepth` only when the cache has no
entry for the register (valid scalar type assumed). -/
theorem C6_depth_cutoff_amended (A : GISelKnownBits) (fuel r demandedElts depth : Nat)
    (cache : Cache) (hvalid : (A.mf.regType r).isValid = true)
    (hvec : (A.mf.regType r).isVector = false)
    (hcache : Cache.find cache r = none) (hdepth : A.maxDepth ≤ depth) :
    computeKnownBitsImpl A (fuel + 1) r demandedElts depth cache =
      some (KnownBits.unknown (A.mf.regType r).getSizeInBits, cache) := by
  unfold computeKnownBitsImpl
  simp only [hvalid, Bool.not_true, Bool.false_eq_true, if_false, hcache, hvec,
    if_pos hdepth]

/-- Witness for the amended C6 at a concrete query with an empty cache. -/
theorem C6_depth_cutoff_amended_witness :
    computeKnownBitsImpl AC6 1 5 1 2 [] = some (KnownBits.unknown 8, []) :=
  C6_depth_cutoff_amended AC6 0 5 1 2 [] (by decide) (by decide) rfl (by decide)

/-- If any operand of the phi loop fails the virtual/subregister/valid-type
guard, the loop result is fully-unknown. -/
theorem phiLoop_bad_unknown (mf : MachineFunction)
    (recurse : Nat → Nat → Cache → Option (KnownBits × Cache))
    (bitWidth depthStep depth : Nat) :
    ∀ (ops : List MOp) (known : KnownBits) (cache : Cache) (res : KnownBits × Cache),
      known.w = bitWidth →
      (∃ op ∈ ops, ¬(op.isVirtualReg = true ∧ op.getSubReg = 0 ∧
        (mf.regType op.getReg).isValid = true)) →
      phiLoop mf recurse bitWidth depthStep depth ops known cache = some res →
      res.1 = KnownBits.unknown bitWidth := by
  intro ops
  induction ops with
  | nil =>
    rintro known cache res _ ⟨op, hmem, _⟩ _
    cases hmem
  | cons op rest ih =>
    rintro known cache res hkw ⟨bad, hmem, hbad⟩ hres
    rw [phiLoop] at hres
    split at hres
    · rename_i hguard
      simp only [Bool.and_eq_true, beq_iff_eq] at hguard
      rw [List.mem_cons] at hmem
      rcases hmem with hmem | hmem
      · subst hmem
        exact absurd ⟨hguard.1.1, hguard.1.2, hguard.2⟩ hbad
      · rcases hrec : recurse op.getReg (depth + depthStep) cache with _ | ⟨known2, cache1⟩
        · rw [hrec] at hres; cases hres
        · rw [hrec] at hres
          dsimp only at hres
          split at hres
          · rename_i hstop
            simp only [Bool.and_eq_true, beq_iff_eq] at hstop
            have hres1 : res =
                (⟨known.w, known.zero &&& known2.zero, known.one &&& known2.one⟩, cache1) := by
              cases hres; rfl
            rw [hres1]
            show (⟨known.w, known.zero &&& known2.zero, known.one &&& known2.one⟩ : KnownBits) =
              KnownBits.unknown bitWidth
            rw [KnownBits.unknown, ← hkw, hstop.1, hstop.2]
          · exact ih ⟨known.w, known.zero &&& known2.zero, known.one &&& known2.one⟩
              cache1 res hkw ⟨bad, hmem, hbad⟩ hres
    · rename_i hguard
      have hres1 : res = (KnownBits.unknown bitWidth, cache) := by cases hres; rfl
      rw [hres1]

/-- C10: in the COPY/G_PHI/PHI dispatch of the known-bits impl, any source
operand that is not a virtual register (or carries a subregister index, or has
an invalid type) forces the result to fully-unknown: whenever the query reaches
the dispatch (valid scalar type, cache miss, below the depth cap, nonzero
demanded elements) and some phi source operand fails the guard, the returned
KnownBits is `unknown bitWidth`. -/
theorem C10_phi_nonvirtual_forces_unknown (A : GISelKnownBits)
    (fuel r demandedElts depth : Nat) (cache : Cache) (k : KnownBits) (cache2 : Cache)
    (hop : (A.mf.vregDef r).opcode = Opcode.COPY ∨ (A.mf.vregDef r).opcode = Opcode.G_PHI ∨
      (A.mf.vregDef r).opcode = Opcode.PHI)
    (hvalid : (A.mf.regType r).isValid = true)
    (hvec : (A.mf.regType r).isVector = false)
    (hcache : Cache.find cache r = none)
    (hdepth : depth < A.maxDepth)
    (hde : demandedElts ≠ 0)
    (hbad : ∃ op ∈ everyOther ((A.mf.vregDef r).operands.drop 1),
      ¬(op.isVirtualReg = true ∧ op.getSubReg = 0 ∧ (A.mf.regType op.getReg).isValid = true))
    (hres : computeKnownBitsImpl A fuel r demandedElts depth cache = some (k, cache2)) :
    k = KnownBits.unknown (A.mf.regType r).getSizeInBits := by
  cases fuel with
  | zero => cases hres
  | succ fuel =>
    unfold computeKnownBitsImpl at hres
    dsimp only at hres
    have hdepth' : ¬ A.maxDepth ≤ depth := by omega
    have hde' : (demandedElts == 0) = false := by simpa using hde
    simp only [hvalid, Bool.not_true, Bool.false_eq_true, if_false, hcache, hvec,
      if_neg hdepth', hde'] at hres
    rcases hop with hop | hop | hop <;> rw [hop] at hres <;> dsimp only at hres <;>
    · split at hres
      · cases hres
      · rename_i known cacheA writeCache heq
        rw [withWrite, Option.map_eq_some'] at heq
        obtain ⟨p, hphi, hpe⟩ := heq
        have hk0 := phiLoop_bad_unknown _ _ _ _ _ _ _ _ _ (by rfl) hbad hphi
        have hkk : k = known := by cases hres; rfl
        have hkp : known = p.1 := by cases hpe; rfl
        rw [hkk, hkp, hk0]

/-- Witness for C10 at the concrete analyzer AC10, where register 1 is a phi
whose second source operand is a physical register. -/
theorem C10_phi_nonvirtual_forces_unknown_witness :
    KnownBits.unknown 8 = KnownBits.unknown (AC10.mf.regType 1).getSizeInBits :=
  C10_phi_nonvirtual_forces_unknown AC10 3 1 1 0 [] (KnownBits.unknown 8)
    [(1, KnownBits.unknown 8), (3, ⟨8, 213, 42⟩), (1, KnownBits.unknown 8)]
    (Or.inr (Or.inl rfl)) (by decide) (by decide) rfl (by decide) (by decide)
    ⟨MOp.register 2 0 false, by decide, by decide⟩ rfl

/-- Witness for the amended C7: subtraction with NSW, `lhs` known non-negative
and `rhs` known negative, carry-result sign unknown; the resolved sign is
known-zero. -/
theorem C7_nsw_sign_resolution_amended_witness :
    (KnownBits.computeForAddSub false true ⟨2, 2, 0⟩ ⟨2, 0, 2⟩).isNonNegative = true :=
  (C7_nsw_sign_resolution_amended ⟨2, 2, 0⟩ ⟨2, 0, 2⟩ false (by decide) (by decide)
    (by decide) (by decide)).1 ⟨by decide, by decide⟩

/-- C5 counterexample: a sign-extending load of 4 bits into width 8 returns
early with 8 - 4 + 1 = 5 sign bits and skips the known-bits combine, even
though the known-bits query (here answered by the target oracle) knows the
value is negative with six leading ones. -/
theorem C5_sign_bit_combine_counterexample :
    AC5.computeNumSignBits 2 1 1 0 = some 5 ∧
    AC5.getKnownBits 1 1 1 0 = some ⟨8, 0, 252⟩ ∧
    (⟨8, 0, 252⟩ : KnownBits).isNegative = true ∧
    (AC5.mf.vregDef 1).opcode = Opcode.G_SEXTLOAD ∧
    ¬ countLeadingOnes 8 ((252 <<< (8 - (AC5.mf.regType 1).getScalarSizeInBits)) % 2 ^ 8) ≤ 5 :=
  ⟨rfl, rfl, by decide, rfl, by decide⟩

/-- C5 amended: only the fall-through dispatch branch combines with the
known-bits query — either an opcode outside the handled
copy/sext/sext-in-register/extending-load/trunc/select set, or a truncation
whose source sign-bit count is insufficient (not exceeding the dropped width),
which falls through with a first answer of 1; on that branch the returned
count is at least countLeadingOnes of the shifted known-sign mask. -/
theorem C5_sign_bit_combine_amended (A : GISelKnownBits) (fuel r demandedElts depth n : Nat)
    (known : KnownBits)
    (hop : (∀ oc ∈ [Opcode.G_CONSTANT, Opcode.COPY, Opcode.G_SEXT, Opcode.G_SEXT_INREG,
        Opcode.G_SEXTLOAD, Opcode.G_ZEXTLOAD, Opcode.G_TRUNC, Opcode.G_SELECT],
        (A.mf.vregDef r).opcode ≠ oc) ∨
      ((A.mf.vregDef r).opcode = Opcode.G_TRUNC ∧
        ∃ m, A.computeNumSignBits fuel ((A.mf.vregDef r).getOperand 1).getReg demandedElts
            (depth + 1) = some m ∧
          ¬ (A.mf.regType ((A.mf.vregDef r).getOperand 1).getReg).getScalarSizeInBits -
              (A.mf.regType r).getScalarSizeInBits < m))
    (hdepth : depth ≠ A.maxDepth) (hde : demandedElts ≠ 0)
    (hvalid : (A.mf.regType r).isValid = true)
    (hres : A.computeNumSignBits (fuel + 1) r demandedElts depth = some n)
    (hkb : A.getKnownBits fuel r demandedElts depth = some known) :
    (known.isNonNegative = true →
      countLeadingOnes known.w
        ((known.zero <<< (known.w - (A.mf.regType r).getScalarSizeInBits)) % 2 ^ known.w) ≤ n) ∧
    (known.isNonNegative = false → known.isNegative = true →
      countLeadingOnes known.w
        ((known.one <<< (known.w - (A.mf.regType r).getScalarSizeInBits)) % 2 ^ known.w) ≤ n) := by
  unfold GISelKnownBits.computeNumSignBits at hres
  dsimp only at hres
  have h1 : ((A.mf.vregDef r).opcode == Opcode.G_CONSTANT) = false := by
    simp only [beq_eq_false_iff_ne]
    rcases hop with hop | ⟨hoct, _⟩
    · exact hop _ (by simp)
    · rw [hoct]
      exact fun hcc => Opcode.noConfusion hcc
  have h2 : (depth == A.maxDepth) = false := by
    simp only [beq_eq_false_iff_ne]
    exact hdepth
  have h3 : (demandedElts == 0) = false := by
    simp only [beq_eq_false_iff_ne]
    exact hde
  simp only [h1, h2, h3, hvalid, Bool.not_true, Bool.false_eq_true, if_false] at hres
  rcases hop with hop | ⟨hoct, m, hm, hnb⟩
  · revert hres
    cases hoc : (A.mf.vregDef r).opcode <;> intro hres
    case COPY => exact absurd hoc (hop _ (by simp))
    case G_CONSTANT => exact absurd hoc (hop _ (by simp))
    case G_SEXT => exact absurd hoc (hop _ (by simp))
    case G_SEXT_INREG => exact absurd hoc (hop _ (by simp))
    case G_SEXTLOAD => exact absurd hoc (hop _ (by simp))
    case G_ZEXTLOAD => exact absurd hoc (hop _ (by simp))
    case G_TRUNC => exact absurd hoc (hop _ (by simp))
    case G_SELECT => exact absurd hoc (hop _ (by simp))
    all_goals
      (split at hres
       · exact Option.noConfusion hres
       · rename_i n' heq
         exact Sum.noConfusion (Option.some.inj heq)
       · rename_i firstAnswer heq
         rw [hkb] at hres
         split at hres
         · rename_i heq2
           exact Option.noConfusion heq2
         · rename_i known2 heq2
           cases Option.some.inj heq2
           refine ⟨fun hnn => ?_, fun hnn hneg => ?_⟩
           · rw [if_pos hnn] at hres
             cases hres
             exact le_max_right _ _
           · rw [if_neg (by simp [hnn]), if_pos hneg] at hres
             cases hres
             exact le_max_right _ _)
  · rw [hoct, hm] at hres
    split at hres
    · rename_i heq
      have heq2 :
          (if (A.mf.regType ((A.mf.vregDef r).getOperand 1).getReg).getScalarSizeInBits -
              (A.mf.regType r).getScalarSizeInBits < m then
            some (Sum.inl (m -
              ((A.mf.regType ((A.mf.vregDef r).getOperand 1).getReg).getScalarSizeInBits -
                (A.mf.regType r).getScalarSizeInBits)))
          else some (Sum.inr 1)) = (none : Option (Nat ⊕ Nat)) := heq
      rw [if_neg hnb] at heq2
      exact Option.noConfusion heq2
    · rename_i n' heq
      have heq2 :
          (if (A.mf.regType ((A.mf.vregDef r).getOperand 1).getReg).getScalarSizeInBits -
              (A.mf.regType r).getScalarSizeInBits < m then
            some (Sum.inl (m -
              ((A.mf.regType ((A.mf.vregDef r).getOperand 1).getReg).getScalarSizeInBits -
                (A.mf.regType r).getScalarSizeInBits)))
          else some (Sum.inr 1)) = some (Sum.inl n') := heq
      rw [if_neg hnb] at heq2
      exact Sum.noConfusion (Option.some.inj heq2)
    · rename_i firstAnswer heq
      rw [hkb] at hres
      split at hres
      · rename_i heq2
        exact Option.noConfusion heq2
      · rename_i known2 heq2
        cases Option.some.inj heq2
        refine ⟨fun hnn => ?_, fun hnn hneg => ?_⟩
        · rw [if_pos hnn] at hres
          cases hres
          exact le_max_right _ _
        · rw [if_neg (by simp [hnn]), if_pos hneg] at hres
          cases hres
          exact le_max_right _ _

/-- Witness for the amended C5 at the concrete analyzer AC5c, exercising the
truncation fall-through: register 6 truncates the 16-bit register 7, whose 4
sign bits do not exceed the 12 dropped bits, so the query falls through with
first answer 1 and combines with the known bits (negative, one leading one);
the returned count 1 is at least countLeadingOnes of the shifted mask. -/
theorem C5_sign_bit_combine_amended_witness :
    countLeadingOnes 4 ((8 <<< (4 - (AC5c.mf.regType 6).getScalarSizeInBits)) % 2 ^ 4) ≤ 1 :=
  (C5_sign_bit_combine_amended AC5c 2 6 1 0 1 ⟨4, 0, 8⟩
    (Or.inr ⟨rfl, 4, rfl, by decide⟩) (by decide) (by decide) (by decide) rfl rfl).2
    (by decide) (by decide)

/-- `apNumSignBits` (the `APInt::getNumSignBits` model) is at least 1 for any
positive width. -/
theorem apNumSignBits_pos (w x : Nat) (hw : 1 ≤ w) : 1 ≤ apNumSignBits w x := by
  obtain ⟨n, rfl⟩ : ∃ n, w = n + 1 := ⟨w - 1, by omega⟩
  have hn : n + 1 - 1 = n := rfl
  rcases h : x.testBit n with _ | _ <;>
    simp [apNumSignBits, countLeadingOnes, countLeadingZeros, hn, h]

/-- C9: the sign-bit query returns at least 1 for every register, depth and
demanded-elements mask, provided the MIR is well-formed in that every
zero-extending load loads strictly fewer bits than its destination's scalar
width and every constant has positive scalar width (C++ `unsigned`
subtraction makes `w - m = 0` possible otherwise). -/
theorem C9_numSignBits_ge_one (A : GISelKnownBits)
    (hzl : ∀ s, (A.mf.vregDef s).opcode = Opcode.G_ZEXTLOAD →
      (A.mf.vregDef s).memSizeInBits < (A.mf.regType s).getScalarSizeInBits)
    (hc : ∀ s, (A.mf.vregDef s).opcode = Opcode.G_CONSTANT →
      1 ≤ (A.mf.regType s).getScalarSizeInBits)
    (fuel r demandedElts depth n : Nat)
    (hres : A.computeNumSignBits fuel r demandedElts depth = some n) :
    1 ≤ n := by
  induction fuel generalizing r depth n with
  | zero => cases hres
  | succ fuel ih =>
    unfold GISelKnownBits.computeNumSignBits at hres
    dsimp only at hres
    split at hres
    · rename_i hcon
      cases hres
      exact apNumSignBits_pos _ _ (hc r (beq_iff_eq.mp hcon))
    · split at hres
      · cases hres; omega
      · split at hres
        · cases hres; omega
        · split at hres
          · cases hres; omega
          · split at hres
            · exact Option.noConfusion hres
            · rename_i n' heq
              cases hres
              split at heq
              · split at heq
                · rw [Option.map_eq_some'] at heq
                  obtain ⟨m, hm, hinj⟩ := heq
                  cases Sum.inl.inj hinj
                  exact ih _ _ _ hm
                · have := Sum.inl.inj (Option.some.inj heq)
                  omega
              · rw [Option.map_eq_some'] at heq
                obtain ⟨m, hm, hinj⟩ := heq
                cases Sum.inl.inj hinj
                have := ih _ _ _ hm
                omega
              · rw [Option.map_eq_some'] at heq
                obtain ⟨m, hm, hinj⟩ := heq
                cases Sum.inl.inj hinj
                exact le_trans (ih _ _ _ hm) (le_max_left _ _)
              · split at heq <;>
                · have := Sum.inl.inj (Option.some.inj heq)
                  omega
              · rename_i hoc2
                split at heq
                · have := Sum.inl.inj (Option.some.inj heq)
                  omega
                · have h1 := Sum.inl.inj (Option.some.inj heq)
                  have h2 := hzl r hoc2
                  omega
              · split at heq
                · exact Option.noConfusion heq
                · rename_i m hm
                  split at heq
                  · rename_i hcond
                    have := Sum.inl.inj (Option.some.inj heq)
                    omega
                  · exact Sum.noConfusion (Option.some.inj heq)
              · split at heq
                · exact Option.noConfusion heq
                · rename_i s1 hs1
                  split at heq
                  · have := Sum.inl.inj (Option.some.inj heq)
                    omega
                  · rw [Option.map_eq_some'] at heq
                    obtain ⟨s0, h0, hinj⟩ := heq
                    cases Sum.inl.inj hinj
                    exact le_min (ih _ _ _ h0) (ih _ _ _ hs1)
              · exact Sum.noConfusion (Option.some.inj heq)
            · rename_i f heq
              have hf : 1 ≤ f := by
                split at heq
                · split at heq
                  · rw [Option.map_eq_some'] at heq
                    obtain ⟨m, hm, hinj⟩ := heq
                    exact Sum.noConfusion hinj
                  · exact Sum.noConfusion (Option.some.inj heq)
                · rw [Option.map_eq_some'] at heq
                  obtain ⟨m, hm, hinj⟩ := heq
                  exact Sum.noConfusion hinj
                · rw [Option.map_eq_some'] at heq
                  obtain ⟨m, hm, hinj⟩ := heq
                  exact Sum.noConfusion hinj
                · split at heq <;> exact Sum.noConfusion (Option.some.inj heq)
                · split at heq <;> exact Sum.noConfusion (Option.some.inj heq)
                · split at heq
                  · exact Option.noConfusion heq
                  · rename_i m hm
                    split at heq
                    · exact Sum.noConfusion (Option.some.inj heq)
                    · have := Sum.inr.inj (Option.some.inj heq)
                      omega
                · split at heq
                  · exact Option.noConfusion heq
                  · rename_i s1 hs1
                    split at heq
                    · exact Sum.noConfusion (Option.some.inj heq)
                    · rw [Option.map_eq_some'] at heq
                      obtain ⟨s0, h0, hinj⟩ := heq
                      exact Sum.noConfusion hinj
                · cases Sum.inr.inj (Option.some.inj heq)
                  split
                  · exact le_max_left _ _
                  · exact le_refl 1
              split at hres
              · exact Option.noConfusion hres
              · rename_i known hkn
                split at hres
                · cases hres
                  exact le_trans hf (le_max_left _ _)
                · split at hres
                  · cases hres
                    exact le_trans hf (le_max_left _ _)
                  · cases hres
                    exact hf

/-- Witness for C9: the constant-5 analyzer answers 5 sign bits for width-8
register 5 (leading zeros of 00000101). -/
theorem C9_numSignBits_ge_one_witness : 1 ≤ 5 :=
  C9_numSignBits_ge_one AC6
    (by
      intro s hs
      by_cases h : s = 5 <;> simp [AC6, mfC6, h] at hs)
    (by
      intro s hs
      by_cases h : s = 5 <;>
        simp [AC6, mfC6, h, LLT.getScalarSizeInBits, LLT.scalar] at hs ⊢)
    1 5 1 0 5 rfl

theorem land_le_left (x y : Nat) : x &&& y ≤ x := by
  apply le_of_testBit_subset
  intro i hi
  rw [Nat.testBit_land] at hi
  exact (Bool.and_eq_true_iff.mp hi).1

theorem land_lt_left {x : Nat} (y : Nat) {n : Nat} (hx : x < 2 ^ n) : x &&& y < 2 ^ n :=
  lt_of_le_of_lt (land_le_left x y) hx

theorem hasConflict_eq_false {k : KnownBits} (h : NoConflict k) : k.hasConflict = false := by
  unfold KnownBits.hasConflict
  unfold NoConflict at h
  simp [h]

theorem and_noConflict {a b : KnownBits} (hca : NoConflict a) (hcb : NoConflict b) :
    NoConflict (KnownBits.and a b) := by
  unfold KnownBits.and NoConflict
  apply eq_zero_of_testBit_false
  intro i
  simp only [Nat.testBit_land, Nat.testBit_lor]
  rcases noConflict_testBit hca i with h | h <;> rcases noConflict_testBit hcb i with h2 | h2 <;>
    simp [h, h2]

theorem or_noConflict {a b : KnownBits} (hca : NoConflict a) (hcb : NoConflict b) :
    NoConflict (KnownBits.or a b) := by
  unfold KnownBits.or NoConflict
  apply eq_zero_of_testBit_false
  intro i
  simp only [Nat.testBit_land, Nat.testBit_lor]
  rcases noConflict_testBit hca i with h | h <;> rcases noConflict_testBit hcb i with h2 | h2 <;>
    simp [h, h2]

theorem xor_noConflict {a b : KnownBits} (hca : NoConflict a) (hcb : NoConflict b) :
    NoConflict (KnownBits.xor a b) := by
  unfold KnownBits.xor NoConflict
  apply eq_zero_of_testBit_false
  intro i
  simp only [Nat.testBit_land, Nat.testBit_lor]
  rcases noConflict_testBit hca i with h | h <;> rcases noConflict_testBit hcb i with h2 | h2 <;>
    simp [h, h2]

theorem makeNonNegative_noConflict {k : KnownBits} (hc : NoConflict k)
    (hneg : k.isNegative = false) : NoConflict k.makeNonNegative := by
  unfold KnownBits.makeNonNegative NoConflict
  apply eq_zero_of_testBit_false
  intro i
  rw [Nat.testBit_land, Nat.testBit_lor, Nat.testBit_two_pow]
  by_cases hi : k.w - 1 = i
  · subst hi
    unfold KnownBits.isNegative at hneg
    rw [hneg]
    simp
  · simp only [hi, decide_False, Bool.or_false]
    rcases noConflict_testBit hc i with h | h <;> simp [h]

theorem makeNegative_noConflict {k : KnownBits} (hc : NoConflict k)
    (hnn : k.isNonNegative = false) : NoConflict k.makeNegative := by
  unfold KnownBits.makeNegative NoConflict
  apply eq_zero_of_testBit_false
  intro i
  rw [Nat.testBit_land, Nat.testBit_lor, Nat.testBit_two_pow]
  by_cases hi : k.w - 1 = i
  · subst hi
    unfold KnownBits.isNonNegative at hnn
    rw [hnn]
    simp
  · simp only [hi, decide_False, Bool.or_false]
    rcases noConflict_testBit hc i with h | h <;> simp [h]

theorem flags_w (a rhs : KnownBits) (cz co : Bool) :
    (KnownBits.computeForAddCarryFlags a rhs cz co).w = a.w := rfl

theorem flags_wf (a rhs : KnownBits) (cz co : Bool) :
    WfKB (KnownBits.computeForAddCarryFlags a rhs cz co) := by
  unfold KnownBits.computeForAddCarryFlags WfKB
  dsimp only
  constructor
  · exact land_lt_left _ (notW_lt (Nat.mod_lt _ (Nat.two_pow_pos a.w)))
  · exact land_lt_left _ (Nat.mod_lt _ (Nat.two_pow_pos a.w))

theorem addSub_w (add nsw : Bool) (a b : KnownBits) :
    (KnownBits.computeForAddSub add nsw a b).w = a.w := by
  rcases add with _ | _ <;> rcases nsw with _ | _ <;>
    simp only [KnownBits.computeForAddSub, Bool.false_eq_true, if_false, if_true] <;>
    (repeat' split) <;> rfl

theorem addSub_false_wf (add : Bool) (a b : KnownBits) :
    WfKB (KnownBits.computeForAddSub add false a b) := by
  rw [computeForAddSub_false_eq]
  rcases add with _ | _ <;> simp only [Bool.false_eq_true, if_false, if_true] <;>
    exact flags_wf _ _ _ _

theorem makeNonNegative_wf {k : KnownBits} (hw0 : 0 < k.w) (hwk : WfKB k) :
    WfKB k.makeNonNegative := by
  unfold KnownBits.makeNonNegative WfKB
  dsimp only
  exact ⟨Nat.or_lt_two_pow hwk.1 (Nat.pow_lt_pow_right (by omega) (by omega)), hwk.2⟩

theorem makeNegative_wf {k : KnownBits} (hw0 : 0 < k.w) (hwk : WfKB k) :
    WfKB k.makeNegative := by
  unfold KnownBits.makeNegative WfKB
  dsimp only
  exact ⟨hwk.1, Nat.or_lt_two_pow hwk.2 (Nat.pow_lt_pow_right (by omega) (by omega))⟩

theorem addSub_noConflict (add nsw : Bool) {a b : KnownBits} (hw : b.w = a.w)
    (hca : NoConflict a) (hcb : NoConflict b) (hwa : WfKB a) (hwb : WfKB b) :
    NoConflict (KnownBits.computeForAddSub add nsw a b) := by
  have hfalse : NoConflict (KnownBits.computeForAddSub add false a b) := by
    rcases add with _ | _
    · exact noConflict_of_matches (computeForAddSub_sub_matches hw hca hcb hwa hwb
        (matches_one hca hwa) (matches_one hcb hwb))
    · exact noConflict_of_matches (computeForAddSub_add_matches hw hca hcb hwa hwb
        (matches_one hca hwa) (matches_one hcb hwb))
  rcases nsw with _ | _
  · exact hfalse
  · rw [computeForAddSub_false_eq] at hfalse
    rcases add with _ | _ <;>
      simp only [Bool.false_eq_true, if_false, if_true] at hfalse <;>
      (unfold KnownBits.computeForAddSub
       simp only [Bool.false_eq_true, if_false, if_true]
       split
       · rename_i hsign
         simp only [Bool.and_eq_true, Bool.not_eq_true'] at hsign
         split
         · exact makeNonNegative_noConflict hfalse hsign.1
         · split
           · exact makeNegative_noConflict hfalse hsign.2
           · exact hfalse
       · exact hfalse)

/-- The asserted invariant inside `computeForAddCarry` (`KnownBits.cpp` line 38):
`PossibleSumZero` and `PossibleSumOne` agree on every position of the known
mask. -/
theorem addCarry_invariant {a b : KnownBits} (hw : b.w = a.w) (hca : NoConflict a)
    (hcb : NoConflict b) (hwa : WfKB a) (hwb : WfKB b) (cz co : Bool)
    (hczo : ¬(cz = true ∧ co = true)) :
    KnownBits.possibleSumZero a b cz &&& KnownBits.addCarryKnownMask a b cz co =
      KnownBits.possibleSumOne a b co &&& KnownBits.addCarryKnownMask a b cz co := by
  apply Nat.eq_of_testBit_eq
  intro i
  simp only [Nat.testBit_land]
  rcases hk : (KnownBits.addCarryKnownMask a b cz co).testBit i with _ | _
  · simp
  · have hiw : i < a.w := by
      by_contra hge
      push_neg at hge
      rw [KnownBits.addCarryKnownMask] at hk
      simp only [Nat.testBit_land, Nat.testBit_lor, Bool.and_eq_true, Bool.or_eq_true] at hk
      obtain ⟨⟨hka, _⟩, _⟩ := hk
      rcases hka with h | h
      · rw [testBit_ge_false hwa.1 hge] at h; cases h
      · rw [testBit_ge_false hwa.2 hge] at h; cases h
    have hcore := addCarry_core hw hca hcb hwa hwb cz co (matches_one hca hwa)
      (matches_one hcb hwb) (c := if co then 1 else 0)
      (by split <;> omega)
      (fun hcz' => by
        rcases hco' : co with _ | _
        · simp
        · exact absurd ⟨hcz', hco'⟩ hczo)
      (fun hco' => by simp [hco'])
      hiw hk
    simp [hcore.2]

theorem testBit_mulPow_add {a b k : Nat} (hb : b < 2 ^ k) (j : Nat) :
    (a * 2 ^ k + b).testBit j = if j < k then b.testBit j else a.testBit (j - k) := by
  split
  · rename_i hj
    have h1 : (a * 2 ^ k + b) % 2 ^ (j + 1) = b % 2 ^ (j + 1) := by
      obtain ⟨c, hc⟩ : (2 : Nat) ^ (j + 1) ∣ 2 ^ k := Nat.pow_dvd_pow 2 (by omega)
      rw [hc, Nat.mul_left_comm]
      exact Nat.mul_add_mod _ _ _
    calc (a * 2 ^ k + b).testBit j
        = ((a * 2 ^ k + b) % 2 ^ (j + 1)).testBit j := by
          rw [Nat.testBit_mod_two_pow]
          simp [Nat.lt_succ_self]
      _ = (b % 2 ^ (j + 1)).testBit j := by rw [h1]
      _ = b.testBit j := by
          rw [Nat.testBit_mod_two_pow]
          simp [Nat.lt_succ_self]
  · rename_i hj
    push_neg at hj
    have hx : (a * 2 ^ k + b) >>> k = a := by
      rw [Nat.shiftRight_eq_div_pow, Nat.mul_comm, Nat.mul_add_div (Nat.two_pow_pos k)]
      simp [Nat.div_eq_of_lt hb]
    conv_lhs => rw [show j = k + (j - k) from by omega]
    rw [← Nat.testBit_shiftRight, hx]

theorem land_mulPow_add {a b c d k : Nat} (hb : b < 2 ^ k) (hd : d < 2 ^ k) :
    (a * 2 ^ k + b) &&& (c * 2 ^ k + d) = (a &&& c) * 2 ^ k + (b &&& d) := by
  apply Nat.eq_of_testBit_eq
  intro j
  rw [Nat.testBit_land, testBit_mulPow_add hb, testBit_mulPow_add hd,
    testBit_mulPow_add (land_lt_left d hb)]
  split <;> rw [Nat.testBit_land]

theorem land_mod_pow (x y k : Nat) : (x &&& y) % 2 ^ k = x % 2 ^ k &&& y % 2 ^ k := by
  apply Nat.eq_of_testBit_eq
  intro i
  rw [Nat.testBit_mod_two_pow, Nat.testBit_land, Nat.testBit_land,
    Nat.testBit_mod_two_pow, Nat.testBit_mod_two_pow]
  rcases h : decide (i < k) with _ | _ <;> simp [h]

theorem land_div_pow (x y k : Nat) : (x &&& y) / 2 ^ k = x / 2 ^ k &&& y / 2 ^ k := by
  have h : ∀ z : Nat, z / 2 ^ k = z >>> k := fun z => (Nat.shiftRight_eq_div_pow z k).symm
  rw [h, h, h]
  apply Nat.eq_of_testBit_eq
  intro i
  rw [Nat.testBit_shiftRight, Nat.testBit_land, Nat.testBit_land,
    Nat.testBit_shiftRight, Nat.testBit_shiftRight]

theorem byteSwapAux_lt (n x : Nat) : byteSwapAux n x < 256 ^ n := by
  induction n generalizing x with
  | zero => simp [byteSwapAux]
  | succ n ih =>
    have h1 := ih (x / 256)
    have h2 : x % 256 < 256 := Nat.mod_lt _ (by omega)
    have h3 : (256 : Nat) ^ (n + 1) = 256 * 256 ^ n := by rw [Nat.pow_succ, Nat.mul_comm]
    unfold byteSwapAux
    have h4 : x % 256 * 256 ^ n ≤ 255 * 256 ^ n := Nat.mul_le_mul_right _ (by omega)
    omega

theorem byteSwapAux_zero (n : Nat) : byteSwapAux n 0 = 0 := by
  induction n with
  | zero => rfl
  | succ n ih => unfold byteSwapAux; simp [ih]

theorem pow256_eq (n : Nat) : (256 : Nat) ^ n = 2 ^ (8 * n) := by
  rw [Nat.pow_mul]

theorem byteSwapAux_land (n x y : Nat) :
    byteSwapAux n x &&& byteSwapAux n y = byteSwapAux n (x &&& y) := by
  induction n generalizing x y with
  | zero => simp [byteSwapAux]
  | succ n ih =>
    show (x % 256 * 256 ^ n + byteSwapAux n (x / 256)) &&&
        (y % 256 * 256 ^ n + byteSwapAux n (y / 256)) =
      (x &&& y) % 256 * 256 ^ n + byteSwapAux n ((x &&& y) / 256)
    have hx := byteSwapAux_lt n (x / 256)
    have hy := byteSwapAux_lt n (y / 256)
    rw [pow256_eq] at hx hy ⊢
    rw [land_mulPow_add hx hy, ih]
    have h256 : (256 : Nat) = 2 ^ 8 := rfl
    rw [h256, land_mod_pow, land_div_pow]

theorem byteSwap_noConflict {a : KnownBits} (hca : NoConflict a) :
    NoConflict a.byteSwap := by
  unfold KnownBits.byteSwap NoConflict KnownBits.zero KnownBits.one
  unfold NoConflict at hca
  rw [byteSwapNat, byteSwapNat, byteSwapAux_land, hca, byteSwapAux_zero]

theorem byteSwapNat_lt {w x : Nat} : byteSwapNat w x < 2 ^ w := by
  have h1 := byteSwapAux_lt (w / 8) x
  rw [pow256_eq] at h1
  exact lt_of_lt_of_le h1 (Nat.pow_le_pow_right (by omega) (by omega))

theorem byteSwap_wf (a : KnownBits) : WfKB a.byteSwap :=
  ⟨byteSwapNat_lt, byteSwapNat_lt⟩

theorem reverseBitsAux_lt (n x : Nat) : reverseBitsAux n x < 2 ^ n := by
  induction n generalizing x with
  | zero => simp [reverseBitsAux]
  | succ n ih =>
    have h1 := ih (x / 2)
    have h2 : x % 2 < 2 := Nat.mod_lt _ (by omega)
    have h3 : (2 : Nat) ^ (n + 1) = 2 * 2 ^ n := by rw [Nat.pow_succ, Nat.mul_comm]
    unfold reverseBitsAux
    have h4 : x % 2 * 2 ^ n ≤ 1 * 2 ^ n := Nat.mul_le_mul_right _ (by omega)
    omega

theorem reverseBitsAux_zero (n : Nat) : reverseBitsAux n 0 = 0 := by
  induction n with
  | zero => rfl
  | succ n ih => unfold reverseBitsAux; simp [ih]

theorem reverseBitsAux_land (n x y : Nat) :
    reverseBitsAux n x &&& reverseBitsAux n y = reverseBitsAux n (x &&& y) := by
  induction n generalizing x y with
  | zero => simp [reverseBitsAux]
  | succ n ih =>
    show (x % 2 * 2 ^ n + reverseBitsAux n (x / 2)) &&&
        (y % 2 * 2 ^ n + reverseBitsAux n (y / 2)) =
      (x &&& y) % 2 * 2 ^ n + reverseBitsAux n ((x &&& y) / 2)
    rw [land_mulPow_add (reverseBitsAux_lt n (x / 2)) (reverseBitsAux_lt n (y / 2)), ih]
    have h2 : (2 : Nat) = 2 ^ 1 := rfl
    rw [h2, land_mod_pow, land_div_pow]

theorem reverseBits_noConflict {a : KnownBits} (hca : NoConflict a) :
    NoConflict a.reverseBits := by
  unfold KnownBits.reverseBits NoConflict KnownBits.zero KnownBits.one
  unfold NoConflict at hca
  rw [reverseBitsNat, reverseBitsNat, reverseBitsAux_land, hca, reverseBitsAux_zero]

theorem reverseBits_wf (a : KnownBits) : WfKB a.reverseBits :=
  ⟨reverseBitsAux_lt _ _, reverseBitsAux_lt _ _⟩

theorem extractBits_noConflict {a : KnownBits} (hca : NoConflict a) (n p : Nat) :
    NoConflict (a.extractBits n p) := by
  unfold KnownBits.extractBits NoConflict extractBitsNat
  apply eq_zero_of_testBit_false
  intro i
  simp only [Nat.testBit_land, Nat.testBit_mod_two_pow, Nat.testBit_shiftRight]
  rcases noConflict_testBit hca (p + i) with h | h <;> simp [h]

theorem extractBits_wf (a : KnownBits) (n p : Nat) : WfKB (a.extractBits n p) :=
  ⟨Nat.mod_lt _ (Nat.two_pow_pos n), Nat.mod_lt _ (Nat.two_pow_pos n)⟩

theorem shiftLeft_lt {x k : Nat} (hx : x < 2 ^ k) (p : Nat) : x <<< p < 2 ^ (k + p) := by
  rw [Nat.shiftLeft_eq, Nat.pow_add]
  exact Nat.mul_lt_mul_of_lt_of_le hx (Nat.le_refl _) (Nat.two_pow_pos p)

theorem insertBits_noConflict {a sub : KnownBits} (hca : NoConflict a)
    (hcs : NoConflict sub) (hwa : WfKB a) (hws : WfKB sub) (pos : Nat) :
    NoConflict (a.insertBits sub pos) := by
  unfold KnownBits.insertBits NoConflict insertBitsNat
  apply eq_zero_of_testBit_false
  intro i
  have hca' := noConflict_testBit hca i
  have hcs' := noConflict_testBit hcs (i - pos)
  simp only [Nat.testBit_land, Nat.testBit_lor, testBit_notW, Nat.testBit_shiftLeft,
    testBit_ones]
  rcases hd3 : decide (i < a.w) with _ | _
  · have hge : a.w ≤ i := by simpa using hd3
    rw [testBit_ge_false hwa.1 hge, testBit_ge_false hwa.2 hge]
    rcases hcs' with h | h <;> simp [h, hd3]
  · rcases hd1 : decide (pos ≤ i) with _ | _
    · rcases hca' with h | h <;> simp [h, hd1, hd3]
    · rcases hd2 : decide (i - pos < sub.w) with _ | _
      · have hge2 : sub.w ≤ i - pos := by simpa using hd2
        rw [testBit_ge_false hws.1 hge2, testBit_ge_false hws.2 hge2]
        rcases hca' with h | h <;> simp [h, hd1, hd2, hd3]
      · rcases hcs' with h | h <;> simp [h, hd1, hd2, hd3]

theorem insertBits_wf {a sub : KnownBits} (hwa : WfKB a) (hws : WfKB sub) {pos : Nat}
    (hpos : pos + sub.w ≤ a.w) : WfKB (a.insertBits sub pos) := by
  have hb : ∀ m : Nat, m < 2 ^ sub.w → m <<< pos < 2 ^ a.w := fun m hm =>
    lt_of_lt_of_le (shiftLeft_lt hm pos) (Nat.pow_le_pow_right (by omega) (by omega))
  exact ⟨Nat.or_lt_two_pow (land_lt_left _ hwa.1) (hb _ hws.1),
         Nat.or_lt_two_pow (land_lt_left _ hwa.2) (hb _ hws.2)⟩

theorem land_notW_self {w x : Nat} (hx : x < 2 ^ w) : notW w x &&& x = 0 := by
  apply eq_zero_of_testBit_false
  intro i
  rw [Nat.testBit_land, testBit_notW]
  rcases h : x.testBit i with _ | _
  · simp
  · have hiw : i < w := by
      by_contra hge
      rw [testBit_ge_false hx (by omega)] at h
      cases h
    simp [hiw, h]

theorem toUnsigned_lt (w : Nat) (v : Int) : toUnsigned w v < 2 ^ w := by
  unfold toUnsigned
  have hpos := Nat.two_pow_pos w
  generalize hn : (2 : Nat) ^ w = n at hpos ⊢
  have h1 : (0 : Int) < (n : Int) := by omega
  have h2 := Int.emod_lt_of_pos v h1
  have h3 : (0 : Int) ≤ v % (n : Int) := Int.emod_nonneg v (by omega)
  omega

theorem meet_noConflict {w z1 o1 : Nat} {b : KnownBits} (hcb : NoConflict b) :
    NoConflict (⟨w, z1 &&& b.zero, o1 &&& b.one⟩ : KnownBits) := by
  unfold NoConflict at hcb ⊢
  apply eq_zero_of_testBit_false
  intro i
  simp only [Nat.testBit_land]
  rcases noConflict_testBit hcb i with h | h <;> simp [h]

theorem meet_wf {w : Nat} {z1 o1 : Nat} (hz : z1 < 2 ^ w) (ho : o1 < 2 ^ w)
    (z2 o2 : Nat) : WfKB (⟨w, z1 &&& z2, o1 &&& o2⟩ : KnownBits) :=
  ⟨land_lt_left _ hz, land_lt_left _ ho⟩

theorem unknown_noConflict (w : Nat) : NoConflict (KnownBits.unknown w) := by
  unfold KnownBits.unknown NoConflict
  simp

theorem unknown_wf (w : Nat) : WfKB (KnownBits.unknown w) :=
  ⟨Nat.two_pow_pos w, Nat.two_pow_pos w⟩

theorem shlRes_noConflict {k : KnownBits} (hck : NoConflict k) (s : Nat) :
    NoConflict (⟨k.w, (k.zero <<< s) % 2 ^ k.w ||| ones s,
      (k.one <<< s) % 2 ^ k.w⟩ : KnownBits) := by
  unfold NoConflict
  apply eq_zero_of_testBit_false
  intro i
  simp only [Nat.testBit_land, Nat.testBit_lor, Nat.testBit_mod_two_pow,
    Nat.testBit_shiftLeft, testBit_ones]
  rcases hd : decide (s ≤ i) with _ | _
  · simp [hd]
  · have hs : s ≤ i := by simpa using hd
    have hlt : decide (i < s) = false := by
      simp
      omega
    rcases noConflict_testBit hck (i - s) with h | h <;> simp [h, hd, hlt]

theorem shlRes_wf {k : KnownBits} {s : Nat} (hs : s ≤ k.w) :
    WfKB (⟨k.w, (k.zero <<< s) % 2 ^ k.w ||| ones s,
      (k.one <<< s) % 2 ^ k.w⟩ : KnownBits) := by
  refine ⟨Nat.or_lt_two_pow (Nat.mod_lt _ (Nat.two_pow_pos _)) ?_,
    Nat.mod_lt _ (Nat.two_pow_pos _)⟩
  exact lt_of_lt_of_le (ones_lt s) (Nat.pow_le_pow_right (by omega) hs)

theorem lshrRes_noConflict {k : KnownBits} (hck : NoConflict k) (hwk : WfKB k) (s : Nat) :
    NoConflict (⟨k.w, (k.zero >>> s) ||| bitsFrom k.w (k.w - s),
      k.one >>> s⟩ : KnownBits) := by
  unfold NoConflict
  apply eq_zero_of_testBit_false
  intro i
  simp only [Nat.testBit_land, Nat.testBit_lor, Nat.testBit_shiftRight, testBit_bitsFrom]
  rcases noConflict_testBit hck (s + i) with h | h
  · rcases hd1 : decide (i < k.w) with _ | _
    · rcases hd2 : decide (i < k.w - s) with _ | _
      · simp [h, hd1, hd2]
      · have h1 : i < k.w - s := by simpa using hd2
        have h2 : ¬ i < k.w := by simpa using hd1
        omega
    · rcases hd2 : decide (i < k.w - s) with _ | _
      · have hge : k.w ≤ s + i := by
          have h1 : ¬ i < k.w - s := by simpa using hd2
          omega
        simp [h, hd1, hd2, testBit_ge_false hwk.2 hge]
      · simp [h, hd1, hd2]
  · simp [h]

theorem lshrRes_wf {k : KnownBits} (hwk : WfKB k) (s : Nat) :
    WfKB (⟨k.w, (k.zero >>> s) ||| bitsFrom k.w (k.w - s), k.one >>> s⟩ : KnownBits) := by
  have hsr : ∀ m : Nat, m < 2 ^ k.w → m >>> s < 2 ^ k.w := fun m hm => by
    rw [Nat.shiftRight_eq_div_pow]
    exact lt_of_le_of_lt (Nat.div_le_self _ _) hm
  exact ⟨Nat.or_lt_two_pow (hsr _ hwk.1) (bitsFrom_lt (by omega)), hsr _ hwk.2⟩

theorem ashrRes_noConflict {k : KnownBits} (hck : NoConflict k) (hwk : WfKB k) (s : Nat) :
    NoConflict (⟨k.w, ashrNat k.w k.zero s, ashrNat k.w k.one s⟩ : KnownBits) := by
  unfold NoConflict
  apply eq_zero_of_testBit_false
  intro i
  simp only [Nat.testBit_land]
  rw [testBit_ashrNat hwk.1, testBit_ashrNat hwk.2]
  rcases noConflict_testBit hck (min (i + s) (k.w - 1)) with h | h <;> simp [h]

theorem ashrRes_wf {k : KnownBits} (hwk : WfKB k) (s : Nat) :
    WfKB (⟨k.w, ashrNat k.w k.zero s, ashrNat k.w k.one s⟩ : KnownBits) :=
  ⟨ashrNat_lt hwk.1 s, ashrNat_lt hwk.2 s⟩

theorem zextOrTrunc_noConflict {a : KnownBits} (hca : NoConflict a) (hwa : WfKB a)
    (w' : Nat) : NoConflict (a.zextOrTrunc w') := by
  unfold KnownBits.zextOrTrunc
  split
  · rename_i hlt
    unfold KnownBits.zext NoConflict
    apply eq_zero_of_testBit_false
    intro i
    simp only [Nat.testBit_land, Nat.testBit_lor, testBit_bitsFrom]
    rcases noConflict_testBit hca i with h | h
    · rcases hd1 : decide (i < w') with _ | _
      · rcases hd2 : decide (i < a.w) with _ | _
        · simp [h, hd1, hd2]
        · have h1 : i < a.w := by simpa using hd2
          have h2 : ¬ i < w' := by simpa using hd1
          omega
      · rcases hd2 : decide (i < a.w) with _ | _
        · have hge : a.w ≤ i := by simpa using hd2
          simp [h, hd1, hd2, testBit_ge_false hwa.2 hge]
        · simp [h, hd1, hd2]
    · simp [h]
  · split
    · rename_i hlt
      unfold KnownBits.trunc NoConflict
      apply eq_zero_of_testBit_false
      intro i
      simp only [Nat.testBit_land, Nat.testBit_mod_two_pow]
      rcases noConflict_testBit hca i with h | h <;> simp [h]
    · exact hca

theorem zextOrTrunc_wf {a : KnownBits} (hwa : WfKB a) (w' : Nat) :
    WfKB (a.zextOrTrunc w') := by
  unfold KnownBits.zextOrTrunc
  split
  · rename_i hlt
    unfold KnownBits.zext WfKB
    dsimp only
    constructor
    · exact Nat.or_lt_two_pow
        (lt_of_lt_of_le hwa.1 (Nat.pow_le_pow_right (by omega) (by omega)))
        (bitsFrom_lt (by omega))
    · exact lt_of_lt_of_le hwa.2 (Nat.pow_le_pow_right (by omega) (by omega))
  · split
    · unfold KnownBits.trunc WfKB
      dsimp only
      exact ⟨Nat.mod_lt _ (Nat.two_pow_pos _), Nat.mod_lt _ (Nat.two_pow_pos _)⟩
    · exact hwa

theorem zextOrTrunc_w (a : KnownBits) (w' : Nat) : (a.zextOrTrunc w').w = w' := by
  unfold KnownBits.zextOrTrunc
  split
  · rfl
  · split
    · rfl
    · omega

theorem sext_noConflict {a : KnownBits} (hca : NoConflict a) (hwa : WfKB a) {w' : Nat}
    (hw' : a.w ≤ w') : NoConflict (a.sext w') := by
  unfold KnownBits.sext NoConflict
  apply eq_zero_of_testBit_false
  intro i
  rcases hsg : a.zero.testBit (a.w - 1) with _ | _ <;>
    rcases hso : a.one.testBit (a.w - 1) with _ | _ <;>
    simp only [hsg, hso, Bool.false_eq_true, if_false, if_true] <;>
    simp only [Nat.testBit_land, Nat.testBit_lor, testBit_bitsFrom]
  · rcases noConflict_testBit hca i with h | h <;> simp [h]
  · rcases noConflict_testBit hca i with h | h
    · simp [h]
    · rcases hd1 : decide (i < w') with _ | _
      · rcases hd2 : decide (i < a.w) with _ | _
        · simp [h, hd1, hd2]
        · have h1 : i < a.w := by simpa using hd2
          have h2 : ¬ i < w' := by simpa using hd1
          omega
      · rcases hd2 : decide (i < a.w) with _ | _
        · have hge : a.w ≤ i := by simpa using hd2
          simp [h, hd1, hd2, testBit_ge_false hwa.1 hge]
        · simp [h, hd1, hd2]
  · rcases noConflict_testBit hca i with h | h
    · rcases hd1 : decide (i < w') with _ | _
      · rcases hd2 : decide (i < a.w) with _ | _
        · simp [h, hd1, hd2]
        · have h1 : i < a.w := by simpa using hd2
          have h2 : ¬ i < w' := by simpa using hd1
          omega
      · rcases hd2 : decide (i < a.w) with _ | _
        · have hge : a.w ≤ i := by simpa using hd2
          simp [h, hd1, hd2, testBit_ge_false hwa.2 hge]
        · simp [h, hd1, hd2]
    · simp [h]
  · exfalso
    rcases noConflict_testBit hca (a.w - 1) with h | h
    · rw [hsg] at h
      cases h
    · rw [hso] at h
      cases h

theorem sext_wf {a : KnownBits} (hwa : WfKB a) {w' : Nat} (hw' : a.w ≤ w') :
    WfKB (a.sext w') := by
  unfold KnownBits.sext WfKB
  dsimp only
  have hz : a.zero < 2 ^ w' := lt_of_lt_of_le hwa.1 (Nat.pow_le_pow_right (by omega) hw')
  have ho : a.one < 2 ^ w' := lt_of_lt_of_le hwa.2 (Nat.pow_le_pow_right (by omega) hw')
  constructor
  · split
    · exact Nat.or_lt_two_pow hz (bitsFrom_lt hw')
    · exact hz
  · split
    · exact Nat.or_lt_two_pow ho (bitsFrom_lt hw')
    · exact ho

theorem anyext_noConflict {a : KnownBits} (hca : NoConflict a) (w' : Nat) :
    NoConflict (a.anyext w') := hca

theorem anyext_wf {a : KnownBits} (hwa : WfKB a) {w' : Nat} (hw' : a.w ≤ w') :
    WfKB (a.anyext w') :=
  ⟨lt_of_lt_of_le hwa.1 (Nat.pow_le_pow_right (by omega) hw'),
   lt_of_lt_of_le hwa.2 (Nat.pow_le_pow_right (by omega) hw')⟩

theorem and_wf {a b : KnownBits} (hw : b.w = a.w) (hwa : WfKB a) (hwb : WfKB b) :
    WfKB (KnownBits.and a b) := by
  unfold KnownBits.and WfKB
  dsimp only
  exact ⟨Nat.or_lt_two_pow hwa.1 (hw ▸ hwb.1), land_lt_left _ hwa.2⟩

theorem or_wf {a b : KnownBits} (hw : b.w = a.w) (hwa : WfKB a) (hwb : WfKB b) :
    WfKB (KnownBits.or a b) := by
  unfold KnownBits.or WfKB
  dsimp only
  exact ⟨land_lt_left _ hwa.1, Nat.or_lt_two_pow hwa.2 (hw ▸ hwb.2)⟩

theorem xor_wf {a b : KnownBits} (hwa : WfKB a) : WfKB (KnownBits.xor a b) := by
  unfold KnownBits.xor WfKB
  dsimp only
  exact ⟨Nat.or_lt_two_pow (land_lt_left _ hwa.1) (land_lt_left _ hwa.2),
   Nat.or_lt_two_pow (land_lt_left _ hwa.1) (land_lt_left _ hwa.2)⟩

theorem mul_w (a b : KnownBits) : (KnownBits.computeForMul a b).w = a.w := rfl

theorem mul_wf (a b : KnownBits) : WfKB (KnownBits.computeForMul a b) := by
  unfold KnownBits.computeForMul WfKB
  dsimp only
  constructor
  · apply Nat.or_lt_two_pow
    · exact bitsFrom_lt (by omega)
    · unfold loBits
      exact lt_of_lt_of_le (Nat.mod_lt _ (Nat.two_pow_pos _))
        (Nat.pow_le_pow_right (by omega) (Nat.min_le_right _ _))
  · unfold loBits
    exact lt_of_lt_of_le (Nat.mod_lt _ (Nat.two_pow_pos _))
      (Nat.pow_le_pow_right (by omega) (Nat.min_le_right _ _))

theorem mul_noConflict {a b : KnownBits} (hw : b.w = a.w) (hca : NoConflict a)
    (hcb : NoConflict b) (hwa : WfKB a) (hwb : WfKB b) :
    NoConflict (KnownBits.computeForMul a b) :=
  noConflict_of_matches (computeForMul_matches hw hca hcb hwa hwb
    (matches_one hca hwa) (matches_one hcb hwb))

theorem umax_noConflict {a b : KnownBits} (hw : b.w = a.w) (hca : NoConflict a)
    (hcb : NoConflict b) (hwa : WfKB a) (hwb : WfKB b) :
    NoConflict (KnownBits.umax a b) :=
  noConflict_of_matches (umax_matches hw hwa hwb (matches_one hca hwa) (matches_one hcb hwb))

theorem umin_w {a b : KnownBits} (hw : b.w = a.w) : (KnownBits.umin a b).w = a.w := by
  unfold KnownBits.umin
  dsimp only
  exact umax_w hw

theorem wf_umin {a b : KnownBits} (hw : b.w = a.w) (hwa : WfKB a) (hwb : WfKB b) :
    WfKB (KnownBits.umin a b) := by
  unfold KnownBits.umin
  dsimp only
  exact flip_wf (wf_umax hw (flip_wf hwa) (flip_wf hwb))

theorem umin_noConflict {a b : KnownBits} (hw : b.w = a.w) (hca : NoConflict a)
    (hcb : NoConflict b) (hwa : WfKB a) (hwb : WfKB b) :
    NoConflict (KnownBits.umin a b) :=
  noConflict_of_matches (umin_matches hw hwa hwb (matches_one hca hwa) (matches_one hcb hwb))

theorem kb_w0 {a : KnownBits} (h0 : a.w = 0) (hwa : WfKB a) : a = ⟨0, 0, 0⟩ := by
  obtain ⟨aw, az, ao⟩ := a
  obtain ⟨h1, h2⟩ := hwa
  dsimp only at h0 h1 h2
  subst h0
  norm_num at h1 h2
  simp [h1, h2]

theorem smax_w {a b : KnownBits} (hw : b.w = a.w) : (KnownBits.smax a b).w = a.w := by
  unfold KnownBits.smax
  dsimp only
  exact umax_w hw

theorem smin_w {a b : KnownBits} (hw : b.w = a.w) : (KnownBits.smin a b).w = a.w := by
  unfold KnownBits.smin
  dsimp only
  exact umax_w hw

theorem wf_smax {a b : KnownBits} (hw : b.w = a.w) (hwa : WfKB a) (hwb : WfKB b) :
    WfKB (KnownBits.smax a b) := by
  rcases Nat.eq_zero_or_pos a.w with h0 | h0
  · rw [kb_w0 h0 hwa, kb_w0 (by omega) hwb]
    decide
  · unfold KnownBits.smax
    dsimp only
    set fa : KnownBits := ⟨a.w, setBitTo a.zero (a.w - 1) (a.one.testBit (a.w - 1)),
      setBitTo a.one (a.w - 1) (a.zero.testBit (a.w - 1))⟩ with hfa
    set fb : KnownBits := ⟨b.w, setBitTo b.zero (b.w - 1) (b.one.testBit (b.w - 1)),
      setBitTo b.one (b.w - 1) (b.zero.testBit (b.w - 1))⟩ with hfb
    have hww : fb.w = fa.w := hw
    have h1 : WfKB fa := smaxFlip_wf h0 hwa
    have h2 : WfKB fb := smaxFlip_wf (a := b) (by omega) hwb
    exact smaxFlip_wf (a := KnownBits.umax fa fb) (by rw [umax_w hww]; exact h0)
      (wf_umax hww h1 h2)

theorem wf_smin {a b : KnownBits} (hw : b.w = a.w) (hwa : WfKB a) (hwb : WfKB b) :
    WfKB (KnownBits.smin a b) := by
  rcases Nat.eq_zero_or_pos a.w with h0 | h0
  · rw [kb_w0 h0 hwa, kb_w0 (by omega) hwb]
    decide
  · unfold KnownBits.smin
    dsimp only
    set fa : KnownBits := ⟨a.w, setBitTo a.one (a.w - 1) (a.zero.testBit (a.w - 1)),
      setBitTo a.zero (a.w - 1) (a.one.testBit (a.w - 1))⟩ with hfa
    set fb : KnownBits := ⟨b.w, setBitTo b.one (b.w - 1) (b.zero.testBit (b.w - 1)),
      setBitTo b.zero (b.w - 1) (b.one.testBit (b.w - 1))⟩ with hfb
    have hww : fb.w = fa.w := hw
    have h1 : WfKB fa := sminFlip_wf h0 hwa
    have h2 : WfKB fb := sminFlip_wf (a := b) (by omega) hwb
    exact sminFlip_wf (a := KnownBits.umax fa fb) (by rw [umax_w hww]; exact h0)
      (wf_umax hww h1 h2)

theorem smax_noConflict {a b : KnownBits} (hw : b.w = a.w) (hca : NoConflict a)
    (hcb : NoConflict b) (hwa : WfKB a) (hwb : WfKB b) :
    NoConflict (KnownBits.smax a b) := by
  rcases Nat.eq_zero_or_pos a.w with h0 | h0
  · rw [kb_w0 h0 hwa, kb_w0 (by omega) hwb]
    decide
  · exact noConflict_of_matches (smax_matches hw h0 hwa hwb
      (matches_one hca hwa) (matches_one hcb hwb))

theorem smin_noConflict {a b : KnownBits} (hw : b.w = a.w) (hca : NoConflict a)
    (hcb : NoConflict b) (hwa : WfKB a) (hwb : WfKB b) :
    NoConflict (KnownBits.smin a b) := by
  rcases Nat.eq_zero_or_pos a.w with h0 | h0
  · rw [kb_w0 h0 hwa, kb_w0 (by omega) hwb]
    decide
  · exact noConflict_of_matches (smin_matches hw h0 hwa hwb
      (matches_one hca hwa) (matches_one hcb hwb))

theorem addSub_noConflict_disp (add : Bool) {a b : KnownBits} (hw : b.w = a.w)
    (hca : NoConflict a) (hcb : NoConflict b) (hwa : WfKB a) (hwb : WfKB b) :
    NoConflict (KnownBits.computeForAddSub add false a b) :=
  addSub_noConflict add false hw hca hcb hwa hwb

theorem cacheGood_insert {A : GISelKnownBits} {c : Cache} {r : Nat} {k : KnownBits}
    (hcg : CacheGood A c) (hk : GoodKB A r k) : CacheGood A (Cache.insert c r k) := by
  intro p hp
  rcases List.mem_cons.mp hp with h | h
  · subst h
    exact hk
  · exact hcg p h

theorem cacheGood_find {A : GISelKnownBits} {c : Cache} {r : Nat} {k : KnownBits}
    (hcg : CacheGood A c) (hf : Cache.find c r = some k) : GoodKB A r k := by
  induction c with
  | nil => cases hf
  | cons p rest ih =>
    rw [Cache.find] at hf
    split at hf
    · rename_i heq
      cases hf
      have := hcg (p.1, p.2) (by simp)
      rwa [heq] at this
    · exact ih (fun q hq => hcg q (List.mem_cons_of_mem _ hq)) hf

theorem zextArm_good {a : KnownBits} (hca : NoConflict a) (hwa : WfKB a)
    {bw srcBW : Nat} (hsrc : a.w ≤ srcBW) :
    NoConflict (if srcBW < bw then
        (⟨(a.zextOrTrunc bw).w, (a.zextOrTrunc bw).zero ||| bitsFrom bw srcBW,
          (a.zextOrTrunc bw).one⟩ : KnownBits)
      else a.zextOrTrunc bw) ∧
    WfKB (if srcBW < bw then
        (⟨(a.zextOrTrunc bw).w, (a.zextOrTrunc bw).zero ||| bitsFrom bw srcBW,
          (a.zextOrTrunc bw).one⟩ : KnownBits)
      else a.zextOrTrunc bw) ∧
    (if srcBW < bw then
        (⟨(a.zextOrTrunc bw).w, (a.zextOrTrunc bw).zero ||| bitsFrom bw srcBW,
          (a.zextOrTrunc bw).one⟩ : KnownBits)
      else a.zextOrTrunc bw).w = bw := by
  have hc2 := zextOrTrunc_noConflict hca hwa bw
  have hw2 := zextOrTrunc_wf hwa bw
  have hww2 := zextOrTrunc_w a bw
  split
  · rename_i hlt
    have hone : ∀ i, srcBW ≤ i → (a.zextOrTrunc bw).one.testBit i = false := by
      intro i hi
      apply testBit_ge_false (x := (a.zextOrTrunc bw).one) (w := srcBW)
      · unfold KnownBits.zextOrTrunc
        split
        · unfold KnownBits.zext
          exact lt_of_lt_of_le hwa.2 (Nat.pow_le_pow_right (by omega) hsrc)
        · split
          · omega
          · exact lt_of_lt_of_le hwa.2 (Nat.pow_le_pow_right (by omega) hsrc)
      · exact hi
    refine ⟨?_, ?_, hww2⟩
    · unfold NoConflict
      apply eq_zero_of_testBit_false
      intro i
      simp only [Nat.testBit_land, Nat.testBit_lor, testBit_bitsFrom]
      rcases noConflict_testBit hc2 i with h | h
      · rcases hd1 : decide (i < bw) with _ | _
        · rcases hd2 : decide (i < srcBW) with _ | _
          · simp [h, hd1, hd2]
          · have h1 : i < srcBW := by simpa using hd2
            have h2 : ¬ i < bw := by simpa using hd1
            omega
        · rcases hd2 : decide (i < srcBW) with _ | _
          · have hge : srcBW ≤ i := by simpa using hd2
            simp [h, hd1, hd2, hone i hge]
          · simp [h, hd1, hd2]
      · simp [h]
    · constructor
      · show (a.zextOrTrunc bw).zero ||| bitsFrom bw srcBW < 2 ^ (a.zextOrTrunc bw).w
        rw [hww2]
        have hz := hw2.1
        rw [hww2] at hz
        exact Nat.or_lt_two_pow hz (bitsFrom_lt (by omega))
      · show (a.zextOrTrunc bw).one < 2 ^ (a.zextOrTrunc bw).w
        exact hw2.2
  · exact ⟨hc2, hw2, hww2⟩

theorem phiLoop_good (A : GISelKnownBits)
    (recurse : Nat → Nat → Cache → Option (KnownBits × Cache))
    (hrec : ∀ r' dep c k' c', CacheGood A c → recurse r' dep c = some (k', c') →
      NoConflict k' ∧ WfKB k' ∧ CacheGood A c')
    (bw step depth : Nat) :
    ∀ (ops : List MOp) (known : KnownBits) (cache : Cache) (res : KnownBits × Cache),
      WfKB known → known.w = bw → (ops = [] → NoConflict known) → CacheGood A cache →
      phiLoop A.mf recurse bw step depth ops known cache = some res →
      NoConflict res.1 ∧ WfKB res.1 ∧ res.1.w = bw ∧ CacheGood A res.2 := by
  intro ops
  induction ops with
  | nil =>
    intro known cache res hwk hkw hnil hcg hres
    rw [phiLoop] at hres
    cases hres
    exact ⟨hnil rfl, hwk, hkw, hcg⟩
  | cons op rest ih =>
    intro known cache res hwk hkw hnil hcg hres
    rw [phiLoop] at hres
    split at hres
    · rcases hrec1 : recurse op.getReg (depth + step) cache with _ | ⟨k2, c1⟩
      · rw [hrec1] at hres
        cases hres
      · rw [hrec1] at hres
        dsimp only at hres
        obtain ⟨hc2, hw2, hcg1⟩ := hrec _ _ _ _ _ hcg hrec1
        have hmc : NoConflict (⟨known.w, known.zero &&& k2.zero,
            known.one &&& k2.one⟩ : KnownBits) := meet_noConflict hc2
        have hmw : WfKB (⟨known.w, known.zero &&& k2.zero,
            known.one &&& k2.one⟩ : KnownBits) := meet_wf hwk.1 hwk.2 _ _
        split at hres
        · cases hres
          exact ⟨hmc, hmw, hkw, hcg1⟩
        · exact ih _ _ _ hmw hkw (fun _ => hmc) hcg1 hres
    · cases hres
      exact ⟨unknown_noConflict bw, unknown_wf bw, rfl, hcg⟩

theorem minHO_good (A : GISelKnownBits)
    (recurse : Nat → Cache → Option (KnownBits × Cache))
    (hrec : ∀ r' c k' c', CacheGood A c → recurse r' c = some (k', c') →
      (NoConflict k' ∧ WfKB k') ∧
      ((A.mf.regType r').isValid = true → k'.w = (A.mf.regType r').getSizeInBits) ∧
      CacheGood A c')
    (src0 src1 : Nat) (cache : Cache) (res : KnownBits × Cache)
    (hcg : CacheGood A cache)
    (hres : computeKnownBitsMinHO recurse src0 src1 cache = some res) :
    (NoConflict res.1 ∧ WfKB res.1) ∧
    ((A.mf.regType src1).isValid = true →
      res.1.w = (A.mf.regType src1).getSizeInBits) ∧ CacheGood A res.2 := by
  unfold computeKnownBitsMinHO at hres
  rcases h1 : recurse src1 cache with _ | ⟨k1, c1⟩ <;> rw [h1] at hres
  · cases hres
  · obtain ⟨⟨hc1, hw1⟩, hwd1, hcg1⟩ := hrec _ _ _ _ hcg h1
    simp only [Option.bind_eq_bind, Option.some_bind] at hres
    split at hres
    · cases hres
      exact ⟨⟨hc1, hw1⟩, hwd1, hcg1⟩
    · rcases h2 : recurse src0 c1 with _ | ⟨k2, c2⟩ <;> rw [h2] at hres
      · cases hres
      · obtain ⟨⟨hc2, hw2⟩, _, hcg2⟩ := hrec _ _ _ _ hcg1 h2
        cases hres
        exact ⟨⟨meet_noConflict hc2, meet_wf hw1.1 hw1.2 _ _⟩, fun h => hwd1 h, hcg2⟩

theorem mergeLoop_good (A : GISelKnownBits)
    (recurse : Nat → Cache → Option (KnownBits × Cache))
    (hrec : ∀ r' c k' c', CacheGood A c → recurse r' c = some (k', c') →
      (NoConflict k' ∧ WfKB k') ∧
      ((A.mf.regType r').isValid = true → k'.w = (A.mf.regType r').getSizeInBits) ∧
      CacheGood A c')
    (opSize bw : Nat) :
    ∀ (ops : List MOp) (i : Nat) (known : KnownBits) (cache : Cache)
      (res : KnownBits × Cache),
      NoConflict known → WfKB known → known.w = bw →
      (∀ op ∈ ops, (A.mf.regType op.getReg).isValid = true ∧
        (A.mf.regType op.getReg).getSizeInBits = opSize) →
      (i + ops.length) * opSize ≤ bw →
      CacheGood A cache →
      mergeLoop recurse opSize ops i known cache = some res →
      NoConflict res.1 ∧ WfKB res.1 ∧ res.1.w = bw ∧ CacheGood A res.2 := by
  intro ops
  induction ops with
  | nil =>
    intro i known cache res hck hwk hkw hops hlen hcg hres
    rw [mergeLoop] at hres
    cases hres
    exact ⟨hck, hwk, hkw, hcg⟩
  | cons op rest ih =>
    intro i known cache res hck hwk hkw hops hlen hcg hres
    rw [mergeLoop] at hres
    rcases h1 : recurse op.getReg cache with _ | ⟨k1, c1⟩ <;> rw [h1] at hres
    · cases hres
    · obtain ⟨⟨hc1, hw1⟩, hwd1, hcg1⟩ := hrec _ _ _ _ hcg h1
      dsimp only at hres
      have hop := hops op (List.mem_cons_self op rest)
      have hk1w : k1.w = opSize := by
        rw [hwd1 hop.1]
        exact hop.2
      have hlen' : (i + rest.length + 1) * opSize ≤ bw := by
        have hl : (op :: rest).length = rest.length + 1 := by simp
        rw [hl] at hlen
        have he : i + (rest.length + 1) = i + rest.length + 1 := by omega
        rwa [he] at hlen
      have hpos : i * opSize + k1.w ≤ known.w := by
        rw [hk1w, hkw]
        have h2 : (i + 1) * opSize ≤ (i + rest.length + 1) * opSize :=
          Nat.mul_le_mul_right _ (by omega)
        have h3 : i * opSize + opSize = (i + 1) * opSize := by ring
        omega
      refine ih (i + 1) _ c1 res ?_ ?_ ?_ ?_ ?_ hcg1 hres
      · exact insertBits_noConflict hck hc1 hwk hw1 _
      · exact insertBits_wf hwk hw1 hpos
      · exact hkw
      · exact fun o ho => hops o (List.mem_cons_of_mem _ ho)
      · have he : i + 1 + rest.length = i + rest.length + 1 := by omega
        rw [he]
        exact hlen'

theorem impl_good (A : GISelKnownBits) (hA : WfMIR A) :
    ∀ fuel r demandedElts depth cache k cache2,
      CacheGood A cache →
      computeKnownBitsImpl A fuel r demandedElts depth cache = some (k, cache2) →
      (NoConflict k ∧ WfKB k) ∧
      ((A.mf.regType r).isValid = true → k.w = (A.mf.regType r).getSizeInBits) ∧
      CacheGood A cache2 := by
  intro fuel
  induction fuel with
  | zero =>
    intro r d depth cache k c2 hcg hres
    cases hres
  | succ fuel ih =>
    intro r d depth cache k c2 hcg hres
    have ihP : ∀ r' dep c k' c', CacheGood A c →
        computeKnownBitsImpl A fuel r' d dep c = some (k', c') →
        (NoConflict k' ∧ WfKB k') ∧
        ((A.mf.regType r').isValid = true → k'.w = (A.mf.regType r').getSizeInBits) ∧
        CacheGood A c' := fun r' dep c k' c' hc h => ih r' d dep c k' c' hc h
    unfold computeKnownBitsImpl at hres
    dsimp only at hres
    rcases hval : (A.mf.regType r).isValid with _ | _
    · simp only [hval, Bool.not_false, if_true] at hres
      cases hres
      refine ⟨⟨unknown_noConflict 1, unknown_wf 1⟩, ?_, hcg⟩
      intro hv
      exact Bool.noConfusion hv
    · simp only [hval, Bool.not_true, Bool.false_eq_true, if_false] at hres
      rcases hcf : Cache.find cache r with _ | k0 <;> rw [hcf] at hres
      · dsimp only at hres
        rcases hvec : (A.mf.regType r).isVector with _ | _
        · simp only [hvec, Bool.false_eq_true, if_false] at hres
          by_cases hdep : A.maxDepth ≤ depth
          · rw [if_pos hdep] at hres
            cases hres
            exact ⟨⟨unknown_noConflict _, unknown_wf _⟩, fun _ => rfl, hcg⟩
          · rw [if_neg hdep] at hres
            by_cases hde : (d == 0) = true
            · rw [if_pos hde] at hres
              cases hres
              exact ⟨⟨unknown_noConflict _, unknown_wf _⟩, fun _ => rfl, hcg⟩
            · rw [if_neg hde] at hres
              revert hres
              cases hoc : (A.mf.vregDef r).opcode <;> intro hres
              · dsimp only at hres
                split at hres
                · cases hres
                · rename_i known cacheA writeCache heq
                  rw [withWrite, Option.map_eq_some'] at heq
                  obtain ⟨p, hphi, hpe⟩ := heq
                  have hcg1 : CacheGood A (Cache.insert cache r
                      (KnownBits.unknown (A.mf.regType r).getSizeInBits)) :=
                    cacheGood_insert hcg ⟨unknown_noConflict _, unknown_wf _, rfl⟩
                  have hrec : ∀ r' dep c k' c', CacheGood A c →
                      computeKnownBitsImpl A fuel r' d dep c = some (k', c') →
                      NoConflict k' ∧ WfKB k' ∧ CacheGood A c' := by
                    intro r' dep c k' c' hc h
                    obtain ⟨⟨a1, a2⟩, _, a3⟩ := ihP r' dep c k' c' hc h
                    exact ⟨a1, a2, a3⟩
                  obtain ⟨hkc, hkw2, hkb, hcgp⟩ := phiLoop_good A _ hrec _ _ depth _ _ _ p
                    (by exact ⟨ones_lt _, ones_lt _⟩) (by rfl)
                    (fun hnil => absurd hnil (hA.phi_nonempty r (Or.inl hoc)))
                    hcg1 hphi
                  cases hpe
                  cases hres
                  exact ⟨⟨hkc, hkw2⟩, fun _ => hkb, cacheGood_insert hcgp ⟨hkc, hkw2, hkb⟩⟩
              · dsimp only at hres
                split at hres
                · cases hres
                · rename_i known cacheA writeCache heq
                  rw [withWrite, Option.map_eq_some'] at heq
                  obtain ⟨p, hphi, hpe⟩ := heq
                  have hcg1 : CacheGood A (Cache.insert cache r
                      (KnownBits.unknown (A.mf.regType r).getSizeInBits)) :=
                    cacheGood_insert hcg ⟨unknown_noConflict _, unknown_wf _, rfl⟩
                  have hrec : ∀ r' dep c k' c', CacheGood A c →
                      computeKnownBitsImpl A fuel r' d dep c = some (k', c') →
                      NoConflict k' ∧ WfKB k' ∧ CacheGood A c' := by
                    intro r' dep c k' c' hc h
                    obtain ⟨⟨a1, a2⟩, _, a3⟩ := ihP r' dep c k' c' hc h
                    exact ⟨a1, a2, a3⟩
                  obtain ⟨hkc, hkw2, hkb, hcgp⟩ := phiLoop_good A _ hrec _ _ depth _ _ _ p
                    (by exact ⟨ones_lt _, ones_lt _⟩) (by rfl)
                    (fun hnil => absurd hnil (hA.phi_nonempty r (Or.inr (Or.inl hoc))))
                    hcg1 hphi
                  cases hpe
                  cases hres
                  exact ⟨⟨hkc, hkw2⟩, fun _ => hkb, cacheGood_insert hcgp ⟨hkc, hkw2, hkb⟩⟩
              · dsimp only at hres
                split at hres
                · cases hres
                · rename_i known cacheA writeCache heq
                  rw [withWrite, Option.map_eq_some'] at heq
                  obtain ⟨p, hphi, hpe⟩ := heq
                  have hcg1 : CacheGood A (Cache.insert cache r
                      (KnownBits.unknown (A.mf.regType r).getSizeInBits)) :=
                    cacheGood_insert hcg ⟨unknown_noConflict _, unknown_wf _, rfl⟩
                  have hrec : ∀ r' dep c k' c', CacheGood A c →
                      computeKnownBitsImpl A fuel r' d dep c = some (k', c') →
                      NoConflict k' ∧ WfKB k' ∧ CacheGood A c' := by
                    intro r' dep c k' c' hc h
                    obtain ⟨⟨a1, a2⟩, _, a3⟩ := ihP r' dep c k' c' hc h
                    exact ⟨a1, a2, a3⟩
                  obtain ⟨hkc, hkw2, hkb, hcgp⟩ := phiLoop_good A _ hrec _ _ depth _ _ _ p
                    (by exact ⟨ones_lt _, ones_lt _⟩) (by rfl)
                    (fun hnil => absurd hnil (hA.phi_nonempty r (Or.inr (Or.inr hoc))))
                    hcg1 hphi
                  cases hpe
                  cases hres
                  exact ⟨⟨hkc, hkw2⟩, fun _ => hkb, cacheGood_insert hcgp ⟨hkc, hkw2, hkb⟩⟩
              · dsimp only at hres
                rcases hop1 : (A.mf.vregDef r).getOperand 1 with ⟨rr, sr, vv⟩ | bb | v | idx <;>
                  rw [hop1] at hres <;> cases hres
                · exact ⟨⟨unknown_noConflict _, unknown_wf _⟩, fun _ => rfl,
                    cacheGood_insert hcg ⟨unknown_noConflict _, unknown_wf _, rfl⟩⟩
                · exact ⟨⟨unknown_noConflict _, unknown_wf _⟩, fun _ => rfl,
                    cacheGood_insert hcg ⟨unknown_noConflict _, unknown_wf _, rfl⟩⟩
                · refine ⟨⟨land_notW_self (toUnsigned_lt _ _),
                    ⟨notW_lt (toUnsigned_lt _ _), toUnsigned_lt _ _⟩⟩, fun _ => rfl,
                    cacheGood_insert hcg ⟨land_notW_self (toUnsigned_lt _ _),
                      ⟨notW_lt (toUnsigned_lt _ _), toUnsigned_lt _ _⟩, rfl⟩⟩
                · exact ⟨⟨unknown_noConflict _, unknown_wf _⟩, fun _ => rfl,
                    cacheGood_insert hcg ⟨unknown_noConflict _, unknown_wf _, rfl⟩⟩
              · dsimp only at hres
                cases hres
                obtain ⟨hoc1, hoc2, hoc3⟩ := hA.oracle_frame
                  ((A.mf.vregDef r).getOperand 1).getIndex (A.mf.regType r).getSizeInBits
                exact ⟨⟨hoc1, hoc2⟩, fun _ => hoc3,
                  cacheGood_insert hcg ⟨hoc1, hoc2, hoc3⟩⟩
              · dsimp only at hres
                rcases h1 : computeKnownBitsImpl A fuel
                    ((A.mf.vregDef r).getOperand 1).getReg d (depth + 1) cache
                    with _ | ⟨k1, c1⟩ <;> rw [h1] at hres
                · cases hres
                · obtain ⟨⟨hc1, hw1⟩, hwd1, hcg1⟩ := ihP _ _ _ _ _ hcg h1
                  simp only [Option.bind_eq_bind, Option.some_bind] at hres
                  rcases h2 : computeKnownBitsImpl A fuel
                      ((A.mf.vregDef r).getOperand 2).getReg d (depth + 1) c1
                      with _ | ⟨k2, c2'⟩ <;> rw [h2] at hres
                  · cases hres
                  · obtain ⟨⟨hc2, hw2⟩, hwd2, hcg2⟩ := ihP _ _ _ _ _ hcg1 h2
                    simp only [Option.bind_eq_bind, Option.some_bind] at hres
                    cases hres
                    obtain ⟨⟨hv1, hs1⟩, hv2, hs2⟩ := hA.binop_types r (by rw [hoc]; simp)
                    have hk1w : k1.w = (A.mf.regType r).getSizeInBits := by
                      rw [hwd1 hv1]
                      exact hs1
                    have hk2w : k2.w = (A.mf.regType r).getSizeInBits := by
                      rw [hwd2 hv2]
                      exact hs2
                    have hww : k2.w = k1.w := by omega
                    have hnc : NoConflict (KnownBits.computeForAddSub false false k1 k2) := addSub_noConflict false false hww hc1 hc2 hw1 hw2
                    have hwf : WfKB (KnownBits.computeForAddSub false false k1 k2) := addSub_false_wf false k1 k2
                    have hresw : (KnownBits.computeForAddSub false false k1 k2).w = (A.mf.regType r).getSizeInBits := by
                      rw [addSub_w]
                      exact hk1w
                    exact ⟨⟨hnc, hwf⟩, fun _ => hresw,
                      cacheGood_insert hcg2 ⟨hnc, hwf, hresw⟩⟩
              · dsimp only at hres
                rcases h1 : computeKnownBitsImpl A fuel
                    ((A.mf.vregDef r).getOperand 2).getReg d (depth + 1) cache
                    with _ | ⟨k1, c1⟩ <;> rw [h1] at hres
                · cases hres
                · obtain ⟨⟨hc1, hw1⟩, hwd1, hcg1⟩ := ihP _ _ _ _ _ hcg h1
                  simp only [Option.bind_eq_bind, Option.some_bind] at hres
                  rcases h2 : computeKnownBitsImpl A fuel
                      ((A.mf.vregDef r).getOperand 1).getReg d (depth + 1) c1
                      with _ | ⟨k2, c2'⟩ <;> rw [h2] at hres
                  · cases hres
                  · obtain ⟨⟨hc2, hw2⟩, hwd2, hcg2⟩ := ihP _ _ _ _ _ hcg1 h2
                    simp only [Option.bind_eq_bind, Option.some_bind] at hres
                    cases hres
                    obtain ⟨⟨hv1, hs1⟩, hv2, hs2⟩ := hA.binop_types r (by rw [hoc]; simp)
                    have hk1w : k1.w = (A.mf.regType r).getSizeInBits := by
                      rw [hwd1 hv2]
                      exact hs2
                    have hk2w : k2.w = (A.mf.regType r).getSizeInBits := by
                      rw [hwd2 hv1]
                      exact hs1
                    have hww : k2.w = k1.w := by omega
                    have hnc : NoConflict (KnownBits.xor k1 k2) := xor_noConflict hc1 hc2
                    have hwf : WfKB (KnownBits.xor k1 k2) := xor_wf hw1
                    have hresw : (KnownBits.xor k1 k2).w = (A.mf.regType r).getSizeInBits := by
                      exact hk1w
                    exact ⟨⟨hnc, hwf⟩, fun _ => hresw,
                      cacheGood_insert hcg2 ⟨hnc, hwf, hresw⟩⟩
              · dsimp only at hres
                by_cases hnia : A.dl.isNonIntegralAddressSpace
                    (A.mf.regType ((A.mf.vregDef r).getOperand 1).getReg).getAddressSpace = true
                · rw [if_pos hnia] at hres
                  cases hres
                  exact ⟨⟨unknown_noConflict _, unknown_wf _⟩, fun _ => rfl,
                    cacheGood_insert hcg ⟨unknown_noConflict _, unknown_wf _, rfl⟩⟩
                · rw [if_neg hnia] at hres
                  rcases h1 : computeKnownBitsImpl A fuel
                      ((A.mf.vregDef r).getOperand 1).getReg d (depth + 1) cache
                      with _ | ⟨k1, c1⟩ <;> rw [h1] at hres
                  · cases hres
                  · obtain ⟨⟨hc1, hw1⟩, hwd1, hcg1⟩ := ihP _ _ _ _ _ hcg h1
                    simp only [Option.bind_eq_bind, Option.some_bind] at hres
                    rcases h2 : computeKnownBitsImpl A fuel
                        ((A.mf.vregDef r).getOperand 2).getReg d (depth + 1) c1
                        with _ | ⟨k2, c2'⟩ <;> rw [h2] at hres
                    · cases hres
                    · obtain ⟨⟨hc2, hw2⟩, hwd2, hcg2⟩ := ihP _ _ _ _ _ hcg1 h2
                      simp only [Option.bind_eq_bind, Option.some_bind] at hres
                      cases hres
                      obtain ⟨⟨hv1, hs1⟩, hv2, hs2⟩ := hA.binop_types r (by rw [hoc]; simp)
                      have hk1w : k1.w = (A.mf.regType r).getSizeInBits := by
                        rw [hwd1 hv1]
                        exact hs1
                      have hk2w : k2.w = (A.mf.regType r).getSizeInBits := by
                        rw [hwd2 hv2]
                        exact hs2
                      have hww : k2.w = k1.w := by omega
                      have hnc : NoConflict (KnownBits.computeForAddSub true false k1 k2) := addSub_noConflict true false hww hc1 hc2 hw1 hw2
                      have hwf : WfKB (KnownBits.computeForAddSub true false k1 k2) := addSub_false_wf true k1 k2
                      have hresw : (KnownBits.computeForAddSub true false k1 k2).w = (A.mf.regType r).getSizeInBits := by
                        rw [addSub_w]
                        exact hk1w
                      exact ⟨⟨hnc, hwf⟩, fun _ => hresw,
                        cacheGood_insert hcg2 ⟨hnc, hwf, hresw⟩⟩
              · dsimp only at hres
                rcases h1 : computeKnownBitsImpl A fuel
                    ((A.mf.vregDef r).getOperand 1).getReg d (depth + 1) cache
                    with _ | ⟨k1, c1⟩ <;> rw [h1] at hres
                · cases hres
                · obtain ⟨⟨hc1, hw1⟩, hwd1, hcg1⟩ := ihP _ _ _ _ _ hcg h1
                  simp only [Option.bind_eq_bind, Option.some_bind] at hres
                  rcases h2 : computeKnownBitsImpl A fuel
                      ((A.mf.vregDef r).getOperand 2).getReg d (depth + 1) c1
                      with _ | ⟨k2, c2'⟩ <;> rw [h2] at hres
                  · cases hres
                  · obtain ⟨⟨hc2, hw2⟩, hwd2, hcg2⟩ := ihP _ _ _ _ _ hcg1 h2
                    simp only [Option.bind_eq_bind, Option.some_bind] at hres
                    cases hres
                    obtain ⟨⟨hv1, hs1⟩, hv2, hs2⟩ := hA.binop_types r (by rw [hoc]; simp)
                    have hk1w : k1.w = (A.mf.regType r).getSizeInBits := by
                      rw [hwd1 hv1]
                      exact hs1
                    have hk2w : k2.w = (A.mf.regType r).getSizeInBits := by
                      rw [hwd2 hv2]
                      exact hs2
                    have hww : k2.w = k1.w := by omega
                    have hnc : NoConflict (KnownBits.computeForAddSub true false k1 k2) := addSub_noConflict true false hww hc1 hc2 hw1 hw2
                    have hwf : WfKB (KnownBits.computeForAddSub true false k1 k2) := addSub_false_wf true k1 k2
                    have hresw : (KnownBits.computeForAddSub true false k1 k2).w = (A.mf.regType r).getSizeInBits := by
                      rw [addSub_w]
                      exact hk1w
                    exact ⟨⟨hnc, hwf⟩, fun _ => hresw,
                      cacheGood_insert hcg2 ⟨hnc, hwf, hresw⟩⟩
              · dsimp only at hres
                rcases h1 : computeKnownBitsImpl A fuel
                    ((A.mf.vregDef r).getOperand 2).getReg d (depth + 1) cache
                    with _ | ⟨k1, c1⟩ <;> rw [h1] at hres
                · cases hres
                · obtain ⟨⟨hc1, hw1⟩, hwd1, hcg1⟩ := ihP _ _ _ _ _ hcg h1
                  simp only [Option.bind_eq_bind, Option.some_bind] at hres
                  rcases h2 : computeKnownBitsImpl A fuel
                      ((A.mf.vregDef r).getOperand 1).getReg d (depth + 1) c1
                      with _ | ⟨k2, c2'⟩ <;> rw [h2] at hres
                  · cases hres
                  · obtain ⟨⟨hc2, hw2⟩, hwd2, hcg2⟩ := ihP _ _ _ _ _ hcg1 h2
                    simp only [Option.bind_eq_bind, Option.some_bind] at hres
                    cases hres
                    obtain ⟨⟨hv1, hs1⟩, hv2, hs2⟩ := hA.binop_types r (by rw [hoc]; simp)
                    have hk1w : k1.w = (A.mf.regType r).getSizeInBits := by
                      rw [hwd1 hv2]
                      exact hs2
                    have hk2w : k2.w = (A.mf.regType r).getSizeInBits := by
                      rw [hwd2 hv1]
                      exact hs1
                    have hww : k2.w = k1.w := by omega
                    have hnc : NoConflict (KnownBits.and k1 k2) := and_noConflict hc1 hc2
                    have hwf : WfKB (KnownBits.and k1 k2) := and_wf hww hw1 hw2
                    have hresw : (KnownBits.and k1 k2).w = (A.mf.regType r).getSizeInBits := by
                      exact hk1w
                    exact ⟨⟨hnc, hwf⟩, fun _ => hresw,
                      cacheGood_insert hcg2 ⟨hnc, hwf, hresw⟩⟩
              · dsimp only at hres
                rcases h1 : computeKnownBitsImpl A fuel
                    ((A.mf.vregDef r).getOperand 2).getReg d (depth + 1) cache
                    with _ | ⟨k1, c1⟩ <;> rw [h1] at hres
                · cases hres
                · obtain ⟨⟨hc1, hw1⟩, hwd1, hcg1⟩ := ihP _ _ _ _ _ hcg h1
                  simp only [Option.bind_eq_bind, Option.some_bind] at hres
                  rcases h2 : computeKnownBitsImpl A fuel
                      ((A.mf.vregDef r).getOperand 1).getReg d (depth + 1) c1
                      with _ | ⟨k2, c2'⟩ <;> rw [h2] at hres
                  · cases hres
                  · obtain ⟨⟨hc2, hw2⟩, hwd2, hcg2⟩ := ihP _ _ _ _ _ hcg1 h2
                    simp only [Option.bind_eq_bind, Option.some_bind] at hres
                    cases hres
                    obtain ⟨⟨hv1, hs1⟩, hv2, hs2⟩ := hA.binop_types r (by rw [hoc]; simp)
                    have hk1w : k1.w = (A.mf.regType r).getSizeInBits := by
                      rw [hwd1 hv2]
                      exact hs2
                    have hk2w : k2.w = (A.mf.regType r).getSizeInBits := by
                      rw [hwd2 hv1]
                      exact hs1
                    have hww : k2.w = k1.w := by omega
                    have hnc : NoConflict (KnownBits.or k1 k2) := or_noConflict hc1 hc2
                    have hwf : WfKB (KnownBits.or k1 k2) := or_wf hww hw1 hw2
                    have hresw : (KnownBits.or k1 k2).w = (A.mf.regType r).getSizeInBits := by
                      exact hk1w
                    exact ⟨⟨hnc, hwf⟩, fun _ => hresw,
                      cacheGood_insert hcg2 ⟨hnc, hwf, hresw⟩⟩
              · dsimp only at hres
                rcases h1 : computeKnownBitsImpl A fuel
                    ((A.mf.vregDef r).getOperand 2).getReg d (depth + 1) cache
                    with _ | ⟨k1, c1⟩ <;> rw [h1] at hres
                · cases hres
                · obtain ⟨⟨hc1, hw1⟩, hwd1, hcg1⟩ := ihP _ _ _ _ _ hcg h1
                  simp only [Option.bind_eq_bind, Option.some_bind] at hres
                  rcases h2 : computeKnownBitsImpl A fuel
                      ((A.mf.vregDef r).getOperand 1).getReg d (depth + 1) c1
                      with _ | ⟨k2, c2'⟩ <;> rw [h2] at hres
                  · cases hres
                  · obtain ⟨⟨hc2, hw2⟩, hwd2, hcg2⟩ := ihP _ _ _ _ _ hcg1 h2
                    simp only [Option.bind_eq_bind, Option.some_bind] at hres
                    cases hres
                    obtain ⟨⟨hv1, hs1⟩, hv2, hs2⟩ := hA.binop_types r (by rw [hoc]; simp)
                    have hk1w : k1.w = (A.mf.regType r).getSizeInBits := by
                      rw [hwd1 hv2]
                      exact hs2
                    have hk2w : k2.w = (A.mf.regType r).getSizeInBits := by
                      rw [hwd2 hv1]
                      exact hs1
                    have hww : k2.w = k1.w := by omega
                    have hnc : NoConflict (KnownBits.computeForMul k1 k2) := mul_noConflict hww hc1 hc2 hw1 hw2
                    have hwf : WfKB (KnownBits.computeForMul k1 k2) := mul_wf k1 k2
                    have hresw : (KnownBits.computeForMul k1 k2).w = (A.mf.regType r).getSizeInBits := by
                      rw [mul_w]
                      exact hk1w
                    exact ⟨⟨hnc, hwf⟩, fun _ => hresw,
                      cacheGood_insert hcg2 ⟨hnc, hwf, hresw⟩⟩
              · dsimp only at hres
                rcases hm : computeKnownBitsMinHO
                    (fun r' c => computeKnownBitsImpl A fuel r' d (depth + 1) c)
                    ((A.mf.vregDef r).getOperand 2).getReg
                    ((A.mf.vregDef r).getOperand 3).getReg cache
                    with _ | p <;> rw [hm] at hres
                · cases hres
                · have hrec : ∀ r' c k' c', CacheGood A c →
                      computeKnownBitsImpl A fuel r' d (depth + 1) c = some (k', c') →
                      (NoConflict k' ∧ WfKB k') ∧
                      ((A.mf.regType r').isValid = true →
                        k'.w = (A.mf.regType r').getSizeInBits) ∧
                      CacheGood A c' := fun r' c k' c' hc h => ihP r' (depth + 1) c k' c' hc h
                  obtain ⟨⟨hpc, hpw⟩, hpd, hcgp⟩ := minHO_good A _ hrec _ _ _ p hcg hm
                  cases hres
                  obtain ⟨hv3, hs3⟩ := hA.select_types r hoc
                  have hresw : p.1.w = (A.mf.regType r).getSizeInBits := by
                    rw [hpd hv3]
                    exact hs3
                  exact ⟨⟨hpc, hpw⟩, fun _ => hresw, cacheGood_insert hcgp ⟨hpc, hpw, hresw⟩⟩
              · dsimp only at hres
                rcases h1 : computeKnownBitsImpl A fuel
                    ((A.mf.vregDef r).getOperand 1).getReg d (depth + 1) cache
                    with _ | ⟨k1, c1⟩ <;> rw [h1] at hres
                · cases hres
                · obtain ⟨⟨hc1, hw1⟩, hwd1, hcg1⟩ := ihP _ _ _ _ _ hcg h1
                  simp only [Option.bind_eq_bind, Option.some_bind] at hres
                  rcases h2 : computeKnownBitsImpl A fuel
                      ((A.mf.vregDef r).getOperand 2).getReg d (depth + 1) c1
                      with _ | ⟨k2, c2'⟩ <;> rw [h2] at hres
                  · cases hres
                  · obtain ⟨⟨hc2, hw2⟩, hwd2, hcg2⟩ := ihP _ _ _ _ _ hcg1 h2
                    simp only [Option.bind_eq_bind, Option.some_bind] at hres
                    cases hres
                    obtain ⟨⟨hv1, hs1⟩, hv2, hs2⟩ := hA.binop_types r (by rw [hoc]; simp)
                    have hk1w : k1.w = (A.mf.regType r).getSizeInBits := by
                      rw [hwd1 hv1]
                      exact hs1
                    have hk2w : k2.w = (A.mf.regType r).getSizeInBits := by
                      rw [hwd2 hv2]
                      exact hs2
                    have hww : k2.w = k1.w := by omega
                    have hnc : NoConflict (KnownBits.smin k1 k2) := smin_noConflict hww hc1 hc2 hw1 hw2
                    have hwf : WfKB (KnownBits.smin k1 k2) := wf_smin hww hw1 hw2
                    have hresw : (KnownBits.smin k1 k2).w = (A.mf.regType r).getSizeInBits := by
                      rw [smin_w hww]
                      exact hk1w
                    exact ⟨⟨hnc, hwf⟩, fun _ => hresw,
                      cacheGood_insert hcg2 ⟨hnc, hwf, hresw⟩⟩
              · dsimp only at hres
                rcases h1 : computeKnownBitsImpl A fuel
                    ((A.mf.vregDef r).getOperand 1).getReg d (depth + 1) cache
                    with _ | ⟨k1, c1⟩ <;> rw [h1] at hres
                · cases hres
                · obtain ⟨⟨hc1, hw1⟩, hwd1, hcg1⟩ := ihP _ _ _ _ _ hcg h1
                  simp only [Option.bind_eq_bind, Option.some_bind] at hres
                  rcases h2 : computeKnownBitsImpl A fuel
                      ((A.mf.vregDef r).getOperand 2).getReg d (depth + 1) c1
                      with _ | ⟨k2, c2'⟩ <;> rw [h2] at hres
                  · cases hres
                  · obtain ⟨⟨hc2, hw2⟩, hwd2, hcg2⟩ := ihP _ _ _ _ _ hcg1 h2
                    simp only [Option.bind_eq_bind, Option.some_bind] at hres
                    cases hres
                    obtain ⟨⟨hv1, hs1⟩, hv2, hs2⟩ := hA.binop_types r (by rw [hoc]; simp)
                    have hk1w : k1.w = (A.mf.regType r).getSizeInBits := by
                      rw [hwd1 hv1]
                      exact hs1
                    have hk2w : k2.w = (A.mf.regType r).getSizeInBits := by
                      rw [hwd2 hv2]
                      exact hs2
                    have hww : k2.w = k1.w := by omega
                    have hnc : NoConflict (KnownBits.smax k1 k2) := smax_noConflict hww hc1 hc2 hw1 hw2
                    have hwf : WfKB (KnownBits.smax k1 k2) := wf_smax hww hw1 hw2
                    have hresw : (KnownBits.smax k1 k2).w = (A.mf.regType r).getSizeInBits := by
                      rw [smax_w hww]
                      exact hk1w
                    exact ⟨⟨hnc, hwf⟩, fun _ => hresw,
                      cacheGood_insert hcg2 ⟨hnc, hwf, hresw⟩⟩
              · dsimp only at hres
                rcases h1 : computeKnownBitsImpl A fuel
                    ((A.mf.vregDef r).getOperand 1).getReg d (depth + 1) cache
                    with _ | ⟨k1, c1⟩ <;> rw [h1] at hres
                · cases hres
                · obtain ⟨⟨hc1, hw1⟩, hwd1, hcg1⟩ := ihP _ _ _ _ _ hcg h1
                  simp only [Option.bind_eq_bind, Option.some_bind] at hres
                  rcases h2 : computeKnownBitsImpl A fuel
                      ((A.mf.vregDef r).getOperand 2).getReg d (depth + 1) c1
                      with _ | ⟨k2, c2'⟩ <;> rw [h2] at hres
                  · cases hres
                  · obtain ⟨⟨hc2, hw2⟩, hwd2, hcg2⟩ := ihP _ _ _ _ _ hcg1 h2
                    simp only [Option.bind_eq_bind, Option.some_bind] at hres
                    cases hres
                    obtain ⟨⟨hv1, hs1⟩, hv2, hs2⟩ := hA.binop_types r (by rw [hoc]; simp)
                    have hk1w : k1.w = (A.mf.regType r).getSizeInBits := by
                      rw [hwd1 hv1]
                      exact hs1
                    have hk2w : k2.w = (A.mf.regType r).getSizeInBits := by
                      rw [hwd2 hv2]
                      exact hs2
                    have hww : k2.w = k1.w := by omega
                    have hnc : NoConflict (KnownBits.umin k1 k2) := umin_noConflict hww hc1 hc2 hw1 hw2
                    have hwf : WfKB (KnownBits.umin k1 k2) := wf_umin hww hw1 hw2
                    have hresw : (KnownBits.umin k1 k2).w = (A.mf.regType r).getSizeInBits := by
                      rw [umin_w hww]
                      exact hk1w
                    exact ⟨⟨hnc, hwf⟩, fun _ => hresw,
                      cacheGood_insert hcg2 ⟨hnc, hwf, hresw⟩⟩
              · dsimp only at hres
                rcases h1 : computeKnownBitsImpl A fuel
                    ((A.mf.vregDef r).getOperand 1).getReg d (depth + 1) cache
                    with _ | ⟨k1, c1⟩ <;> rw [h1] at hres
                · cases hres
                · obtain ⟨⟨hc1, hw1⟩, hwd1, hcg1⟩ := ihP _ _ _ _ _ hcg h1
                  simp only [Option.bind_eq_bind, Option.some_bind] at hres
                  rcases h2 : computeKnownBitsImpl A fuel
                      ((A.mf.vregDef r).getOperand 2).getReg d (depth + 1) c1
                      with _ | ⟨k2, c2'⟩ <;> rw [h2] at hres
                  · cases hres
                  · obtain ⟨⟨hc2, hw2⟩, hwd2, hcg2⟩ := ihP _ _ _ _ _ hcg1 h2
                    simp only [Option.bind_eq_bind, Option.some_bind] at hres
                    cases hres
                    obtain ⟨⟨hv1, hs1⟩, hv2, hs2⟩ := hA.binop_types r (by rw [hoc]; simp)
                    have hk1w : k1.w = (A.mf.regType r).getSizeInBits := by
                      rw [hwd1 hv1]
                      exact hs1
                    have hk2w : k2.w = (A.mf.regType r).getSizeInBits := by
                      rw [hwd2 hv2]
                      exact hs2
                    have hww : k2.w = k1.w := by omega
                    have hnc : NoConflict (KnownBits.umax k1 k2) := umax_noConflict hww hc1 hc2 hw1 hw2
                    have hwf : WfKB (KnownBits.umax k1 k2) := wf_umax hww hw1 hw2
                    have hresw : (KnownBits.umax k1 k2).w = (A.mf.regType r).getSizeInBits := by
                      rw [umax_w hww]
                      exact hk1w
                    exact ⟨⟨hnc, hwf⟩, fun _ => hresw,
                      cacheGood_insert hcg2 ⟨hnc, hwf, hresw⟩⟩
              · dsimp only at hres
                cases hres
                split
                · rename_i hcond
                  have h1bw : 1 < (A.mf.regType r).getSizeInBits := by
                    simp only [Bool.and_eq_true, decide_eq_true_eq] at hcond
                    exact hcond.2
                  have hnc : NoConflict (⟨(A.mf.regType r).getSizeInBits,
                      bitsFrom (A.mf.regType r).getSizeInBits 1, 0⟩ : KnownBits) := by
                    unfold NoConflict
                    simp
                  have hwf : WfKB (⟨(A.mf.regType r).getSizeInBits,
                      bitsFrom (A.mf.regType r).getSizeInBits 1, 0⟩ : KnownBits) :=
                    ⟨bitsFrom_lt (by omega), Nat.two_pow_pos _⟩
                  exact ⟨⟨hnc, hwf⟩, fun _ => rfl, cacheGood_insert hcg ⟨hnc, hwf, rfl⟩⟩
                · exact ⟨⟨unknown_noConflict _, unknown_wf _⟩, fun _ => rfl,
                    cacheGood_insert hcg ⟨unknown_noConflict _, unknown_wf _, rfl⟩⟩
              · dsimp only at hres
                cases hres
                split
                · rename_i hcond
                  have h1bw : 1 < (A.mf.regType r).getSizeInBits := by
                    simp only [Bool.and_eq_true, decide_eq_true_eq] at hcond
                    exact hcond.2
                  have hnc : NoConflict (⟨(A.mf.regType r).getSizeInBits,
                      bitsFrom (A.mf.regType r).getSizeInBits 1, 0⟩ : KnownBits) := by
                    unfold NoConflict
                    simp
                  have hwf : WfKB (⟨(A.mf.regType r).getSizeInBits,
                      bitsFrom (A.mf.regType r).getSizeInBits 1, 0⟩ : KnownBits) :=
                    ⟨bitsFrom_lt (by omega), Nat.two_pow_pos _⟩
                  exact ⟨⟨hnc, hwf⟩, fun _ => rfl, cacheGood_insert hcg ⟨hnc, hwf, rfl⟩⟩
                · exact ⟨⟨unknown_noConflict _, unknown_wf _⟩, fun _ => rfl,
                    cacheGood_insert hcg ⟨unknown_noConflict _, unknown_wf _, rfl⟩⟩
              · dsimp only at hres
                rcases h1 : computeKnownBitsImpl A fuel
                    ((A.mf.vregDef r).getOperand 1).getReg d (depth + 1) cache
                    with _ | ⟨k1, c1⟩ <;> rw [h1] at hres
                · cases hres
                · obtain ⟨⟨hc1, hw1⟩, hwd1, hcg1⟩ := ihP _ _ _ _ _ hcg h1
                  simp only [Option.bind_eq_bind, Option.some_bind] at hres
                  cases hres
                  obtain ⟨hv1, hs1⟩ := hA.ext_types r (by rw [hoc]; simp)
                  have hsrc : k1.w ≤ (A.mf.regType r).getSizeInBits := by
                    rw [hwd1 hv1]
                    exact hs1
                  have hnc : NoConflict (k1.sext (A.mf.regType r).getSizeInBits) := sext_noConflict hc1 hw1 hsrc
                  have hwf : WfKB (k1.sext (A.mf.regType r).getSizeInBits) := sext_wf hw1 hsrc
                  exact ⟨⟨hnc, hwf⟩, fun _ => rfl,
                    cacheGood_insert hcg1 ⟨hnc, hwf, rfl⟩⟩
              · dsimp only at hres
                rcases h1 : computeKnownBitsImpl A fuel
                    ((A.mf.vregDef r).getOperand 1).getReg d (depth + 1) cache
                    with _ | ⟨k1, c1⟩ <;> rw [h1] at hres
                · cases hres
                · obtain ⟨⟨hc1, hw1⟩, hwd1, hcg1⟩ := ihP _ _ _ _ _ hcg h1
                  simp only [Option.bind_eq_bind, Option.some_bind] at hres
                  cases hres
                  obtain ⟨hv1, hs1⟩ := hA.ext_types r (by rw [hoc]; simp)
                  have hsrc : k1.w ≤ (A.mf.regType r).getSizeInBits := by
                    rw [hwd1 hv1]
                    exact hs1
                  have hnc : NoConflict (k1.anyext (A.mf.regType r).getSizeInBits) := anyext_noConflict hc1 _
                  have hwf : WfKB (k1.anyext (A.mf.regType r).getSizeInBits) := anyext_wf hw1 hsrc
                  exact ⟨⟨hnc, hwf⟩, fun _ => rfl,
                    cacheGood_insert hcg1 ⟨hnc, hwf, rfl⟩⟩
              · dsimp only at hres
                rcases hrk : (A.mf.vregDef r).rangeKnown with _ | k0 <;> rw [hrk] at hres <;>
                  cases hres
                · exact ⟨⟨unknown_noConflict _, unknown_wf _⟩, fun _ => rfl,
                    cacheGood_insert hcg ⟨unknown_noConflict _, unknown_wf _, rfl⟩⟩
                · obtain ⟨hkc, hkw2, hkb⟩ := hA.range_known r k0 hrk
                  exact ⟨⟨hkc, hkw2⟩, fun _ => hkb, cacheGood_insert hcg ⟨hkc, hkw2, hkb⟩⟩
              · dsimp only at hres
                cases hres
                have hms := hA.zextload_size r hoc
                have hnc : NoConflict (⟨(A.mf.regType r).getSizeInBits,
                    bitsFrom (A.mf.regType r).getSizeInBits (A.mf.vregDef r).memSizeInBits,
                    0⟩ : KnownBits) := by
                  unfold NoConflict
                  simp
                have hwf : WfKB (⟨(A.mf.regType r).getSizeInBits,
                    bitsFrom (A.mf.regType r).getSizeInBits (A.mf.vregDef r).memSizeInBits,
                    0⟩ : KnownBits) := ⟨bitsFrom_lt hms, Nat.two_pow_pos _⟩
                exact ⟨⟨hnc, hwf⟩, fun _ => rfl, cacheGood_insert hcg ⟨hnc, hwf, rfl⟩⟩
              · dsimp only at hres
                cases hres
                obtain ⟨hkc, hkw2, hkb⟩ := hA.oracle_instr r d depth
                exact ⟨⟨hkc, hkw2⟩, fun _ => hkb, cacheGood_insert hcg ⟨hkc, hkw2, hkb⟩⟩
              · dsimp only at hres
                rcases h1 : computeKnownBitsImpl A fuel
                    ((A.mf.vregDef r).getOperand 2).getReg d (depth + 1) cache
                    with _ | ⟨k1, c1⟩ <;> rw [h1] at hres
                · cases hres
                · obtain ⟨⟨hc1, hw1⟩, hwd1, hcg1⟩ := ihP _ _ _ _ _ hcg h1
                  simp only [Option.bind_eq_bind, Option.some_bind] at hres
                  by_cases hconst : (!k1.isConstant) = true
                  · rw [if_pos hconst] at hres
                    cases hres
                    exact ⟨⟨unknown_noConflict _, unknown_wf _⟩, fun _ => rfl,
                      cacheGood_insert hcg1 ⟨unknown_noConflict _, unknown_wf _, rfl⟩⟩
                  · rw [if_neg hconst] at hres
                    by_cases hshift : (A.mf.regType
                        ((A.mf.vregDef r).getOperand 1).getReg).getScalarSizeInBits ≤
                        k1.getConstant
                    · rw [if_pos hshift] at hres
                      cases hres
                      exact ⟨⟨unknown_noConflict _, unknown_wf _⟩, fun _ => rfl,
                        cacheGood_insert hcg1 ⟨unknown_noConflict _, unknown_wf _, rfl⟩⟩
                    · rw [if_neg hshift] at hres
                      rcases h2 : computeKnownBitsImpl A fuel
                          ((A.mf.vregDef r).getOperand 1).getReg d (depth + 1) c1
                          with _ | ⟨k2, c2'⟩ <;> rw [h2] at hres
                      · cases hres
                      · obtain ⟨⟨hc2, hw2⟩, hwd2, hcg2⟩ := ihP _ _ _ _ _ hcg1 h2
                        simp only [Option.bind_eq_bind, Option.some_bind] at hres
                        cases hres
                        obtain ⟨hv1, hs1, hscal⟩ := hA.shift_types r (by rw [hoc]; simp)
                        have hk2w : k2.w = (A.mf.regType r).getSizeInBits := by
                          rw [hwd2 hv1]
                          exact hs1
                        have hnc : NoConflict (⟨k2.w, ashrNat k2.w k2.zero k1.getConstant, ashrNat k2.w k2.one k1.getConstant⟩ : KnownBits) := ashrRes_noConflict hc2 hw2 _
                        have hwf : WfKB (⟨k2.w, ashrNat k2.w k2.zero k1.getConstant, ashrNat k2.w k2.one k1.getConstant⟩ : KnownBits) := ashrRes_wf hw2 _
                        exact ⟨⟨hnc, hwf⟩, fun _ => hk2w,
                          cacheGood_insert hcg2 ⟨hnc, hwf, hk2w⟩⟩
              · dsimp only at hres
                rcases h1 : computeKnownBitsImpl A fuel
                    ((A.mf.vregDef r).getOperand 2).getReg d (depth + 1) cache
                    with _ | ⟨k1, c1⟩ <;> rw [h1] at hres
                · cases hres
                · obtain ⟨⟨hc1, hw1⟩, hwd1, hcg1⟩ := ihP _ _ _ _ _ hcg h1
                  simp only [Option.bind_eq_bind, Option.some_bind] at hres
                  by_cases hconst : (!k1.isConstant) = true
                  · rw [if_pos hconst] at hres
                    cases hres
                    exact ⟨⟨unknown_noConflict _, unknown_wf _⟩, fun _ => rfl,
                      cacheGood_insert hcg1 ⟨unknown_noConflict _, unknown_wf _, rfl⟩⟩
                  · rw [if_neg hconst] at hres
                    by_cases hshift : (A.mf.regType
                        ((A.mf.vregDef r).getOperand 1).getReg).getScalarSizeInBits ≤
                        k1.getConstant
                    · rw [if_pos hshift] at hres
                      cases hres
                      exact ⟨⟨unknown_noConflict _, unknown_wf _⟩, fun _ => rfl,
                        cacheGood_insert hcg1 ⟨unknown_noConflict _, unknown_wf _, rfl⟩⟩
                    · rw [if_neg hshift] at hres
                      rcases h2 : computeKnownBitsImpl A fuel
                          ((A.mf.vregDef r).getOperand 1).getReg d (depth + 1) c1
                          with _ | ⟨k2, c2'⟩ <;> rw [h2] at hres
                      · cases hres
                      · obtain ⟨⟨hc2, hw2⟩, hwd2, hcg2⟩ := ihP _ _ _ _ _ hcg1 h2
                        simp only [Option.bind_eq_bind, Option.some_bind] at hres
                        cases hres
                        obtain ⟨hv1, hs1, hscal⟩ := hA.shift_types r (by rw [hoc]; simp)
                        have hk2w : k2.w = (A.mf.regType r).getSizeInBits := by
                          rw [hwd2 hv1]
                          exact hs1
                        have hnc : NoConflict (⟨k2.w, (k2.zero >>> k1.getConstant) ||| bitsFrom k2.w (k2.w - k1.getConstant), k2.one >>> k1.getConstant⟩ : KnownBits) := lshrRes_noConflict hc2 hw2 _
                        have hwf : WfKB (⟨k2.w, (k2.zero >>> k1.getConstant) ||| bitsFrom k2.w (k2.w - k1.getConstant), k2.one >>> k1.getConstant⟩ : KnownBits) := lshrRes_wf hw2 _
                        exact ⟨⟨hnc, hwf⟩, fun _ => hk2w,
                          cacheGood_insert hcg2 ⟨hnc, hwf, hk2w⟩⟩
              · dsimp only at hres
                rcases h1 : computeKnownBitsImpl A fuel
                    ((A.mf.vregDef r).getOperand 2).getReg d (depth + 1) cache
                    with _ | ⟨k1, c1⟩ <;> rw [h1] at hres
                · cases hres
                · obtain ⟨⟨hc1, hw1⟩, hwd1, hcg1⟩ := ihP _ _ _ _ _ hcg h1
                  simp only [Option.bind_eq_bind, Option.some_bind] at hres
                  by_cases hconst : (!k1.isConstant) = true
                  · rw [if_pos hconst] at hres
                    cases hres
                    exact ⟨⟨unknown_noConflict _, unknown_wf _⟩, fun _ => rfl,
                      cacheGood_insert hcg1 ⟨unknown_noConflict _, unknown_wf _, rfl⟩⟩
                  · rw [if_neg hconst] at hres
                    by_cases hshift : (A.mf.regType
                        ((A.mf.vregDef r).getOperand 1).getReg).getScalarSizeInBits ≤
                        k1.getConstant
                    · rw [if_pos hshift] at hres
                      cases hres
                      exact ⟨⟨unknown_noConflict _, unknown_wf _⟩, fun _ => rfl,
                        cacheGood_insert hcg1 ⟨unknown_noConflict _, unknown_wf _, rfl⟩⟩
                    · rw [if_neg hshift] at hres
                      rcases h2 : computeKnownBitsImpl A fuel
                          ((A.mf.vregDef r).getOperand 1).getReg d (depth + 1) c1
                          with _ | ⟨k2, c2'⟩ <;> rw [h2] at hres
                      · cases hres
                      · obtain ⟨⟨hc2, hw2⟩, hwd2, hcg2⟩ := ihP _ _ _ _ _ hcg1 h2
                        simp only [Option.bind_eq_bind, Option.some_bind] at hres
                        cases hres
                        obtain ⟨hv1, hs1, hscal⟩ := hA.shift_types r (by rw [hoc]; simp)
                        have hk2w : k2.w = (A.mf.regType r).getSizeInBits := by
                          rw [hwd2 hv1]
                          exact hs1
                        have hsle : k1.getConstant ≤ k2.w := by
                          rw [hwd2 hv1]
                          omega
                        have hnc : NoConflict (⟨k2.w, (k2.zero <<< k1.getConstant) % 2 ^ k2.w ||| ones k1.getConstant, (k2.one <<< k1.getConstant) % 2 ^ k2.w⟩ : KnownBits) := shlRes_noConflict hc2 _
                        have hwf : WfKB (⟨k2.w, (k2.zero <<< k1.getConstant) % 2 ^ k2.w ||| ones k1.getConstant, (k2.one <<< k1.getConstant) % 2 ^ k2.w⟩ : KnownBits) := shlRes_wf hsle
                        exact ⟨⟨hnc, hwf⟩, fun _ => hk2w,
                          cacheGood_insert hcg2 ⟨hnc, hwf, hk2w⟩⟩
              · dsimp only at hres
                rcases h1 : computeKnownBitsImpl A fuel
                    ((A.mf.vregDef r).getOperand 1).getReg d (depth + 1) cache
                    with _ | ⟨k1, c1⟩ <;> rw [h1] at hres
                · cases hres
                · obtain ⟨⟨hc1, hw1⟩, hwd1, hcg1⟩ := ihP _ _ _ _ _ hcg h1
                  simp only [Option.bind_eq_bind, Option.some_bind] at hres
                  cases hres
                  obtain ⟨hv1, hsle⟩ := hA.zext_types r (by rw [hoc]; simp)
                  have hsrc : k1.w ≤
                      (if (A.mf.regType ((A.mf.vregDef r).getOperand 1).getReg).isPointer then
                        A.dl.indexSizeInBits
                          (A.mf.regType ((A.mf.vregDef r).getOperand 1).getReg).getAddressSpace
                      else (A.mf.regType
                        ((A.mf.vregDef r).getOperand 1).getReg).getSizeInBits) := by
                    rw [hwd1 hv1]
                    exact hsle
                  obtain ⟨hzc, hzw, hzb⟩ := zextArm_good hc1 hw1 hsrc
                  exact ⟨⟨hzc, hzw⟩, fun _ => hzb, cacheGood_insert hcg1 ⟨hzc, hzw, hzb⟩⟩
              · dsimp only at hres
                rcases h1 : computeKnownBitsImpl A fuel
                    ((A.mf.vregDef r).getOperand 1).getReg d (depth + 1) cache
                    with _ | ⟨k1, c1⟩ <;> rw [h1] at hres
                · cases hres
                · obtain ⟨⟨hc1, hw1⟩, hwd1, hcg1⟩ := ihP _ _ _ _ _ hcg h1
                  simp only [Option.bind_eq_bind, Option.some_bind] at hres
                  cases hres
                  obtain ⟨hv1, hsle⟩ := hA.zext_types r (by rw [hoc]; simp)
                  have hsrc : k1.w ≤
                      (if (A.mf.regType ((A.mf.vregDef r).getOperand 1).getReg).isPointer then
                        A.dl.indexSizeInBits
                          (A.mf.regType ((A.mf.vregDef r).getOperand 1).getReg).getAddressSpace
                      else (A.mf.regType
                        ((A.mf.vregDef r).getOperand 1).getReg).getSizeInBits) := by
                    rw [hwd1 hv1]
                    exact hsle
                  obtain ⟨hzc, hzw, hzb⟩ := zextArm_good hc1 hw1 hsrc
                  exact ⟨⟨hzc, hzw⟩, fun _ => hzb, cacheGood_insert hcg1 ⟨hzc, hzw, hzb⟩⟩
              · dsimp only at hres
                rcases h1 : computeKnownBitsImpl A fuel
                    ((A.mf.vregDef r).getOperand 1).getReg d (depth + 1) cache
                    with _ | ⟨k1, c1⟩ <;> rw [h1] at hres
                · cases hres
                · obtain ⟨⟨hc1, hw1⟩, hwd1, hcg1⟩ := ihP _ _ _ _ _ hcg h1
                  simp only [Option.bind_eq_bind, Option.some_bind] at hres
                  cases hres
                  obtain ⟨hv1, hsle⟩ := hA.zext_types r (by rw [hoc]; simp)
                  have hsrc : k1.w ≤
                      (if (A.mf.regType ((A.mf.vregDef r).getOperand 1).getReg).isPointer then
                        A.dl.indexSizeInBits
                          (A.mf.regType ((A.mf.vregDef r).getOperand 1).getReg).getAddressSpace
                      else (A.mf.regType
                        ((A.mf.vregDef r).getOperand 1).getReg).getSizeInBits) := by
                    rw [hwd1 hv1]
                    exact hsle
                  obtain ⟨hzc, hzw, hzb⟩ := zextArm_good hc1 hw1 hsrc
                  exact ⟨⟨hzc, hzw⟩, fun _ => hzb, cacheGood_insert hcg1 ⟨hzc, hzw, hzb⟩⟩
              · dsimp only at hres
                rcases h1 : computeKnownBitsImpl A fuel
                    ((A.mf.vregDef r).getOperand 1).getReg d (depth + 1) cache
                    with _ | ⟨k1, c1⟩ <;> rw [h1] at hres
                · cases hres
                · obtain ⟨⟨hc1, hw1⟩, hwd1, hcg1⟩ := ihP _ _ _ _ _ hcg h1
                  simp only [Option.bind_eq_bind, Option.some_bind] at hres
                  cases hres
                  obtain ⟨hv1, hsle⟩ := hA.zext_types r (by rw [hoc]; simp)
                  have hsrc : k1.w ≤
                      (if (A.mf.regType ((A.mf.vregDef r).getOperand 1).getReg).isPointer then
                        A.dl.indexSizeInBits
                          (A.mf.regType ((A.mf.vregDef r).getOperand 1).getReg).getAddressSpace
                      else (A.mf.regType
                        ((A.mf.vregDef r).getOperand 1).getReg).getSizeInBits) := by
                    rw [hwd1 hv1]
                    exact hsle
                  obtain ⟨hzc, hzw, hzb⟩ := zextArm_good hc1 hw1 hsrc
                  exact ⟨⟨hzc, hzw⟩, fun _ => hzb, cacheGood_insert hcg1 ⟨hzc, hzw, hzb⟩⟩
              · dsimp only at hres
                rcases hm : mergeLoop
                    (fun r' c => computeKnownBitsImpl A fuel r' d (depth + 1) c)
                    (A.mf.regType ((A.mf.vregDef r).getOperand 1).getReg).getSizeInBits
                    ((A.mf.vregDef r).operands.drop 1) 0
                    (KnownBits.unknown (A.mf.regType r).getSizeInBits) cache
                    with _ | p <;> rw [hm] at hres
                · cases hres
                · have hrec : ∀ r' c k' c', CacheGood A c →
                      computeKnownBitsImpl A fuel r' d (depth + 1) c = some (k', c') →
                      (NoConflict k' ∧ WfKB k') ∧
                      ((A.mf.regType r').isValid = true →
                        k'.w = (A.mf.regType r').getSizeInBits) ∧
                      CacheGood A c' := fun r' c k' c' hc h => ihP r' (depth + 1) c k' c' hc h
                  obtain ⟨hmt, hml⟩ := hA.merge_types r hoc
                  obtain ⟨hpc, hpw, hpb, hcgp⟩ := mergeLoop_good A _ hrec _ _ _ _ _ _ _
                    (unknown_noConflict _) (unknown_wf _) rfl hmt (by simpa using hml) hcg hm
                  cases hres
                  exact ⟨⟨hpc, hpw⟩, fun _ => hpb, cacheGood_insert hcgp ⟨hpc, hpw, hpb⟩⟩
              · dsimp only at hres
                by_cases hvq : (A.mf.regType ((A.mf.vregDef r).getOperand
                    ((A.mf.vregDef r).getNumOperands - 1)).getReg).isVector = true
                · rw [if_pos hvq] at hres
                  cases hres
                  exact ⟨⟨unknown_noConflict _, unknown_wf _⟩, fun _ => rfl, hcg⟩
                · rw [if_neg hvq] at hres
                  rcases h1 : computeKnownBitsImpl A fuel
                      ((A.mf.vregDef r).getOperand
                        ((A.mf.vregDef r).getNumOperands - 1)).getReg d (depth + 1) cache
                      with _ | ⟨k1, c1⟩ <;> rw [h1] at hres
                  · cases hres
                  · obtain ⟨⟨hc1, hw1⟩, hwd1, hcg1⟩ := ihP _ _ _ _ _ hcg h1
                    simp only [Option.bind_eq_bind, Option.some_bind] at hres
                    cases hres
                    exact ⟨⟨extractBits_noConflict hc1 _ _, extractBits_wf k1 _ _⟩,
                      fun _ => rfl,
                      cacheGood_insert hcg1 ⟨extractBits_noConflict hc1 _ _,
                        extractBits_wf k1 _ _, rfl⟩⟩
              · dsimp only at hres
                rcases h1 : computeKnownBitsImpl A fuel
                    ((A.mf.vregDef r).getOperand 1).getReg d (depth + 1) cache
                    with _ | ⟨k1, c1⟩ <;> rw [h1] at hres
                · cases hres
                · obtain ⟨⟨hc1, hw1⟩, hwd1, hcg1⟩ := ihP _ _ _ _ _ hcg h1
                  simp only [Option.bind_eq_bind, Option.some_bind] at hres
                  cases hres
                  obtain ⟨hv1, hs1⟩ := hA.bswap_types r (by rw [hoc]; simp)
                  have hk1w : k1.w = (A.mf.regType r).getSizeInBits := by
                    rw [hwd1 hv1]
                    exact hs1
                  have hnc : NoConflict k1.byteSwap := byteSwap_noConflict hc1
                  have hwf : WfKB k1.byteSwap := byteSwap_wf k1
                  exact ⟨⟨hnc, hwf⟩, fun _ => hk1w,
                    cacheGood_insert hcg1 ⟨hnc, hwf, hk1w⟩⟩
              · dsimp only at hres
                rcases h1 : computeKnownBitsImpl A fuel
                    ((A.mf.vregDef r).getOperand 1).getReg d (depth + 1) cache
                    with _ | ⟨k1, c1⟩ <;> rw [h1] at hres
                · cases hres
                · obtain ⟨⟨hc1, hw1⟩, hwd1, hcg1⟩ := ihP _ _ _ _ _ hcg h1
                  simp only [Option.bind_eq_bind, Option.some_bind] at hres
                  cases hres
                  obtain ⟨hv1, hs1⟩ := hA.bswap_types r (by rw [hoc]; simp)
                  have hk1w : k1.w = (A.mf.regType r).getSizeInBits := by
                    rw [hwd1 hv1]
                    exact hs1
                  have hnc : NoConflict k1.reverseBits := reverseBits_noConflict hc1
                  have hwf : WfKB k1.reverseBits := reverseBits_wf k1
                  exact ⟨⟨hnc, hwf⟩, fun _ => hk1w,
                    cacheGood_insert hcg1 ⟨hnc, hwf, hk1w⟩⟩
              · dsimp only at hres
                cases hres
                obtain ⟨hkc, hkw2, hkb⟩ := hA.oracle_instr r d depth
                exact ⟨⟨hkc, hkw2⟩, fun _ => hkb, cacheGood_insert hcg ⟨hkc, hkw2, hkb⟩⟩
              · dsimp only at hres
                cases hres
                obtain ⟨hkc, hkw2, hkb⟩ := hA.oracle_instr r d depth
                exact ⟨⟨hkc, hkw2⟩, fun _ => hkb, cacheGood_insert hcg ⟨hkc, hkw2, hkb⟩⟩
              · dsimp only at hres
                cases hres
                obtain ⟨hkc, hkw2, hkb⟩ := hA.oracle_instr r d depth
                exact ⟨⟨hkc, hkw2⟩, fun _ => hkb, cacheGood_insert hcg ⟨hkc, hkw2, hkb⟩⟩
              · dsimp only at hres
                cases hres
                obtain ⟨hkc, hkw2, hkb⟩ := hA.oracle_instr r d depth
                exact ⟨⟨hkc, hkw2⟩, fun _ => hkb, cacheGood_insert hcg ⟨hkc, hkw2, hkb⟩⟩
        · simp only [hvec, if_true] at hres
          cases hres
          exact ⟨⟨unknown_noConflict _, unknown_wf _⟩, fun _ => rfl, hcg⟩
      · dsimp only at hres
        cases hres
        obtain ⟨hx1, hx2, hx3⟩ := cacheGood_find hcg hcf
        exact ⟨⟨hx1, hx2⟩, fun _ => hx3, hcg⟩

/-- C3: no-conflict is preserved. (1) Every KnownBits algebra operation returns
a conflict-free result on conflict-free, equal-width, well-formed inputs
(including `computeForAddSub` with either NSW flag). (2) Inside
`computeForAddCarry` the asserted invariant holds: `PossibleSumZero` and
`PossibleSumOne` agree on every position of the known mask. (3) For a
well-formed machine function and oracles, every result of the recursive
dispatcher `computeKnownBitsImpl` satisfies `!hasConflict()`, so the
post-dispatch assertion never fires. -/
theorem C3_no_conflict_preserved :
    (∀ a b : KnownBits, b.w = a.w → NoConflict a → NoConflict b → WfKB a → WfKB b →
      NoConflict (KnownBits.and a b) ∧ NoConflict (KnownBits.or a b) ∧
      NoConflict (KnownBits.xor a b) ∧
      (∀ add nsw : Bool, NoConflict (KnownBits.computeForAddSub add nsw a b)) ∧
      NoConflict (KnownBits.computeForMul a b) ∧ NoConflict (KnownBits.umin a b) ∧
      NoConflict (KnownBits.umax a b) ∧ NoConflict (KnownBits.smin a b) ∧
      NoConflict (KnownBits.smax a b) ∧ NoConflict (KnownBits.shl a b) ∧
      NoConflict (KnownBits.lshr a b) ∧ NoConflict (KnownBits.ashr a b)) ∧
    (∀ a b : KnownBits, ∀ cz co : Bool, b.w = a.w → NoConflict a → NoConflict b →
      WfKB a → WfKB b → ¬(cz = true ∧ co = true) →
      KnownBits.possibleSumZero a b cz &&& KnownBits.addCarryKnownMask a b cz co =
        KnownBits.possibleSumOne a b co &&& KnownBits.addCarryKnownMask a b cz co) ∧
    (∀ A : GISelKnownBits, WfMIR A → ∀ fuel r demandedElts depth cache k cache2,
      CacheGood A cache →
      computeKnownBitsImpl A fuel r demandedElts depth cache = some (k, cache2) →
      k.hasConflict = false) := by
  refine ⟨?_, ?_, ?_⟩
  · intro a b hw hca hcb hwa hwb
    have m1 := matches_one hca hwa
    have m2 := matches_one hcb hwb
    exact ⟨and_noConflict hca hcb, or_noConflict hca hcb, xor_noConflict hca hcb,
      fun add nsw => addSub_noConflict add nsw hw hca hcb hwa hwb,
      mul_noConflict hw hca hcb hwa hwb,
      umin_noConflict hw hca hcb hwa hwb, umax_noConflict hw hca hcb hwa hwb,
      smin_noConflict hw hca hcb hwa hwb, smax_noConflict hw hca hcb hwa hwb,
      noConflict_of_matches (shl_matches hw hca hcb hwa hwb m1 m2),
      noConflict_of_matches (lshr_matches hw hca hcb hwa hwb m1 m2),
      noConflict_of_matches (ashr_matches hw hca hcb hwa hwb m1 m2)⟩
  · intro a b cz co hw hca hcb hwa hwb hczo
    exact addCarry_invariant hw hca hcb hwa hwb cz co hczo
  · intro A hmir fuel r d depth cache k c2 hcg hres
    exact hasConflict_eq_false ((impl_good A hmir fuel r d depth cache k c2 hcg hres).1.1)
